import Mathlib

/-!
Data-Structures-Cpp: the record stores and the sorts.

A shallow embedding of the three keyed record stores of the repository
(`BinarySearchTree.cpp`, `HashTable.cpp`, `LinkedList.cpp`) and of the two sorts of
`VectorSorting.cpp`, and the properties proved about them.

Conventions of the embedding.

* `std::string` is `String`; `operator<` on `std::string` is the lexicographic
  comparison `strLess` of the character codes (a proper prefix is smaller),
  `operator>` is `strLess` with the arguments exchanged, `operator==` is
  equality.
* `double amount` is carried as an opaque payload (the bit pattern of the
  double, `0` for `0.0`); no store ever computes with it.
* A pointer to a heap node is either null or a node; owned links are modelled
  by the node they point to.  `delete` does not change what the remaining
  pointers designate; it ends the lifetime of the node, which is recorded in
  the `live` flag of a node.
* A call that throws, divides by zero, dereferences `nullptr` or indexes outside
  a vector returns a `Fault`.  In the tree, a read of a field of a destroyed node
  and a second `delete` of it return a `Fault` as well.  In the linked list the
  only access to a destroyed node is the write `tail->next = newNode` of `Append`
  through a `tail` that `Remove` has left behind; it is recorded in the heap
  under the address of that node, which no walk from `head` reaches.
-/

/-! ## Records -/

/-- The `Bid` struct shared by all the sources. -/
structure Bid where
  bidId : String
  title : String
  fund : String
  amount : Nat
deriving DecidableEq

/-- The default constructor `Bid()`: empty strings and `amount = 0.0`. -/
instance : Inhabited Bid := ⟨⟨"", "", "", 0⟩⟩

/-! ## Lexicographic comparison of `std::string` -/

/-- Lexicographic comparison of two character sequences by character code. -/
def charsLess : List Char → List Char → Bool
  | [], [] => false
  | [], _ :: _ => true
  | _ :: _, [] => false
  | a :: as, b :: bs =>
    if a.toNat < b.toNat then true
    else if b.toNat < a.toNat then false
    else charsLess as bs

/-- The C++ `a < b` on `std::string`. -/
def strLess (a b : String) : Bool := charsLess a.toList b.toList

/-! ## Faults -/

/-- The ways in which a call can fail to return: the two exceptions of `std::stoi`, the
operations whose behaviour is undefined in C++ (division by zero, dereference of
`nullptr`, an index outside a vector, a pointer that is not the address of a node or, in the tree,
is the address of a node that has been destroyed), and a loop that does not end within the
bound given to it. -/
inductive Fault where
  | invalidArgument
  | outOfRange
  | divisionByZero
  | nullDereference
  | outOfBounds
  | invalidPointer
  | fuelExhausted
deriving DecidableEq

deriving instance DecidableEq for Except

/-! ## Binary search tree (`BinarySearchTree.cpp`) -/

namespace BinarySearchTree

/-- A `Node*`: null, or a node with its record and its two owned links.
`live` is false once the node has been destroyed. -/
inductive Node where
  | null : Node
  | node (live : Bool) (data : Bid) (left right : Node) : Node
deriving DecidableEq

/-- The effect of `delete p`: `~Node` runs `delete left; delete right;`, so the whole
subtree under `p` is destroyed.  `delete nullptr` does nothing; `delete` of a node that
has been destroyed before is a fault. -/
def destroy : Node → Except Fault Node
  | .null => .ok .null
  | .node false _ _ _ => .error .invalidPointer
  | .node true d l r =>
    match destroy l with
    | .error e => .error e
    | .ok l1 =>
      match destroy r with
      | .error e => .error e
      | .ok r1 => .ok (.node false d l1 r1)

/-- The `new Node(bid)` expression. -/
def newNode (bid : Bid) : Node := .node true bid .null .null

/-- `BinarySearchTree::AddNode`.  The comparison reads `node->data`: a fault when the
node has been destroyed. -/
def AddNode : Node → Bid → Except Fault Node
  | .null, bid => .ok (newNode bid)
  | .node false _ _ _, _ => .error .invalidPointer
  | .node true d l r, bid =>
    if strLess bid.bidId d.bidId then
      match AddNode l bid with
      | .error e => .error e
      | .ok l1 => .ok (.node true d l1 r)
    else if strLess d.bidId bid.bidId then
      match AddNode r bid with
      | .error e => .error e
      | .ok r1 => .ok (.node true d l r1)
    else .ok (.node true d l r)

/-- `BinarySearchTree::Traverse`: the records in the order they are printed.  The call
reads `node->left`, `node->data` and `node->right`: a fault when the node has been
destroyed. -/
def Traverse : Node → Except Fault (List Bid)
  | .null => .ok []
  | .node false _ _ _ => .error .invalidPointer
  | .node true d l r =>
    match Traverse l with
    | .error e => .error e
    | .ok xs =>
      match Traverse r with
      | .error e => .error e
      | .ok ys => .ok (xs ++ d :: ys)

/-- `BinarySearchTree::SearchNode`: the node found, or null.  The test reads
`node->data`: a fault when the node has been destroyed. -/
def SearchNode : Node → String → Except Fault Node
  | .null, _ => .ok .null
  | .node false _ _ _, _ => .error .invalidPointer
  | .node true d l r, bidId =>
    if d.bidId = bidId then .ok (.node true d l r)
    else if strLess d.bidId bidId then SearchNode r bidId
    else SearchNode l bidId

/-- The node `succ` at the end of the loop `while (succ->left) ...` of
`RemoveNode`, started at the given node.  Each test reads `succ->left`: a fault when
that node has been destroyed. -/
def succNode : Node → Except Fault Node
  | .null => .error .nullDereference
  | .node false _ _ _ => .error .invalidPointer
  | .node true d l r =>
    match l with
    | .null => .ok (.node true d .null r)
    | .node lv2 d2 l2 r2 => succNode (.node lv2 d2 l2 r2)

/-- The record of a node (`node->data`); the default record for null, a case
that is never evaluated by `RemoveNode`. -/
def Node.data : Node → Bid
  | .null => default
  | .node _ d _ _ => d

/-- The branch `succParent != node` of `RemoveNode`, applied to the right
child of the removed node: the loop walks down the left links to `succ`,
then `succParent->left = succ->right` and `delete succ`, which destroys the
subtree `succ->right` that has just been linked to `succParent`. -/
def unlinkSucc : Node → Except Fault Node
  | .null => .error .nullDereference
  | .node false _ _ _ => .error .invalidPointer
  | .node true d l r =>
    match l with
    | .null => .ok (.node true d .null r)
    | .node lv2 d2 l2 r2 =>
      match l2 with
      | .null =>
        -- `l` is `succ`: the test `succ->left` has read it
        if lv2 = true then
          match destroy r2 with
          | .error e => .error e
          | .ok r3 => .ok (.node true d r3 r)
        else .error .invalidPointer
      | .node lv3 d3 l3 r3 =>
        match unlinkSucc (.node lv2 d2 (.node lv3 d3 l3 r3) r2) with
        | .error e => .error e
        | .ok l1 => .ok (.node true d l1 r)

/-- `BinarySearchTree::RemoveNode`.  The comparisons read `node->data`: a fault when
the node has been destroyed. -/
def RemoveNode : Node → String → Except Fault Node
  | .null, _ => .ok .null
  | .node false _ _ _, _ => .error .invalidPointer
  | .node true d l r, bidId =>
    if strLess bidId d.bidId then
      match RemoveNode l bidId with
      | .error e => .error e
      | .ok l1 => .ok (.node true d l1 r)
    else if strLess d.bidId bidId then
      match RemoveNode r bidId with
      | .error e => .error e
      | .ok r1 => .ok (.node true d l r1)
    else
      match l, r with
      -- CASE 1: a leaf
      | .null, .null => .ok .null
      -- CASE 2: one child; `delete node` destroys the child subtree as well, and the
      -- pointer to the child is returned
      | .null, .node rlv rd rl rr => destroy (.node rlv rd rl rr)
      | .node llv ld ll lr, .null => destroy (.node llv ld ll lr)
      -- CASE 3: two children
      | .node llv ld ll lr, .node rlv rd rl rr =>
        match rl with
        -- `succParent == node`: `succParent->right = succ->right`, then `delete succ`
        | .null =>
          if rlv = true then
            match destroy rr with
            | .error e => .error e
            | .ok rr1 => .ok (.node true rd (.node llv ld ll lr) rr1)
          else .error .invalidPointer
        -- `succParent != node`: `succParent->left = succ->right`, then `delete succ`
        | .node xlv xd xl xr =>
          match succNode (.node rlv rd (.node xlv xd xl xr) rr),
              unlinkSucc (.node rlv rd (.node xlv xd xl xr) rr) with
          | .ok succ, .ok r1 => .ok (.node true succ.data (.node llv ld ll lr) r1)
          | .error e, _ => .error e
          | _, .error e => .error e

end BinarySearchTree

/-- The class `BinarySearchTree`: its only member is `root`. -/
structure BinarySearchTree where
  root : BinarySearchTree.Node
deriving DecidableEq

namespace BinarySearchTree

/-- The constructor `BinarySearchTree()`. -/
def empty : BinarySearchTree := ⟨.null⟩

/-- `BinarySearchTree::Insert`. -/
def Insert (t : BinarySearchTree) (bid : Bid) : Except Fault BinarySearchTree :=
  match AddNode t.root bid with
  | .error e => .error e
  | .ok n => .ok ⟨n⟩

/-- `BinarySearchTree::Remove`. -/
def Remove (t : BinarySearchTree) (bidId : String) : Except Fault BinarySearchTree :=
  match RemoveNode t.root bidId with
  | .error e => .error e
  | .ok n => .ok ⟨n⟩

/-- `BinarySearchTree::InOrder`: the records printed, in order. -/
def InOrder (t : BinarySearchTree) : Except Fault (List Bid) := Traverse t.root

/-- `BinarySearchTree::Search`. -/
def Search (t : BinarySearchTree) (bidId : String) : Except Fault Bid :=
  match SearchNode t.root bidId with
  | .error e => .error e
  | .ok .null => .ok default
  | .ok (.node _ d _ _) => .ok d

/-- A call of one of the two mutating methods. -/
inductive Op where
  | insert (bid : Bid) : Op
  | remove (bidId : String) : Op
deriving DecidableEq

/-- One call applied to a tree. -/
def step (t : BinarySearchTree) : Op → Except Fault BinarySearchTree
  | .insert bid => t.Insert bid
  | .remove bidId => t.Remove bidId

/-- The tree after a sequence of calls on the given tree; the first call that faults
ends the sequence. -/
def runFrom (t : BinarySearchTree) : List Op → Except Fault BinarySearchTree
  | [] => .ok t
  | op :: ops =>
    match step t op with
    | .error e => .error e
    | .ok t1 => runFrom t1 ops

/-- The tree after a sequence of calls on the empty tree. -/
def run (ops : List Op) : Except Fault BinarySearchTree := runFrom empty ops

/-- The order of two records by `bidId`. -/
def IdLt (a b : Bid) : Prop := strLess a.bidId b.bidId = true

/-- Every node of the tree is live: no node reachable from the root has been destroyed. -/
def allLive : Node → Bool
  | .null => true
  | .node lv _ l r => lv && allLive l && allLive r

/-! ### The records and links of a tree

The functions below describe a tree by the fields recorded in its nodes, whether the
nodes are live or not.  They are used to state what the functions above return when they
return, and are not a second account of the source. -/

/-- The records of a tree from left to right. -/
def records : Node → List Bid
  | .null => []
  | .node _ d l r => records l ++ d :: records r

/-- The in-order sequence of the records of the tree is strictly ascending by `bidId`. -/
def Sorted (n : Node) : Prop := (records n).Pairwise IdLt

/-- The tree with every node marked as destroyed. -/
def destroyed : Node → Node
  | .null => .null
  | .node _ d l r => .node false d (destroyed l) (destroyed r)

/-- The record of the leftmost node of a tree (the default record for the empty tree). -/
def leftmostData : Node → Bid
  | .null => default
  | .node _ d l _ =>
    match l with
    | .null => d
    | .node lv2 d2 l2 r2 => leftmostData (.node lv2 d2 l2 r2)

/-- The right child of the leftmost node of a tree. -/
def leftmostRight : Node → Node
  | .null => .null
  | .node _ _ l r =>
    match l with
    | .null => r
    | .node lv2 d2 l2 r2 => leftmostRight (.node lv2 d2 l2 r2)

/-- The tree with its leftmost node replaced by the given tree. -/
def replaceLeftmost (sub : Node) : Node → Node
  | .null => .null
  | .node lv d l r =>
    match l with
    | .null => sub
    | .node lv2 d2 l2 r2 => .node lv d (replaceLeftmost sub (.node lv2 d2 l2 r2)) r

/-- The tree with its leftmost node replaced by the right child of that node. -/
def withoutLeftmost (n : Node) : Node := replaceLeftmost (leftmostRight n) n

/-- The records and links of a tree, without the record of which nodes are live. -/
def links : Node → Node
  | .null => .null
  | .node _ d l r => .node true d (links l) (links r)

end BinarySearchTree

/-! ## Hash table (`HashTable.cpp`) -/

/-- The constant `UINT_MAX` of a 32-bit `unsigned`: the key of an open bucket. -/
def UINT_MAX : Nat := 4294967295

/-- The `isspace` test of the "C" locale, on the character code. -/
def isSpaceCode (c : Char) : Bool :=
  c.toNat = 32 || (9 ≤ c.toNat && c.toNat ≤ 13)

/-- The decimal digit test, on the character code. -/
def isDigitCode (c : Char) : Bool := 48 ≤ c.toNat && c.toNat ≤ 57

/-- The value of a sequence of decimal digits. -/
def digitsValue (ds : List Char) : Nat := ds.foldl (fun acc c => 10 * acc + (c.toNat - 48)) 0

/-- The standard library function `std::stoi(str)` in base 10, with a 32-bit `int`:
leading white space is skipped, an optional sign is read, then the longest run of decimal
digits; with no digit the call throws `std::invalid_argument`, with a value outside the
range of `int` it throws `std::out_of_range`. -/
def stoi (str : String) : Except Fault Int :=
  let cs := str.toList.dropWhile isSpaceCode
  let neg : Bool := match cs with
    | c :: _ => c.toNat = 45
    | [] => false
  let rest := match cs with
    | c :: r => if c.toNat = 45 ∨ c.toNat = 43 then r else c :: r
    | [] => []
  let ds := rest.takeWhile isDigitCode
  if ds = [] then .error .invalidArgument
  else
    let v : Int := if neg then -(digitsValue ds : Int) else (digitsValue ds : Int)
    if v < -2147483648 ∨ 2147483647 < v then .error .outOfRange else .ok v

namespace HashTable

/-- A heap node of a chain, without its link: the record and the key. -/
structure Entry where
  bid : Bid
  key : Nat
deriving DecidableEq

/-- The struct `HashTable::Node`, by value.  The link `next` is a `Node*`: it is modelled
by the nodes it leads to, in chain order, and is `[]` for `nullptr`. -/
structure Node where
  bid : Bid
  key : Nat
  next : List Entry
deriving DecidableEq

/-- The default constructor `Node()`: an open bucket. -/
def Node.open : Node := ⟨default, UINT_MAX, []⟩

end HashTable

/-- The class `HashTable`: the bucket count and the vector of buckets. -/
structure HashTable where
  tableSize : Nat
  nodes : List HashTable.Node
deriving DecidableEq

namespace HashTable

/-- The constructor `HashTable(size)`: `nodes.resize(tableSize)`. -/
def create (size : Nat) : HashTable := ⟨size, List.replicate size Node.open⟩

/-- `HashTable::hash`: `key % tableSize`, computed in `unsigned` after the conversion of the
`int` key to `unsigned` (modulo 2^32).  A zero bucket count is a division by zero. -/
def hash (tableSize : Nat) (key : Int) : Except Fault Nat :=
  if tableSize = 0 then .error .divisionByZero
  else .ok ((key % 4294967296).toNat % tableSize)

/-- The expression `hash(stoi(bidId))` that opens `Insert`, `Remove` and `Search`. -/
def homeBucket (t : HashTable) (bidId : String) : Except Fault Nat :=
  match stoi bidId with
  | .error e => .error e
  | .ok k => hash t.tableSize k

/-- `HashTable::Insert`.  The branch `existingNode == nullptr` is never taken: the
pointer is the address of a vector element. -/
def Insert (t : HashTable) (bid : Bid) : Except Fault HashTable :=
  match t.homeBucket bid.bidId with
  | .error e => .error e
  | .ok key =>
    match t.nodes[key]? with
    | none => .error .outOfBounds
    | some existingNode =>
      if existingNode.key = UINT_MAX then
        .ok ⟨t.tableSize, t.nodes.set key ⟨bid, key, []⟩⟩
      else
        -- walk to the last node of the chain and link a new node behind it
        .ok ⟨t.tableSize, t.nodes.set key
          ⟨existingNode.bid, existingNode.key, existingNode.next ++ [⟨bid, key⟩]⟩⟩

/-- The records a bucket contributes to `PrintAll`: the nodes of the chain, the head slot
first, whose key is not `UINT_MAX`. -/
def printBucket (node : Node) : List Bid :=
  (((⟨node.bid, node.key⟩ : Entry) :: node.next).filter (fun e => decide (e.key ≠ UINT_MAX))).map
    Entry.bid

/-- The loop of `HashTable::PrintAll` from bucket `i` on, with `n` buckets to go. -/
def printFrom (nodes : List Node) : Nat → Nat → Except Fault (List Bid)
  | 0, _ => .ok []
  | n + 1, i =>
    match nodes[i]? with
    | none => .error .outOfBounds
    | some node =>
      match printFrom nodes n (i + 1) with
      | .error e => .error e
      | .ok rest => .ok (printBucket node ++ rest)

/-- `HashTable::PrintAll`: the records printed, in order. -/
def PrintAll (t : HashTable) : Except Fault (List Bid) := printFrom t.nodes t.tableSize 0

/-- The loop of `HashTable::Remove` over the chain behind `prevNode`: the first node that
matches is unlinked (`prevNode->next = node->next`). -/
def unlinkFirst : List Entry → String → List Entry
  | [], _ => []
  | e :: rest, bidId =>
    if e.key ≠ UINT_MAX ∧ e.bid.bidId = bidId then rest
    else e :: unlinkFirst rest bidId

/-- `HashTable::Remove`. -/
def Remove (t : HashTable) (bidId : String) : Except Fault HashTable :=
  match t.homeBucket bidId with
  | .error e => .error e
  | .ok key =>
    match t.nodes[key]? with
    | none => .error .outOfBounds
    | some node =>
      if node.key = UINT_MAX then .ok t
      else if node.bid.bidId = bidId then
        -- `nodes[key] = *(node->next); node->next = nullptr;`
        match node.next with
        | [] => .error .nullDereference
        | e :: _ => .ok ⟨t.tableSize, t.nodes.set key ⟨e.bid, e.key, []⟩⟩
      else
        -- the head does not match: the loop steps over it and walks the chain
        .ok ⟨t.tableSize, t.nodes.set key ⟨node.bid, node.key, unlinkFirst node.next bidId⟩⟩

/-- The loop of `HashTable::Search` from a node on: the record of the first node that
matches, or the empty record. -/
def findFirst : List Entry → String → Bid
  | [], _ => default
  | e :: rest, bidId =>
    if e.key ≠ UINT_MAX ∧ e.bid.bidId = bidId then e.bid
    else findFirst rest bidId

/-- `HashTable::Search`. -/
def Search (t : HashTable) (bidId : String) : Except Fault Bid :=
  match t.homeBucket bidId with
  | .error e => .error e
  | .ok key =>
    match t.nodes[key]? with
    | none => .error .outOfBounds
    | some node =>
      if node.key = UINT_MAX then .ok default
      else .ok (findFirst (⟨node.bid, node.key⟩ :: node.next) bidId)

/-- A sequence of `Insert` calls, one for each record of the list, in order. -/
def insertAll (t : HashTable) : List Bid → Except Fault HashTable
  | [] => .ok t
  | bid :: rest =>
    match t.Insert bid with
    | .error e => .error e
    | .ok t1 => insertAll t1 rest

/-- A sequence of `Remove` calls, one for each id of the list, in order. -/
def removeAll (t : HashTable) : List String → Except Fault HashTable
  | [] => .ok t
  | bidId :: rest =>
    match t.Remove bidId with
    | .error e => .error e
    | .ok t1 => removeAll t1 rest

/-- An id that `std::stoi` converts. -/
def isNumeric (bidId : String) : Bool :=
  match stoi bidId with
  | .ok _ => true
  | .error _ => false

/-- The home bucket of a record in a table of `N` buckets; `N` itself when there is
none. -/
def bucketOf (N : Nat) (bid : Bid) : Nat :=
  match homeBucket ⟨N, []⟩ bid.bidId with
  | .ok i => i
  | .error _ => N

/-- The bucket `i` that holds the given records, in insertion order. -/
def nodeOf (i : Nat) : List Bid → Node
  | [] => Node.open
  | r :: rest => ⟨r, i, rest.map fun x => ⟨x, i⟩⟩

/-- The buckets of a table of `N` buckets after the given records have been inserted in
order. -/
def tableOf (N : Nat) (rs : List Bid) : List Node :=
  (List.range N).map fun i => nodeOf i (rs.filter fun r => decide (bucketOf N r = i))

end HashTable

/-! ## Linked list (`LinkedList.cpp`) -/

namespace LinkedList

/-- The struct `LinkedList::BidNode` in the heap.  A `BidNode*` is `none` for `nullptr` or
the address of a node; `live` is false once the node has been deleted. -/
structure BidNode where
  data : Bid
  next : Option Nat
  live : Bool
deriving DecidableEq

end LinkedList

/-- The class `LinkedList` with the heap its nodes are allocated in.  The address of a
node is its index in `heap`; `new` takes the next unused address. -/
structure LinkedList where
  heap : List LinkedList.BidNode
  head : Option Nat
  tail : Option Nat
  size : Int
deriving DecidableEq

namespace LinkedList

/-- The constructor `LinkedList()`. -/
def create : LinkedList := ⟨[], none, none, 0⟩

/-- `LinkedList::Append`. -/
def Append (s : LinkedList) (bid : Bid) : Except Fault LinkedList :=
  -- `newNode = new BidNode(bid)`
  let newNode := s.heap.length
  let heap1 := s.heap ++ [⟨bid, none, true⟩]
  match s.head with
  | none => .ok ⟨heap1, some newNode, some newNode, s.size + 1⟩
  | some _ =>
    -- `tail->next = newNode; tail = newNode;`
    match s.tail with
    | none => .error .nullDereference
    | some t =>
      match heap1[t]? with
      | none => .error .invalidPointer
      | some tn =>
        .ok ⟨heap1.set t ⟨tn.data, some newNode, tn.live⟩, s.head, some newNode, s.size + 1⟩

/-- `LinkedList::Prepend`. -/
def Prepend (s : LinkedList) (bid : Bid) : Except Fault LinkedList :=
  let newNode := s.heap.length
  match s.head with
  | none => .ok ⟨s.heap ++ [⟨bid, none, true⟩], some newNode, some newNode, s.size + 1⟩
  | some h =>
    -- `newNode->next = head; head = newNode;`
    .ok ⟨s.heap ++ [⟨bid, some h, true⟩], some newNode, s.tail, s.size + 1⟩

/-- The loop `while (curNode != nullptr)` of `LinkedList::PrintList` from `curNode` on:
the records displayed.  The first argument bounds the number of iterations. -/
def traverse (heap : List BidNode) : Nat → Option Nat → Except Fault (List Bid)
  | _, none => .ok []
  | 0, some _ => .error .fuelExhausted
  | fuel + 1, some cur =>
    match heap[cur]? with
    | none => .error .invalidPointer
    | some cn =>
      match traverse heap fuel cn.next with
      | .error e => .error e
      | .ok rest => .ok (cn.data :: rest)

/-- `LinkedList::PrintList`: the records displayed, in order.  A chain without a cycle
has at most as many nodes as the heap. -/
def PrintList (s : LinkedList) : Except Fault (List Bid) := traverse s.heap s.heap.length s.head

/-- The loop of `LinkedList::Remove` with the trackers `curNode` and `prevNode`.  The first
argument bounds the number of iterations. -/
def removeLoop (bidId : String) (s : LinkedList) :
    Nat → Option Nat → Option Nat → Except Fault LinkedList
  | _, none, _ => .ok s
  | 0, some _, _ => .error .fuelExhausted
  | fuel + 1, some cur, prev =>
    match s.heap[cur]? with
    | none => .error .invalidPointer
    | some cn =>
      if cn.data.bidId = bidId then
        if some cur = s.head then
          -- `sucNode = head->next; head = sucNode; if (sucNode == nullptr) tail = nullptr;`
          .ok ⟨s.heap, cn.next, if cn.next = none then none else s.tail, s.size - 1⟩
        else
          -- `prevNode->next = curNode->next; delete curNode;`
          match prev with
          | none => .error .nullDereference
          | some p =>
            match s.heap[p]? with
            | none => .error .invalidPointer
            | some pn =>
              .ok ⟨(s.heap.set p ⟨pn.data, cn.next, pn.live⟩).set cur ⟨cn.data, cn.next, false⟩,
                s.head, s.tail, s.size - 1⟩
      else removeLoop bidId s fuel cn.next (some cur)

/-- `LinkedList::Remove`. -/
def Remove (s : LinkedList) (bidId : String) : Except Fault LinkedList :=
  removeLoop bidId s s.heap.length s.head s.head

/-- The loop of `LinkedList::Search` from `curNode` on.  The first argument bounds the
number of iterations. -/
def searchLoop (heap : List BidNode) (bidId : String) : Nat → Option Nat → Except Fault Bid
  | _, none => .ok default
  | 0, some _ => .error .fuelExhausted
  | fuel + 1, some cur =>
    match heap[cur]? with
    | none => .error .invalidPointer
    | some cn =>
      if cn.data.bidId = bidId then .ok cn.data
      else searchLoop heap bidId fuel cn.next

/-- `LinkedList::Search`. -/
def Search (s : LinkedList) (bidId : String) : Except Fault Bid :=
  searchLoop s.heap bidId s.heap.length s.head

/-- `LinkedList::Size`. -/
def Size (s : LinkedList) : Int := s.size

/-- A call of one of the three mutating methods. -/
inductive Op where
  | append (bid : Bid) : Op
  | prepend (bid : Bid) : Op
  | remove (bidId : String) : Op
deriving DecidableEq

/-- One call applied to a list. -/
def step (s : LinkedList) : Op → Except Fault LinkedList
  | .append bid => s.Append bid
  | .prepend bid => s.Prepend bid
  | .remove bidId => s.Remove bidId

/-- A sequence of calls applied to a list, in order. -/
def runFrom (s : LinkedList) : List Op → Except Fault LinkedList
  | [] => .ok s
  | op :: ops =>
    match step s op with
    | .error e => .error e
    | .ok s1 => runFrom s1 ops

/-- The list after a sequence of calls on the empty list. -/
def run (ops : List Op) : Except Fault LinkedList := runFrom create ops

end LinkedList

namespace LinkedList

/-- The nodes at the addresses `addrs`, in this order, are linked from the pointer `p` to
the pointer `q`: `p` is the address of the first one, each `next` is the address of the
following one, and the `next` of the last one is `q`. -/
def IsSeg (heap : List BidNode) : Option Nat → List Nat → Option Nat → Prop
  | p, [], q => p = q
  | p, a :: rest, q => p = some a ∧ ∃ n, heap[a]? = some n ∧ IsSeg heap n.next rest q

/-- The record of the node at an address. -/
def dataAt (heap : List BidNode) (a : Nat) : Bid :=
  match heap[a]? with
  | some n => n.data
  | none => default

/-- The state of a list whose chain from `head` is made of the nodes at `addrs`: the chain
ends with `nullptr` and has no cycle; `tail` is null when `head` is, and otherwise it is
the address of a node which, when it is in the chain, is the last one. -/
def Inv (s : LinkedList) (addrs : List Nat) : Prop :=
  IsSeg s.heap s.head addrs none ∧ addrs.Nodup ∧
  (s.head = none → s.tail = none) ∧
  (s.head ≠ none → ∃ t, s.tail = some t ∧ t < s.heap.length ∧
    (t ∈ addrs → addrs.getLast? = some t))

end LinkedList

/-! ## Sorting a vector (`VectorSorting.cpp`)

A `vector<Bid>` is a list of records.  The indices are `int` values; the size of a vector
and the sums of two indices are taken to fit in an `int`.  An access `bids[i]` with an
index outside the vector is a fault. -/

namespace VectorSorting

/-- The loop `for (int j = i + 1; j < size; ++j)` of `selectionSort`, with the number of
iterations still to run, the index `j` and the current `minIdx`: the final `minIdx`. -/
def minLoop (bids : List Bid) : Nat → Nat → Nat → Except Fault Nat
  | 0, _, minIdx => .ok minIdx
  | k + 1, j, minIdx =>
    match bids[j]?, bids[minIdx]? with
    | some bj, some bm =>
      minLoop bids k (j + 1) (if strLess bj.title bm.title then j else minIdx)
    | _, _ => .error .outOfBounds

/-- The loop `for (int i = 0; i < size - 1; ++i)` of `selectionSort`, with the number of
iterations still to run and the index `i`. -/
def sortLoop (size : Nat) : Nat → Nat → List Bid → Except Fault (List Bid)
  | 0, _, bids => .ok bids
  | k + 1, i, bids =>
    match minLoop bids (size - (i + 1)) (i + 1) i with
    | .error e => .error e
    | .ok minIdx =>
      if minIdx ≠ i then
        -- `temp = bids[minIdx]; bids[minIdx] = bids[i]; bids[i] = temp;`
        match bids[minIdx]?, bids[i]? with
        | some temp, some bi => sortLoop size k (i + 1) ((bids.set minIdx bi).set i temp)
        | _, _ => .error .outOfBounds
      else sortLoop size k (i + 1) bids

/-- The function `selectionSort`: the vector after the call.  The outer loop runs
`size - 1` times, and not at all for an empty vector. -/
def selectionSort (bids : List Bid) : Except Fault (List Bid) :=
  sortLoop bids.length (bids.length - 1) 0 bids

/-- The access `bids[i]` with an `int` index. -/
def elemAt (bids : List Bid) (i : Int) : Except Fault Bid :=
  if i < 0 then .error .outOfBounds
  else
    match bids[i.toNat]? with
    | some b => .ok b
    | none => .error .outOfBounds

/-- The loop `do ++low; while (bids[low].title < pivotVal);` of `partition`: the final
`low`.  The first argument bounds the number of iterations. -/
def scanLow (bids : List Bid) (pivotVal : String) : Nat → Int → Except Fault Int
  | 0, _ => .error .fuelExhausted
  | fuel + 1, low =>
    match elemAt bids (low + 1) with
    | .error e => .error e
    | .ok b =>
      if strLess b.title pivotVal then scanLow bids pivotVal fuel (low + 1)
      else .ok (low + 1)

/-- The loop `do --high; while (bids[high].title > pivotVal);` of `partition`: the final
`high`.  The first argument bounds the number of iterations. -/
def scanHigh (bids : List Bid) (pivotVal : String) : Nat → Int → Except Fault Int
  | 0, _ => .error .fuelExhausted
  | fuel + 1, high =>
    match elemAt bids (high - 1) with
    | .error e => .error e
    | .ok b =>
      if strLess pivotVal b.title then scanHigh bids pivotVal fuel (high - 1)
      else .ok (high - 1)

/-- The loop `while (true)` of `partition`: the value returned and the vector at the
return.  The first argument bounds the number of iterations; a scan reads at most
every element once before it stops or leaves the vector. -/
def partitionLoop (pivotVal : String) : Nat → List Bid → Int → Int → Except Fault (Int × List Bid)
  | 0, _, _, _ => .error .fuelExhausted
  | fuel + 1, bids, low, high =>
    match scanLow bids pivotVal (bids.length + 1) low with
    | .error e => .error e
    | .ok low1 =>
      match scanHigh bids pivotVal (bids.length + 1) high with
      | .error e => .error e
      | .ok high1 =>
        if low1 ≥ high1 then .ok (high1, bids)
        else
          -- `temp = bids[low]; bids[low] = bids[high]; bids[high] = temp;`
          match elemAt bids low1, elemAt bids high1 with
          | .ok temp, .ok bh =>
            partitionLoop pivotVal fuel ((bids.set low1.toNat bh).set high1.toNat temp) low1 high1
          | .error e, _ => .error e
          | _, .error e => .error e

/-- The function `partition`: the value returned and the vector after the call.  The
division of `int` values truncates. -/
def partition (bids : List Bid) (begin endIdx : Int) : Except Fault (Int × List Bid) :=
  match elemAt bids (Int.tdiv (begin + endIdx) 2) with
  | .error e => .error e
  | .ok pivot => partitionLoop pivot.title (bids.length + 1) bids (begin - 1) (endIdx + 1)

/-- The recursion of `quickSort`.  The first argument bounds its depth. -/
def quickSortLoop : Nat → List Bid → Int → Int → Except Fault (List Bid)
  | 0, _, _, _ => .error .fuelExhausted
  | fuel + 1, bids, begin, endIdx =>
    if begin < endIdx then
      match partition bids begin endIdx with
      | .error e => .error e
      | .ok (p, bids1) =>
        match quickSortLoop fuel bids1 begin p with
        | .error e => .error e
        | .ok bids2 => quickSortLoop fuel bids2 (p + 1) endIdx
    else .ok bids

/-- The function `quickSort`: the vector after the call.  Each level of the recursion on a
range of valid indices works on a shorter range. -/
def quickSort (bids : List Bid) (begin endIdx : Int) : Except Fault (List Bid) :=
  quickSortLoop (bids.length + 1) bids begin endIdx

/-- The record at an index of a vector, the default record outside of it. -/
def nth (bids : List Bid) (k : Nat) : Bid := bids.getD k default

/-- The vector with the records at two indices exchanged. -/
def swapAt (bids : List Bid) (i j : Nat) : List Bid :=
  (bids.set i (nth bids j)).set j (nth bids i)

/-- The order `a <= b` of two titles: `b < a` does not hold. -/
def TitleLe (a b : Bid) : Prop := strLess b.title a.title = false

end VectorSorting

namespace VectorSorting

/-- The records before the index `i` are in order, and none of them is above a record
that follows it in the vector. -/
def SortedUpTo (bids : List Bid) (i : Nat) : Prop :=
  ∀ a b, a < b → a < i → b < bids.length → TitleLe (nth bids a) (nth bids b)

end VectorSorting

/-! ### The element accesses of `quickSort`

The functions below are `scanLow`, `scanHigh`, `partitionLoop`, `partition` and
`quickSortLoop` once more, with the list of the indices of the accesses `bids[i]` they
make, reads and writes, in the order of the accesses. -/

namespace VectorSorting

/-- The loop of `scanLow` with the indices it reads. -/
def scanLowT (bids : List Bid) (pivotVal : String) : Nat → Int → Except Fault (Int × List Int)
  | 0, _ => .error .fuelExhausted
  | fuel + 1, low =>
    match elemAt bids (low + 1) with
    | .error e => .error e
    | .ok b =>
      if strLess b.title pivotVal then
        match scanLowT bids pivotVal fuel (low + 1) with
        | .error e => .error e
        | .ok (low1, tr) => .ok (low1, (low + 1) :: tr)
      else .ok (low + 1, [low + 1])

/-- The loop of `scanHigh` with the indices it reads. -/
def scanHighT (bids : List Bid) (pivotVal : String) : Nat → Int → Except Fault (Int × List Int)
  | 0, _ => .error .fuelExhausted
  | fuel + 1, high =>
    match elemAt bids (high - 1) with
    | .error e => .error e
    | .ok b =>
      if strLess pivotVal b.title then
        match scanHighT bids pivotVal fuel (high - 1) with
        | .error e => .error e
        | .ok (high1, tr) => .ok (high1, (high - 1) :: tr)
      else .ok (high - 1, [high - 1])

/-- The loop of `partitionLoop` with the indices it accesses: those of the two scans,
and for an exchange the reads of `bids[low]` and `bids[high]` and the writes to them. -/
def partitionLoopT (pivotVal : String) :
    Nat → List Bid → Int → Int → Except Fault (Int × List Bid × List Int)
  | 0, _, _, _ => .error .fuelExhausted
  | fuel + 1, bids, low, high =>
    match scanLowT bids pivotVal (bids.length + 1) low with
    | .error e => .error e
    | .ok (low1, tr1) =>
      match scanHighT bids pivotVal (bids.length + 1) high with
      | .error e => .error e
      | .ok (high1, tr2) =>
        if low1 ≥ high1 then .ok (high1, bids, tr1 ++ tr2)
        else
          match elemAt bids low1, elemAt bids high1 with
          | .ok temp, .ok bh =>
            match partitionLoopT pivotVal fuel
                ((bids.set low1.toNat bh).set high1.toNat temp) low1 high1 with
            | .error e => .error e
            | .ok (p, r, tr3) => .ok (p, r, tr1 ++ tr2 ++ [low1, high1, low1, high1] ++ tr3)
          | .error e, _ => .error e
          | _, .error e => .error e

/-- The function `partition` with the indices it accesses, the read of the pivot first. -/
def partitionT (bids : List Bid) (begin endIdx : Int) :
    Except Fault (Int × List Bid × List Int) :=
  match elemAt bids (Int.tdiv (begin + endIdx) 2) with
  | .error e => .error e
  | .ok pivot =>
    match partitionLoopT pivot.title (bids.length + 1) bids (begin - 1) (endIdx + 1) with
    | .error e => .error e
    | .ok (p, r, tr) => .ok (p, r, Int.tdiv (begin + endIdx) 2 :: tr)

/-- The recursion of `quickSort` with the indices it accesses. -/
def quickSortLoopT : Nat → List Bid → Int → Int → Except Fault (List Bid × List Int)
  | 0, _, _, _ => .error .fuelExhausted
  | fuel + 1, bids, begin, endIdx =>
    if begin < endIdx then
      match partitionT bids begin endIdx with
      | .error e => .error e
      | .ok (p, bids1, tr1) =>
        match quickSortLoopT fuel bids1 begin p with
        | .error e => .error e
        | .ok (bids2, tr2) =>
          match quickSortLoopT fuel bids2 (p + 1) endIdx with
          | .error e => .error e
          | .ok (bids3, tr3) => .ok (bids3, tr1 ++ tr2 ++ tr3)
    else .ok (bids, [])

/-- The function `quickSort` with the indices it accesses. -/
def quickSortT (bids : List Bid) (begin endIdx : Int) : Except Fault (List Bid × List Int) :=
  quickSortLoopT (bids.length + 1) bids begin endIdx

end VectorSorting

/-! # Theorems -/

/-! ## The order of `strLess` -/

theorem char_toNat_inj {a b : Char} (h : a.toNat = b.toNat) : a = b := by
  apply Char.ext
  apply UInt32.ext
  exact h

theorem charsLess_irrefl (l : List Char) : charsLess l l = false := by
  induction l with
  | nil => rfl
  | cons a as ih => simp [charsLess, ih]

theorem charsLess_asymm : ∀ (a b : List Char), charsLess a b = true → charsLess b a = false
  | [], [], h => by simp [charsLess] at h
  | [], _ :: _, _ => by simp [charsLess]
  | _ :: _, [], h => by simp [charsLess] at h
  | a :: as, b :: bs, h => by
    simp only [charsLess] at h ⊢
    split_ifs at h ⊢
    all_goals first
      | omega
      | rfl
      | exact charsLess_asymm as bs h

theorem charsLess_trans : ∀ (a b c : List Char),
    charsLess a b = true → charsLess b c = true → charsLess a c = true
  | [], [], _, h1, _ => by simp [charsLess] at h1
  | [], _ :: _, [], _, h2 => by simp [charsLess] at h2
  | [], _ :: _, _ :: _, _, _ => by simp [charsLess]
  | _ :: _, [], _, h1, _ => by simp [charsLess] at h1
  | _ :: _, _ :: _, [], _, h2 => by simp [charsLess] at h2
  | a :: as, b :: bs, c :: cs, h1, h2 => by
    simp only [charsLess] at h1 h2 ⊢
    split_ifs at h1 h2 ⊢
    all_goals first
      | omega
      | rfl
      | exact charsLess_trans as bs cs h1 h2

theorem charsLess_total : ∀ (a b : List Char),
    charsLess a b = false → charsLess b a = false → a = b
  | [], [], _, _ => rfl
  | [], _ :: _, h, _ => by simp [charsLess] at h
  | _ :: _, [], _, h => by simp [charsLess] at h
  | a :: as, b :: bs, h1, h2 => by
    simp only [charsLess] at h1 h2
    split_ifs at h1 h2
    have hab : a = b := char_toNat_inj (by omega)
    rw [hab, charsLess_total as bs h1 h2]

theorem strLess_irrefl (a : String) : strLess a a = false := charsLess_irrefl _

theorem strLess_asymm {a b : String} (h : strLess a b = true) : strLess b a = false :=
  charsLess_asymm _ _ h

theorem strLess_trans {a b c : String} (h1 : strLess a b = true) (h2 : strLess b c = true) :
    strLess a c = true :=
  charsLess_trans _ _ _ h1 h2

theorem strLess_total {a b : String} (h1 : strLess a b = false) (h2 : strLess b a = false) :
    a = b :=
  String.toList_inj.mp (charsLess_total _ _ h1 h2)

theorem strLess_ne {a b : String} (h : strLess a b = true) : a ≠ b := by
  rintro rfl
  rw [strLess_irrefl] at h
  exact Bool.false_ne_true h

namespace BinarySearchTree

/-! ### Destroyed subtrees -/

@[simp] theorem records_destroyed (n : Node) : records (destroyed n) = records n := by
  induction n with
  | null => rfl
  | node lv d l r ihl ihr => simp [destroyed, records, ihl, ihr]

@[simp] theorem links_destroyed (n : Node) : links (destroyed n) = links n := by
  induction n with
  | null => rfl
  | node lv d l r ihl ihr => simp [destroyed, links, ihl, ihr]

theorem allLive_destroyed {n : Node} (h : n ≠ .null) : allLive (destroyed n) = false := by
  cases n with
  | null => exact absurd rfl h
  | node lv d l r => simp [destroyed, allLive]

theorem allLive_node {lv : Bool} {d : Bid} {l r : Node} :
    allLive (.node lv d l r) = true ↔ lv = true ∧ allLive l = true ∧ allLive r = true := by
  simp [allLive, and_assoc]

theorem destroy_eq (n : Node) :
    destroy n = if allLive n = true then .ok (destroyed n) else .error .invalidPointer := by
  induction n with
  | null => rfl
  | node lv d l r ihl ihr =>
    cases lv with
    | false => simp [destroy, allLive]
    | true =>
      simp only [destroy, ihl, ihr, allLive, Bool.true_and, Bool.and_eq_true]
      by_cases hl : allLive l = true
      · by_cases hr : allLive r = true
        · simp [hl, hr, destroyed]
        · simp [hl, hr]
      · simp [hl]

theorem Traverse_eq (n : Node) :
    Traverse n = if allLive n = true then .ok (records n) else .error .invalidPointer := by
  induction n with
  | null => rfl
  | node lv d l r ihl ihr =>
    cases lv with
    | false => simp [Traverse, allLive]
    | true =>
      simp only [Traverse, ihl, ihr, allLive, Bool.true_and, Bool.and_eq_true]
      by_cases hl : allLive l = true
      · by_cases hr : allLive r = true
        · simp [hl, hr, records]
        · simp [hl, hr]
      · simp [hl]

theorem Traverse_ok {n : Node} {xs : List Bid} (h : Traverse n = .ok xs) :
    allLive n = true ∧ xs = records n := by
  rw [Traverse_eq] at h
  by_cases hl : allLive n = true
  · rw [if_pos hl] at h
    exact ⟨hl, (Except.ok.inj h).symm⟩
  · rw [if_neg hl] at h
    exact absurd h (by simp)



/-! ### Sorted trees -/

theorem sorted_node_iff (lv : Bool) (d : Bid) (l r : Node) :
    Sorted (.node lv d l r) ↔
      Sorted l ∧ Sorted r ∧ (∀ x ∈ records l, IdLt x d) ∧ (∀ x ∈ records r, IdLt d x) := by
  unfold Sorted
  simp only [records, List.pairwise_append, List.pairwise_cons, List.mem_cons]
  constructor
  · rintro ⟨hl, ⟨hdr, hr⟩, hlr⟩
    exact ⟨hl, hr, fun x hx => hlr x hx d (Or.inl rfl), hdr⟩
  · rintro ⟨hl, hr, hld, hdr⟩
    refine ⟨hl, ⟨hdr, hr⟩, ?_⟩
    intro a ha b hb
    rcases hb with rfl | hb
    · exact hld a ha
    · exact strLess_trans (hld a ha) (hdr b hb)

theorem filter_ne_of_lt {id : String} {xs : List Bid}
    (h : ∀ x ∈ xs, strLess id x.bidId = true) :
    xs.filter (fun b => decide (b.bidId ≠ id)) = xs := by
  rw [List.filter_eq_self]
  intro x hx
  simpa using (strLess_ne (h x hx)).symm

theorem filter_ne_of_gt {id : String} {xs : List Bid}
    (h : ∀ x ∈ xs, strLess x.bidId id = true) :
    xs.filter (fun b => decide (b.bidId ≠ id)) = xs := by
  rw [List.filter_eq_self]
  intro x hx
  simpa using strLess_ne (h x hx)

/-! ### `AddNode` -/

theorem AddNode_spec {n : Node} {bid : Bid} : ∀ {m : Node}, AddNode n bid = .ok m →
    (∀ x ∈ records m, x ∈ records n ∨ x = bid) ∧ (Sorted n → Sorted m) := by
  induction n with
  | null =>
    intro m h
    have hm : m = newNode bid := (Except.ok.inj h).symm
    subst hm
    simp [newNode, records, Sorted]
  | node lv d l r ihl ihr =>
    intro m h
    cases lv with
    | false => exact absurd h (by simp [AddNode])
    | true =>
      simp only [AddNode] at h
      split_ifs at h with h1 h2
      · cases hl : AddNode l bid with
        | error e => rw [hl] at h; exact absurd h (by simp)
        | ok l1 =>
          rw [hl] at h
          have hm : m = .node true d l1 r := (Except.ok.inj h).symm
          subst hm
          obtain ⟨hmem, hsort⟩ := ihl hl
          constructor
          · intro x hx
            simp only [records, List.mem_append, List.mem_cons] at hx ⊢
            rcases hx with hx | hx | hx
            · rcases hmem x hx with hx | hx
              · exact Or.inl (Or.inl hx)
              · exact Or.inr hx
            · exact Or.inl (Or.inr (Or.inl hx))
            · exact Or.inl (Or.inr (Or.inr hx))
          · intro hs
            obtain ⟨hsl, hsr, hld, hdr⟩ := (sorted_node_iff _ _ _ _).mp hs
            refine (sorted_node_iff _ _ _ _).mpr ⟨hsort hsl, hsr, ?_, hdr⟩
            intro x hx
            rcases hmem x hx with hx | rfl
            · exact hld x hx
            · exact h1
      · cases hr : AddNode r bid with
        | error e => rw [hr] at h; exact absurd h (by simp)
        | ok r1 =>
          rw [hr] at h
          have hm : m = .node true d l r1 := (Except.ok.inj h).symm
          subst hm
          obtain ⟨hmem, hsort⟩ := ihr hr
          constructor
          · intro x hx
            simp only [records, List.mem_append, List.mem_cons] at hx ⊢
            rcases hx with hx | hx | hx
            · exact Or.inl (Or.inl hx)
            · exact Or.inl (Or.inr (Or.inl hx))
            · rcases hmem x hx with hx | hx
              · exact Or.inl (Or.inr (Or.inr hx))
              · exact Or.inr hx
          · intro hs
            obtain ⟨hsl, hsr, hld, hdr⟩ := (sorted_node_iff _ _ _ _).mp hs
            refine (sorted_node_iff _ _ _ _).mpr ⟨hsl, hsort hsr, hld, ?_⟩
            intro x hx
            rcases hmem x hx with hx | rfl
            · exact hdr x hx
            · exact h2
      · have hm : m = .node true d l r := (Except.ok.inj h).symm
        subst hm
        exact ⟨fun x hx => Or.inl hx, fun hs => hs⟩

theorem AddNode_of_allLive {n : Node} (bid : Bid) (hl : allLive n = true) :
    ∃ m, AddNode n bid = .ok m ∧ allLive m = true := by
  induction n with
  | null => exact ⟨newNode bid, rfl, rfl⟩
  | node lv d l r ihl ihr =>
    obtain ⟨hlv, hll, hlr⟩ := allLive_node.mp hl
    subst hlv
    simp only [AddNode]
    split_ifs with h1 h2
    · obtain ⟨l1, hl1, hlive⟩ := ihl hll
      exact ⟨.node true d l1 r, by rw [hl1], allLive_node.mpr ⟨rfl, hlive, hlr⟩⟩
    · obtain ⟨r1, hr1, hlive⟩ := ihr hlr
      exact ⟨.node true d l r1, by rw [hr1], allLive_node.mpr ⟨rfl, hll, hlive⟩⟩
    · exact ⟨_, rfl, hl⟩

/-! ### The successor of a node with two children -/

theorem succNode_ok {n : Node} : ∀ {s : Node}, succNode n = .ok s → s.data = leftmostData n := by
  induction n with
  | null => intro s h; exact absurd h (by simp [succNode])
  | node lv d l r ihl _ =>
    intro s h
    cases lv with
    | false => exact absurd h (by simp [succNode])
    | true =>
      cases l with
      | null =>
        have hs : s = .node true d .null r := (Except.ok.inj h).symm
        subst hs
        rfl
      | node lv2 d2 l2 r2 =>
        rw [succNode] at h
        rw [leftmostData]
        exact ihl h

theorem succNode_of_allLive {n : Node} (hn : n ≠ .null) (hl : allLive n = true) :
    ∃ s, succNode n = .ok s := by
  induction n with
  | null => exact absurd rfl hn
  | node lv d l r ihl _ =>
    obtain ⟨hlv, hll, _⟩ := allLive_node.mp hl
    subst hlv
    cases l with
    | null => exact ⟨_, rfl⟩
    | node lv2 d2 l2 r2 =>
      rw [succNode]
      exact ihl (by simp) hll

theorem unlinkSucc_ok (l : Node) : ∀ (lv : Bool) (d : Bid) (r m : Node), l ≠ .null →
    unlinkSucc (.node lv d l r) = .ok m →
      m = replaceLeftmost (destroyed (leftmostRight (.node lv d l r))) (.node lv d l r) := by
  induction l with
  | null => intro _ _ _ _ h; exact absurd rfl h
  | node lv2 d2 l2 r2 ihl _ =>
    intro lv d r m _ h
    cases lv with
    | false => exact absurd h (by simp [unlinkSucc])
    | true =>
      cases l2 with
      | null =>
        simp only [unlinkSucc, destroy_eq] at h
        split_ifs at h with h1 h2
        · have hm : m = .node true d (destroyed r2) r := (Except.ok.inj h).symm
          subst hm
          simp [replaceLeftmost, leftmostRight]
      | node lv3 d3 l3 r3 =>
        rw [unlinkSucc] at h
        cases hu : unlinkSucc (.node lv2 d2 (.node lv3 d3 l3 r3) r2) with
        | error e => rw [hu] at h; exact absurd h (by simp)
        | ok l1 =>
          rw [hu] at h
          have hm : m = .node true d l1 r := (Except.ok.inj h).symm
          subst hm
          have ih := ihl lv2 d2 r2 l1 (by simp) hu
          rw [leftmostRight, replaceLeftmost]
          rw [← ih]

theorem unlinkSucc_of_allLive (l : Node) : ∀ (d : Bid) (r : Node), l ≠ .null →
    allLive l = true → ∃ m, unlinkSucc (.node true d l r) = .ok m := by
  induction l with
  | null => intro _ _ h; exact absurd rfl h
  | node lv2 d2 l2 r2 ihl _ =>
    intro d r _ hl
    obtain ⟨hlv, hll, hlr⟩ := allLive_node.mp hl
    subst hlv
    cases l2 with
    | null =>
      refine ⟨.node true d (destroyed r2) r, ?_⟩
      simp [unlinkSucc, destroy_eq, hlr]
    | node lv3 d3 l3 r3 =>
      obtain ⟨l1, hl1⟩ := ihl d2 r2 (by simp) hll
      refine ⟨.node true d l1 r, ?_⟩
      rw [unlinkSucc]
      rw [hl1]

/-! ### Trees with the leftmost node replaced -/

theorem records_withoutLeftmost (l : Node) : ∀ (lv : Bool) (d : Bid) (r : Node),
    records (.node lv d l r) =
      leftmostData (.node lv d l r) :: records (withoutLeftmost (.node lv d l r)) := by
  induction l with
  | null => intro lv d r; simp [records, leftmostData, withoutLeftmost, replaceLeftmost,
      leftmostRight]
  | node lv2 d2 l2 r2 ihl _ =>
    intro lv d r
    have ih := ihl lv2 d2 r2
    unfold withoutLeftmost at ih ⊢
    rw [leftmostData, leftmostRight, replaceLeftmost]
    simp only [records] at ih ⊢
    rw [ih]
    simp

theorem records_replaceLeftmost_destroyed (s n : Node) :
    records (replaceLeftmost (destroyed s) n) = records (replaceLeftmost s n) := by
  induction n with
  | null => rfl
  | node lv d l r ihl _ =>
    cases l with
    | null => simp [replaceLeftmost]
    | node lv2 d2 l2 r2 =>
      rw [replaceLeftmost, replaceLeftmost]
      simp only [records]
      rw [ihl]

theorem links_replaceLeftmost_destroyed (s n : Node) :
    links (replaceLeftmost (destroyed s) n) = links (replaceLeftmost s n) := by
  induction n with
  | null => rfl
  | node lv d l r ihl _ =>
    cases l with
    | null => simp [replaceLeftmost]
    | node lv2 d2 l2 r2 =>
      rw [replaceLeftmost, replaceLeftmost]
      simp only [links]
      rw [ihl]

theorem allLive_replaceLeftmost_destroyed {s : Node} (hs : s ≠ .null) (n : Node)
    (hn : n ≠ .null) : allLive (replaceLeftmost (destroyed s) n) = false := by
  induction n with
  | null => exact absurd rfl hn
  | node lv d l r ihl _ =>
    cases l with
    | null => simpa [replaceLeftmost] using allLive_destroyed hs
    | node lv2 d2 l2 r2 =>
      rw [replaceLeftmost]
      simp only [allLive]
      rw [ihl (by simp)]
      simp

theorem allLive_withoutLeftmost {n : Node} (hl : allLive n = true) :
    allLive (withoutLeftmost n) = true := by
  induction n with
  | null => rfl
  | node lv d l r ihl _ =>
    obtain ⟨hlv, hll, hlr⟩ := allLive_node.mp hl
    cases l with
    | null => simpa [withoutLeftmost, replaceLeftmost, leftmostRight] using hlr
    | node lv2 d2 l2 r2 =>
      have ih := ihl hll
      unfold withoutLeftmost at ih ⊢
      rw [leftmostRight, replaceLeftmost]
      simp only [allLive]
      rw [ih, hlv, hlr]
      rfl



/-! ### `RemoveNode` -/

theorem RemoveNode_two_ok {d : Bid} {L R m : Node} {bidId : String} (hid : d.bidId = bidId)
    (hL : L ≠ .null) (hR : R ≠ .null) (h : RemoveNode (.node true d L R) bidId = .ok m) :
    m = .node true (leftmostData R) L (replaceLeftmost (destroyed (leftmostRight R)) R) := by
  subst hid
  cases L with
  | null => exact absurd rfl hL
  | node llv ld ll lr =>
    cases R with
    | null => exact absurd rfl hR
    | node rlv rd rl rr =>
      cases rl with
      | null =>
        simp only [RemoveNode, strLess_irrefl, Bool.false_eq_true, if_false, destroy_eq] at h
        split_ifs at h with h1 h2
        have hm := (Except.ok.inj h).symm
        subst hm
        simp [leftmostData, replaceLeftmost, leftmostRight]
      | node xlv xd xl xr =>
        simp only [RemoveNode, strLess_irrefl, Bool.false_eq_true, if_false] at h
        cases hs : succNode (.node rlv rd (.node xlv xd xl xr) rr) with
        | error e => rw [hs] at h; exact absurd h (by simp)
        | ok s =>
          cases hu : unlinkSucc (.node rlv rd (.node xlv xd xl xr) rr) with
          | error e => rw [hs, hu] at h; exact absurd h (by simp)
          | ok r1 =>
            rw [hs, hu] at h
            have hm := (Except.ok.inj h).symm
            subst hm
            rw [succNode_ok hs, unlinkSucc_ok _ _ _ _ _ (by simp) hu]

theorem RemoveNode_two_of_allLive (d : Bid) (L : Node) {R : Node} {bidId : String}
    (hid : d.bidId = bidId) (hL : L ≠ .null) (hR : R ≠ .null) (hlive : allLive R = true) :
    ∃ m, RemoveNode (.node true d L R) bidId = .ok m := by
  subst hid
  cases L with
  | null => exact absurd rfl hL
  | node llv ld ll lr =>
    cases R with
    | null => exact absurd rfl hR
    | node rlv rd rl rr =>
      obtain ⟨hlv, hll, hlr⟩ := allLive_node.mp hlive
      subst hlv
      cases rl with
      | null =>
        refine ⟨.node true rd (.node llv ld ll lr) (destroyed rr), ?_⟩
        simp [RemoveNode, strLess_irrefl, destroy_eq, hlr]
      | node xlv xd xl xr =>
        obtain ⟨s, hs⟩ := succNode_of_allLive
          (show Node.node true rd (.node xlv xd xl xr) rr ≠ .null by simp) hlive
        obtain ⟨r1, hu⟩ := unlinkSucc_of_allLive (.node xlv xd xl xr) rd rr (by simp) hll
        refine ⟨.node true s.data (.node llv ld ll lr) r1, ?_⟩
        simp only [RemoveNode, strLess_irrefl, Bool.false_eq_true, if_false]
        rw [hs, hu]

theorem records_RemoveNode {n : Node} (bidId : String) : ∀ {m : Node},
    RemoveNode n bidId = .ok m → Sorted n →
      records m = (records n).filter (fun b => decide (b.bidId ≠ bidId)) := by
  induction n with
  | null =>
    intro m h _
    have hm : m = .null := (Except.ok.inj h).symm
    subst hm
    rfl
  | node lv d l r ihl ihr =>
    intro m h hs
    obtain ⟨hsl, hsr, hld, hdr⟩ := (sorted_node_iff lv d l r).mp hs
    cases lv with
    | false => exact absurd h (by simp [RemoveNode])
    | true =>
      by_cases h1 : strLess bidId d.bidId = true
      · simp only [RemoveNode, if_pos h1] at h
        cases hl : RemoveNode l bidId with
        | error e => rw [hl] at h; exact absurd h (by simp)
        | ok l1 =>
          rw [hl] at h
          have hm : m = .node true d l1 r := (Except.ok.inj h).symm
          subst hm
          have hd : (d :: records r).filter (fun b => decide (b.bidId ≠ bidId))
              = d :: records r := by
            apply filter_ne_of_lt
            intro x hx
            rcases List.mem_cons.mp hx with rfl | hx
            · exact h1
            · exact strLess_trans h1 (hdr x hx)
          simp only [records, List.filter_append, ihl hl hsl, hd]
      · by_cases h2 : strLess d.bidId bidId = true
        · simp only [RemoveNode, if_neg h1, if_pos h2] at h
          cases hr : RemoveNode r bidId with
          | error e => rw [hr] at h; exact absurd h (by simp)
          | ok r1 =>
            rw [hr] at h
            have hm : m = .node true d l r1 := (Except.ok.inj h).symm
            subst hm
            have hlf : (records l).filter (fun b => decide (b.bidId ≠ bidId)) = records l :=
              filter_ne_of_gt fun x hx => strLess_trans (hld x hx) h2
            have hdne : d.bidId ≠ bidId := strLess_ne h2
            simp only [records, List.filter_append, ihr hr hsr, hlf]
            rw [List.filter_cons_of_pos (by simpa using hdne)]
        · have hd : d.bidId = bidId :=
            strLess_total (by simpa using h2) (by simpa using h1)
          have hlf : (records l).filter (fun b => decide (b.bidId ≠ bidId)) = records l := by
            rw [← hd]
            exact filter_ne_of_gt hld
          have hrf : (records r).filter (fun b => decide (b.bidId ≠ bidId)) = records r := by
            rw [← hd]
            exact filter_ne_of_lt hdr
          have hgoal : (records (.node true d l r)).filter (fun b => decide (b.bidId ≠ bidId))
              = records l ++ records r := by
            simp only [records, List.filter_append, hlf]
            rw [List.filter_cons_of_neg (by simp [hd]), hrf]
          rw [hgoal]
          cases l with
          | null =>
            cases r with
            | null =>
              simp only [RemoveNode, if_neg h1, if_neg h2] at h
              have hm : m = .null := (Except.ok.inj h).symm
              subst hm
              rfl
            | node rlv rd rl rr =>
              simp only [RemoveNode, if_neg h1, if_neg h2, destroy_eq] at h
              split_ifs at h with h3
              have hm := (Except.ok.inj h).symm
              subst hm
              simp [records]
          | node llv ld ll lr =>
            cases r with
            | null =>
              simp only [RemoveNode, if_neg h1, if_neg h2, destroy_eq] at h
              split_ifs at h with h3
              have hm := (Except.ok.inj h).symm
              subst hm
              simp [records]
            | node rlv rd rl rr =>
              have hm := RemoveNode_two_ok hd (by simp) (by simp) h
              subst hm
              have hw := records_withoutLeftmost rl rlv rd rr
              simp only [records, records_replaceLeftmost_destroyed] at hw ⊢
              unfold withoutLeftmost at hw
              rw [hw]

theorem RemoveNode_of_allLive {n : Node} (bidId : String) (hl : allLive n = true) :
    ∃ m, RemoveNode n bidId = .ok m := by
  induction n with
  | null => exact ⟨.null, rfl⟩
  | node lv d l r ihl ihr =>
    obtain ⟨hlv, hll, hlr⟩ := allLive_node.mp hl
    subst hlv
    by_cases h1 : strLess bidId d.bidId = true
    · obtain ⟨l1, hl1⟩ := ihl hll
      exact ⟨.node true d l1 r, by simp only [RemoveNode, if_pos h1, hl1]⟩
    · by_cases h2 : strLess d.bidId bidId = true
      · obtain ⟨r1, hr1⟩ := ihr hlr
        exact ⟨.node true d l r1, by simp only [RemoveNode, if_neg h1, if_pos h2, hr1]⟩
      · have hd : d.bidId = bidId :=
          strLess_total (by simpa using h2) (by simpa using h1)
        cases l with
        | null =>
          cases r with
          | null => exact ⟨.null, by simp only [RemoveNode, if_neg h1, if_neg h2]⟩
          | node rlv rd rl rr =>
            exact ⟨destroyed (.node rlv rd rl rr), by
              simp only [RemoveNode, if_neg h1, if_neg h2, destroy_eq, if_pos hlr]⟩
        | node llv ld ll lr =>
          cases r with
          | null =>
            exact ⟨destroyed (.node llv ld ll lr), by
              simp only [RemoveNode, if_neg h1, if_neg h2, destroy_eq, if_pos hll]⟩
          | node rlv rd rl rr =>
            exact RemoveNode_two_of_allLive d _ hd (by simp) (by simp) hlr

/-- `RemoveNode` of an id that `SearchNode` does not find returns the tree as it is. -/
theorem RemoveNode_of_SearchNode_null {n : Node} {bidId : String}
    (h : SearchNode n bidId = .ok .null) : RemoveNode n bidId = .ok n := by
  induction n with
  | null => rfl
  | node lv d l r ihl ihr =>
    cases lv with
    | false => exact absurd h (by simp [SearchNode])
    | true =>
      simp only [SearchNode] at h
      split_ifs at h with h1 h2
      · exact absurd (Except.ok.inj h) (by simp)
      · have hlt : strLess bidId d.bidId = false := strLess_asymm h2
        simp only [RemoveNode, hlt, Bool.false_eq_true, if_false, if_pos h2, ihr h]
      · have hlt : strLess bidId d.bidId = true := by
          by_contra hc
          exact h1 (strLess_total (by simpa using h2) (by simpa using hc))
        simp only [RemoveNode, if_pos hlt, ihl h]

/-! ### `SearchNode` -/

theorem SearchNode_of_mem {n : Node} (h : Sorted n) (hl : allLive n = true) {x : Bid}
    (hx : x ∈ records n) : ∃ l r, SearchNode n x.bidId = .ok (.node true x l r) := by
  induction n with
  | null => simp [records] at hx
  | node lv d l r ihl ihr =>
    obtain ⟨hsl, hsr, hld, hdr⟩ := (sorted_node_iff lv d l r).mp h
    obtain ⟨hlv, hll, hlr⟩ := allLive_node.mp hl
    subst hlv
    simp only [records, List.mem_append, List.mem_cons] at hx
    simp only [SearchNode]
    rcases hx with hx | rfl | hx
    · have hlt : strLess x.bidId d.bidId = true := hld x hx
      rw [if_neg (strLess_ne hlt).symm, if_neg (by simp [strLess_asymm hlt])]
      exact ihl hsl hll hx
    · exact ⟨l, r, by simp⟩
    · have hlt : strLess d.bidId x.bidId = true := hdr x hx
      rw [if_neg (strLess_ne hlt), if_pos hlt]
      exact ihr hsr hlr hx

theorem SearchNode_absent {n : Node} {bidId : String} (hl : allLive n = true)
    (h : ∀ b ∈ records n, b.bidId ≠ bidId) : SearchNode n bidId = .ok .null := by
  induction n with
  | null => rfl
  | node lv d l r ihl ihr =>
    obtain ⟨hlv, hll, hlr⟩ := allLive_node.mp hl
    subst hlv
    simp only [records, List.mem_append, List.mem_cons] at h
    simp only [SearchNode]
    rw [if_neg (h d (Or.inr (Or.inl rfl)))]
    split_ifs
    · exact ihr hlr fun b hb => h b (Or.inr (Or.inr hb))
    · exact ihl hll fun b hb => h b (Or.inl hb)

/-- `AddNode` of a record whose id `SearchNode` finds returns the tree as it is. -/
theorem AddNode_of_SearchNode {n : Node} {bid : Bid} {lv : Bool} {d : Bid} {l r : Node}
    (h : SearchNode n bid.bidId = .ok (.node lv d l r)) : AddNode n bid = .ok n := by
  induction n with
  | null => exact absurd h (by simp [SearchNode])
  | node lv0 d0 l0 r0 ihl ihr =>
    cases lv0 with
    | false => exact absurd h (by simp [SearchNode])
    | true =>
      simp only [SearchNode] at h
      split_ifs at h with h1 h2
      · simp only [AddNode, h1, strLess_irrefl, Bool.false_eq_true, if_false]
      · have hlt : strLess bid.bidId d0.bidId = false := strLess_asymm h2
        simp only [AddNode, hlt, Bool.false_eq_true, if_false, if_pos h2, ihr h]
      · have hlt : strLess bid.bidId d0.bidId = true := by
          by_contra hc
          exact h1 (strLess_total (by simpa using h2) (by simpa using hc))
        simp only [AddNode, if_pos hlt, ihl h]

/-! ### Sequences of calls -/

theorem Sorted_runFrom (ops : List Op) : ∀ {t t1 : BinarySearchTree}, Sorted t.root →
    runFrom t ops = .ok t1 → Sorted t1.root := by
  induction ops with
  | nil =>
    intro t t1 hs h
    have ht : t1 = t := (Except.ok.inj h).symm
    subst ht
    exact hs
  | cons op ops ih =>
    intro t t1 hs h
    simp only [runFrom] at h
    cases hstep : step t op with
    | error e => rw [hstep] at h; exact absurd h (by simp)
    | ok t2 =>
      rw [hstep] at h
      refine ih ?_ h
      cases op with
      | insert bid =>
        simp only [step, Insert] at hstep
        cases ha : AddNode t.root bid with
        | error e => rw [ha] at hstep; exact absurd hstep (by simp)
        | ok n =>
          rw [ha] at hstep
          have ht : t2 = ⟨n⟩ := (Except.ok.inj hstep).symm
          subst ht
          exact (AddNode_spec ha).2 hs
      | remove bidId =>
        simp only [step, Remove] at hstep
        cases ha : RemoveNode t.root bidId with
        | error e => rw [ha] at hstep; exact absurd hstep (by simp)
        | ok n =>
          rw [ha] at hstep
          have ht : t2 = ⟨n⟩ := (Except.ok.inj hstep).symm
          subst ht
          show (records n).Pairwise IdLt
          rw [records_RemoveNode bidId ha hs]
          exact List.Pairwise.filter _ hs

theorem Sorted_run {ops : List Op} {t : BinarySearchTree} (h : run ops = .ok t) :
    Sorted t.root :=
  Sorted_runFrom ops (by simp [empty, Sorted, records]) h

theorem runFrom_inserts (bids : List Bid) : ∀ t : BinarySearchTree, allLive t.root = true →
    ∃ t1, runFrom t (bids.map Op.insert) = .ok t1 ∧ allLive t1.root = true := by
  induction bids with
  | nil => intro t h; exact ⟨t, rfl, h⟩
  | cons b bids ih =>
    intro t h
    obtain ⟨n, hn, hlive⟩ := AddNode_of_allLive b h
    obtain ⟨t1, ht1, hl1⟩ := ih ⟨n⟩ hlive
    refine ⟨t1, ?_, hl1⟩
    simp only [List.map_cons, runFrom, step, Insert, hn]
    exact ht1

/-- On a tree reached from the empty tree whose enumeration is returned, `Search` of the
id of an enumerated record returns that record. -/
theorem Search_of_mem {ops : List Op} {t : BinarySearchTree} {xs : List Bid} {b : Bid}
    (hrun : run ops = .ok t) (hxs : InOrder t = .ok xs) (hb : b ∈ xs) :
    Search t b.bidId = .ok b := by
  obtain ⟨hlive, hrec⟩ := Traverse_ok hxs
  subst hrec
  obtain ⟨l, r, hs⟩ := SearchNode_of_mem (Sorted_run hrun) hlive hb
  simp only [Search, hs]



/-- C1: the in-order enumeration is strictly ascending where it is returned, and it is
not returned after every sequence of `Insert` and `Remove` calls.  After `Insert` of the
ids "5" and "3" and `Remove("5")` the root is the node of "3", which `delete node` has
destroyed together with the node of "5"; `InOrder` then reads a destroyed node, and no
enumeration is returned.  Whenever the calls return a tree and `InOrder` returns an
enumeration of it, the ids of the enumeration are strictly ascending for the
lexicographic comparison of strings, hence non-decreasing and without repetition;
`InOrder` returns on every tree whose nodes are all live; and every sequence of `Insert`
calls on the empty tree returns such a tree. -/
theorem InOrder_ascending_or_fault :
    (run [.insert ⟨"5", "a", "f", 1⟩, .insert ⟨"3", "b", "g", 2⟩, .remove "5"]
        = .ok ⟨.node false ⟨"3", "b", "g", 2⟩ .null .null⟩ ∧
      InOrder ⟨.node false ⟨"3", "b", "g", 2⟩ .null .null⟩ = .error .invalidPointer) ∧
    (∀ (ops : List Op) (t : BinarySearchTree) (xs : List Bid), run ops = .ok t →
      InOrder t = .ok xs →
        (xs.map Bid.bidId).Pairwise (fun a b => strLess a b = true) ∧
        (xs.map Bid.bidId).Pairwise (fun a b => strLess b a = false) ∧
        (xs.map Bid.bidId).Nodup) ∧
    (∀ t : BinarySearchTree, allLive t.root = true → ∃ xs, InOrder t = .ok xs) ∧
    (∀ bids : List Bid, ∃ t, run (bids.map Op.insert) = .ok t ∧ allLive t.root = true) := by
  refine ⟨by decide, ?_, ?_, ?_⟩
  · intro ops t xs hrun hxs
    obtain ⟨_, hrec⟩ := Traverse_ok hxs
    subst hrec
    have h : ((records t.root).map Bid.bidId).Pairwise (fun a b => strLess a b = true) := by
      rw [List.pairwise_map]
      exact Sorted_run hrun
    exact ⟨h, h.imp fun hab => strLess_asymm hab, h.imp fun hab => strLess_ne hab⟩
  · intro t hl
    exact ⟨records t.root, by simp only [InOrder, Traverse_eq, if_pos hl]⟩
  · intro bids
    exact runFrom_inserts bids empty rfl

/-- The ids "5", "3", "8" are inserted and the leaf "3" is removed: the enumeration lists
"5", "8", in strictly ascending order. -/
theorem InOrder_ascending_or_fault_witness :
    ([(⟨"5", "a", "f", 1⟩ : Bid), ⟨"8", "c", "h", 3⟩].map Bid.bidId).Pairwise
        (fun a b => strLess a b = true) ∧
    ([(⟨"5", "a", "f", 1⟩ : Bid), ⟨"8", "c", "h", 3⟩].map Bid.bidId).Pairwise
        (fun a b => strLess b a = false) ∧
    ([(⟨"5", "a", "f", 1⟩ : Bid), ⟨"8", "c", "h", 3⟩].map Bid.bidId).Nodup :=
  InOrder_ascending_or_fault.2.1
    [.insert ⟨"5", "a", "f", 1⟩, .insert ⟨"3", "b", "g", 2⟩, .insert ⟨"8", "c", "h", 3⟩,
      .remove "3"]
    ⟨.node true ⟨"5", "a", "f", 1⟩ .null (.node true ⟨"8", "c", "h", 3⟩ .null .null)⟩
    [⟨"5", "a", "f", 1⟩, ⟨"8", "c", "h", 3⟩] (by decide) (by decide)

/-- C2: `Search` returns the stored record or the default record where the enumeration
of the tree is returned, and it does not return on every tree reached by `Insert` and
`Remove` calls.  After `Insert` of the ids "5" and "3" and `Remove("5")` the root is the
destroyed node of "3", and `Search("3")` reads it: no record is returned.  On every tree
reached from the empty tree whose enumeration is returned, `Search(id)` returns the
enumerated record with that id when there is one and the default record, whose id is the
empty string, when there is none; on the empty tree it returns the default record. -/
theorem Search_correct_or_fault :
    (run [.insert ⟨"5", "a", "f", 1⟩, .insert ⟨"3", "b", "g", 2⟩, .remove "5"]
        = .ok ⟨.node false ⟨"3", "b", "g", 2⟩ .null .null⟩ ∧
      Search ⟨.node false ⟨"3", "b", "g", 2⟩ .null .null⟩ "3" = .error .invalidPointer) ∧
    (∀ (ops : List Op) (t : BinarySearchTree) (xs : List Bid) (bidId : String),
      run ops = .ok t → InOrder t = .ok xs →
        (∀ b ∈ xs, b.bidId = bidId → Search t bidId = .ok b) ∧
        ((∀ b ∈ xs, b.bidId ≠ bidId) → Search t bidId = .ok default)) ∧
    (∀ bidId : String, empty.Search bidId = .ok default) ∧ (default : Bid).bidId = "" := by
  refine ⟨by decide, ?_, fun _ => rfl, rfl⟩
  intro ops t xs bidId hrun hxs
  constructor
  · rintro b hb rfl
    exact Search_of_mem hrun hxs hb
  · intro h
    obtain ⟨hlive, hrec⟩ := Traverse_ok hxs
    subst hrec
    simp only [Search, SearchNode_absent hlive h]

/-- The ids "5", "3", "8", "1" are inserted in this order: `Search("5")` returns the
record stored under "5", and `Search("7")` the default record. -/
theorem Search_correct_or_fault_witness :
    Search ⟨.node true ⟨"5", "a", "f", 1⟩
        (.node true ⟨"3", "b", "f", 2⟩ (.node true ⟨"1", "d", "f", 4⟩ .null .null) .null)
        (.node true ⟨"8", "c", "f", 3⟩ .null .null)⟩ "5" = .ok ⟨"5", "a", "f", 1⟩ ∧
    Search ⟨.node true ⟨"5", "a", "f", 1⟩
        (.node true ⟨"3", "b", "f", 2⟩ (.node true ⟨"1", "d", "f", 4⟩ .null .null) .null)
        (.node true ⟨"8", "c", "f", 3⟩ .null .null)⟩ "7" = .ok default :=
  ⟨(Search_correct_or_fault.2.1
      [.insert ⟨"5", "a", "f", 1⟩, .insert ⟨"3", "b", "f", 2⟩, .insert ⟨"8", "c", "f", 3⟩,
        .insert ⟨"1", "d", "f", 4⟩] _
      [⟨"1", "d", "f", 4⟩, ⟨"3", "b", "f", 2⟩, ⟨"5", "a", "f", 1⟩, ⟨"8", "c", "f", 3⟩] "5"
      (by decide) (by decide)).1
      ⟨"5", "a", "f", 1⟩ (by decide) rfl,
   (Search_correct_or_fault.2.1
      [.insert ⟨"5", "a", "f", 1⟩, .insert ⟨"3", "b", "f", 2⟩, .insert ⟨"8", "c", "f", 3⟩,
        .insert ⟨"1", "d", "f", 4⟩] _
      [⟨"1", "d", "f", 4⟩, ⟨"3", "b", "f", 2⟩, ⟨"5", "a", "f", 1⟩, ⟨"8", "c", "f", 3⟩] "7"
      (by decide) (by decide)).2 (by decide)⟩

/-- C3: the enumeration after `Remove(id)` is the enumeration before it without the
record of that id where it is returned, and it is not returned after every `Remove`.
With the ids "5" and "3" inserted the enumeration lists "3", "5"; `Remove("5")` returns
the node of "3" as the root after `delete node` has destroyed it, and the enumeration
after the call reads a destroyed node instead of listing "3".  On every tree reached from
the empty tree whose enumeration is returned, `Remove(id)` returns a tree whose nodes
record the enumeration before the call without the record of that id, all other records
in their order, and an enumeration of that tree, when one is returned, is that list.
With the ids "5", "3", "8", "1" inserted in this order (any other fields) the enumeration
lists "1", "3", "5", "8", and after `Remove("5")` it lists "1", "3", "8". -/
theorem Remove_enumeration_or_fault :
    (run [.insert ⟨"5", "a", "f", 1⟩, .insert ⟨"3", "b", "g", 2⟩]
        = .ok ⟨.node true ⟨"5", "a", "f", 1⟩ (.node true ⟨"3", "b", "g", 2⟩ .null .null) .null⟩ ∧
      InOrder ⟨.node true ⟨"5", "a", "f", 1⟩ (.node true ⟨"3", "b", "g", 2⟩ .null .null) .null⟩
        = .ok [⟨"3", "b", "g", 2⟩, ⟨"5", "a", "f", 1⟩] ∧
      Remove ⟨.node true ⟨"5", "a", "f", 1⟩ (.node true ⟨"3", "b", "g", 2⟩ .null .null) .null⟩ "5"
        = .ok ⟨.node false ⟨"3", "b", "g", 2⟩ .null .null⟩ ∧
      InOrder ⟨.node false ⟨"3", "b", "g", 2⟩ .null .null⟩ = .error .invalidPointer) ∧
    (∀ (ops : List Op) (t : BinarySearchTree) (xs : List Bid) (bidId : String),
      run ops = .ok t → InOrder t = .ok xs →
        ∃ t1, Remove t bidId = .ok t1 ∧
          records t1.root = xs.filter (fun b => decide (b.bidId ≠ bidId)) ∧
          ∀ ys, InOrder t1 = .ok ys → ys = xs.filter (fun b => decide (b.bidId ≠ bidId))) ∧
    ∀ (t5 f5 t3 f3 t8 f8 t1 f1 : String) (a5 a3 a8 a1 : Nat),
      ∃ tree tree1 : BinarySearchTree,
        run [.insert ⟨"5", t5, f5, a5⟩, .insert ⟨"3", t3, f3, a3⟩, .insert ⟨"8", t8, f8, a8⟩,
          .insert ⟨"1", t1, f1, a1⟩] = .ok tree ∧
        InOrder tree
          = .ok [⟨"1", t1, f1, a1⟩, ⟨"3", t3, f3, a3⟩, ⟨"5", t5, f5, a5⟩, ⟨"8", t8, f8, a8⟩] ∧
        Remove tree "5" = .ok tree1 ∧
        InOrder tree1 = .ok [⟨"1", t1, f1, a1⟩, ⟨"3", t3, f3, a3⟩, ⟨"8", t8, f8, a8⟩] := by
  refine ⟨by decide, ?_, ?_⟩
  · intro ops t xs bidId hrun hxs
    obtain ⟨hlive, hrec⟩ := Traverse_ok hxs
    subst hrec
    obtain ⟨m, hm⟩ := RemoveNode_of_allLive bidId hlive
    have hr := records_RemoveNode bidId hm (Sorted_run hrun)
    refine ⟨⟨m⟩, by simp only [Remove, hm], hr, ?_⟩
    intro ys hys
    rw [(Traverse_ok hys).2]
    exact hr
  · intro t5 f5 t3 f3 t8 f8 t1 f1 a5 a3 a8 a1
    have h35 : strLess "3" "5" = true := by decide
    have h85 : strLess "8" "5" = false := by decide
    have h58 : strLess "5" "8" = true := by decide
    have h15 : strLess "1" "5" = true := by decide
    have h13 : strLess "1" "3" = true := by decide
    have h55 : strLess "5" "5" = false := by decide
    refine ⟨⟨.node true ⟨"5", t5, f5, a5⟩
        (.node true ⟨"3", t3, f3, a3⟩ (.node true ⟨"1", t1, f1, a1⟩ .null .null) .null)
        (.node true ⟨"8", t8, f8, a8⟩ .null .null)⟩,
      ⟨.node true ⟨"8", t8, f8, a8⟩
        (.node true ⟨"3", t3, f3, a3⟩ (.node true ⟨"1", t1, f1, a1⟩ .null .null) .null)
        .null⟩, ?_, ?_, ?_, ?_⟩ <;>
    simp [run, runFrom, step, Insert, Remove, InOrder, empty, AddNode, RemoveNode, newNode,
      Traverse, destroy, h35, h85, h58, h15, h13, h55]

/-- The ids "5", "3", "8", "1" are inserted and "3", a node with one child, is removed:
the nodes of the tree returned record "1", "5", "8", and the node of "1" is destroyed. -/
theorem Remove_enumeration_or_fault_witness :
    ∃ t1, Remove ⟨.node true ⟨"5", "a", "f", 1⟩
        (.node true ⟨"3", "b", "g", 2⟩ (.node true ⟨"1", "d", "i", 4⟩ .null .null) .null)
        (.node true ⟨"8", "c", "h", 3⟩ .null .null)⟩ "3" = .ok t1 ∧
      records t1.root = [⟨"1", "d", "i", 4⟩, ⟨"5", "a", "f", 1⟩, ⟨"8", "c", "h", 3⟩] ∧
      InOrder t1 = .error .invalidPointer := by
  obtain ⟨t1, h1, h2, _⟩ := Remove_enumeration_or_fault.2.1
    [.insert ⟨"5", "a", "f", 1⟩, .insert ⟨"3", "b", "g", 2⟩, .insert ⟨"8", "c", "h", 3⟩,
      .insert ⟨"1", "d", "i", 4⟩]
    ⟨.node true ⟨"5", "a", "f", 1⟩
      (.node true ⟨"3", "b", "g", 2⟩ (.node true ⟨"1", "d", "i", 4⟩ .null .null) .null)
      (.node true ⟨"8", "c", "h", 3⟩ .null .null)⟩
    [⟨"1", "d", "i", 4⟩, ⟨"3", "b", "g", 2⟩, ⟨"5", "a", "f", 1⟩, ⟨"8", "c", "h", 3⟩] "3"
    (by decide) (by decide)
  refine ⟨t1, h1, h2, ?_⟩
  have ht : t1 = ⟨.node true ⟨"5", "a", "f", 1⟩ (.node false ⟨"1", "d", "i", 4⟩ .null .null)
      (.node true ⟨"8", "c", "h", 3⟩ .null .null)⟩ :=
    Except.ok.inj (h1.symm.trans (by decide))
  subst ht
  decide

/-- C4: `Insert` of a record whose id is stored leaves the tree as it is where the node
of the id can be read, and does not return where that node has been destroyed.  After
`Insert` of the ids "5" and "3" and `Remove("5")` the id "3" has been inserted and not
removed, and the root is its node, destroyed by `delete node`; `Insert` of a record with
the id "3" reads the destroyed node: no tree is returned.  On every tree in which
`SearchNode` finds a node for the id of the record, `Insert` returns the tree as it is,
with the same nodes in the same shape; and on a tree reached from the empty tree whose
enumeration is returned and holds a record with that id, `Insert` returns the tree as it
is and `Search` of the id still returns the record that was stored. -/
theorem Insert_duplicate_or_fault :
    (run [.insert ⟨"5", "a", "f", 1⟩, .insert ⟨"3", "b", "g", 2⟩, .remove "5"]
        = .ok ⟨.node false ⟨"3", "b", "g", 2⟩ .null .null⟩ ∧
      Insert ⟨.node false ⟨"3", "b", "g", 2⟩ .null .null⟩ ⟨"3", "z", "h", 9⟩
        = .error .invalidPointer) ∧
    (∀ (t : BinarySearchTree) (bid : Bid) (lv : Bool) (d : Bid) (l r : Node),
      SearchNode t.root bid.bidId = .ok (.node lv d l r) → Insert t bid = .ok t) ∧
    (∀ (ops : List Op) (t : BinarySearchTree) (xs : List Bid) (bid x : Bid),
      run ops = .ok t → InOrder t = .ok xs → x ∈ xs → x.bidId = bid.bidId →
        Insert t bid = .ok t ∧ Search t bid.bidId = .ok x) := by
  refine ⟨by decide, ?_, ?_⟩
  · intro t bid lv d l r h
    simp only [Insert, AddNode_of_SearchNode h]
  · intro ops t xs bid x hrun hxs hx hid
    obtain ⟨hlive, hrec⟩ := Traverse_ok hxs
    have hx2 : x ∈ records t.root := hrec ▸ hx
    obtain ⟨l, r, hs⟩ := SearchNode_of_mem (Sorted_run hrun) hlive hx2
    rw [hid] at hs
    refine ⟨by simp only [Insert, AddNode_of_SearchNode hs], ?_⟩
    rw [← hid]
    exact Search_of_mem hrun hxs hx

/-- The id "5" is stored with one record and inserted again with another one. -/
theorem Insert_duplicate_or_fault_witness :
    Insert ⟨.node true ⟨"5", "a", "f", 1⟩ (.node true ⟨"3", "b", "f", 2⟩ .null .null) .null⟩
        ⟨"5", "z", "g", 9⟩
      = .ok ⟨.node true ⟨"5", "a", "f", 1⟩ (.node true ⟨"3", "b", "f", 2⟩ .null .null) .null⟩ ∧
    Search ⟨.node true ⟨"5", "a", "f", 1⟩ (.node true ⟨"3", "b", "f", 2⟩ .null .null) .null⟩
        "5" = .ok ⟨"5", "a", "f", 1⟩ :=
  Insert_duplicate_or_fault.2.2 [.insert ⟨"5", "a", "f", 1⟩, .insert ⟨"3", "b", "f", 2⟩] _
    [⟨"3", "b", "f", 2⟩, ⟨"5", "a", "f", 1⟩]
    ⟨"5", "z", "g", 9⟩ ⟨"5", "a", "f", 1⟩ (by decide) (by decide) (by decide) rfl

end BinarySearchTree

namespace HashTable

theorem homeBucket_eq (t : HashTable) (bidId : String) :
    t.homeBucket bidId = homeBucket ⟨t.tableSize, []⟩ bidId := rfl

theorem homeBucket_numeric {N : Nat} (hN : 0 < N) {bidId : String}
    (h : isNumeric bidId = true) (nodes : List Node) :
    ∃ i, homeBucket ⟨N, nodes⟩ bidId = .ok i ∧ i < N := by
  unfold isNumeric at h
  unfold homeBucket
  cases hs : stoi bidId with
  | error e => simp [hs] at h
  | ok k =>
    simp only [hash, Nat.pos_iff_ne_zero.mp hN, if_false]
    exact ⟨_, rfl, Nat.mod_lt _ hN⟩

theorem bucketOf_spec {N : Nat} {bid : Bid} {i : Nat} (nodes : List Node)
    (h : homeBucket ⟨N, nodes⟩ bid.bidId = .ok i) : bucketOf N bid = i := by
  unfold bucketOf
  rw [homeBucket_eq] at h
  simp only at h
  rw [h]

theorem bucketOf_of_id {N : Nat} {a b : Bid} (h : a.bidId = b.bidId) :
    bucketOf N a = bucketOf N b := by
  unfold bucketOf
  rw [h]

theorem tableOf_length (N : Nat) (rs : List Bid) : (tableOf N rs).length = N := by
  simp [tableOf]

theorem tableOf_getElem? (N : Nat) (rs : List Bid) {i : Nat} (hi : i < N) :
    (tableOf N rs)[i]? = some (nodeOf i (rs.filter fun r => decide (bucketOf N r = i))) := by
  simp [tableOf, List.getElem?_range hi]

theorem create_eq (N : Nat) : create N = ⟨N, tableOf N []⟩ := by
  unfold create
  congr 1
  apply List.ext_getElem?
  intro j
  by_cases hj : j < N
  · rw [tableOf_getElem? N [] hj]
    simp [List.getElem?_replicate, hj, nodeOf]
  · rw [List.getElem?_eq_none (by simp; omega), List.getElem?_eq_none (by simp [tableOf]; omega)]

theorem nodeOf_append (i : Nat) (hi : i ≠ UINT_MAX) (fs : List Bid) (r : Bid) :
    nodeOf i (fs ++ [r]) =
      if (nodeOf i fs).key = UINT_MAX then ⟨r, i, []⟩
      else ⟨(nodeOf i fs).bid, (nodeOf i fs).key, (nodeOf i fs).next ++ [⟨r, i⟩]⟩ := by
  cases fs with
  | nil => simp [nodeOf, Node.open]
  | cons f fs => simp [nodeOf, hi]

theorem Insert_tableOf {N : Nat} (hN : 0 < N) (hmax : N ≤ UINT_MAX) (rs : List Bid) {r : Bid}
    (hr : isNumeric r.bidId = true) :
    Insert ⟨N, tableOf N rs⟩ r = .ok ⟨N, tableOf N (rs ++ [r])⟩ := by
  obtain ⟨i, hi, hlt⟩ := homeBucket_numeric hN hr (tableOf N rs)
  have hb : bucketOf N r = i := bucketOf_spec _ hi
  have hne : i ≠ UINT_MAX := by omega
  have hset : (tableOf N rs).set i
        (if (nodeOf i (rs.filter fun x => decide (bucketOf N x = i))).key = UINT_MAX
          then ⟨r, i, []⟩
          else ⟨(nodeOf i (rs.filter fun x => decide (bucketOf N x = i))).bid,
                (nodeOf i (rs.filter fun x => decide (bucketOf N x = i))).key,
                (nodeOf i (rs.filter fun x => decide (bucketOf N x = i))).next ++ [⟨r, i⟩]⟩)
      = tableOf N (rs ++ [r]) := by
    apply List.ext_getElem?
    intro j
    by_cases hj : j < N
    · rw [tableOf_getElem? N _ hj, List.getElem?_set]
      by_cases hij : i = j
      · subst hij
        rw [if_pos rfl, if_pos (by rw [tableOf_length]; exact hj), ← nodeOf_append i hne]
        simp [List.filter_append, hb]
      · rw [if_neg hij, tableOf_getElem? N _ hj]
        have : bucketOf N r ≠ j := by rw [hb]; exact hij
        simp [List.filter_append, this]
    · rw [List.getElem?_eq_none (by simp [tableOf_length]; omega),
        List.getElem?_eq_none (by simp [tableOf_length]; omega)]
  unfold Insert
  simp only [hi, tableOf_getElem? N rs hlt]
  split_ifs with hk
  · rw [← hset, if_pos hk]
  · rw [← hset, if_neg hk]

theorem insertAll_tableOf {N : Nat} (hN : 0 < N) (hmax : N ≤ UINT_MAX) (rs : List Bid) :
    ∀ rs0 : List Bid, (∀ r ∈ rs, isNumeric r.bidId = true) →
      insertAll ⟨N, tableOf N rs0⟩ rs = .ok ⟨N, tableOf N (rs0 ++ rs)⟩ := by
  induction rs with
  | nil => intro rs0 _; simp [insertAll]
  | cons r rs ih =>
    intro rs0 h
    have hr : isNumeric r.bidId = true := h r (List.mem_cons_self _ _)
    simp only [insertAll, Insert_tableOf hN hmax rs0 hr]
    rw [ih (rs0 ++ [r]) fun x hx => h x (List.mem_cons_of_mem _ hx)]
    simp

theorem insertAll_create {N : Nat} (hN : 0 < N) (hmax : N ≤ UINT_MAX) (rs : List Bid)
    (h : ∀ r ∈ rs, isNumeric r.bidId = true) :
    insertAll (create N) rs = .ok ⟨N, tableOf N rs⟩ := by
  rw [create_eq, insertAll_tableOf hN hmax rs [] h]
  simp

theorem findFirst_map (i : Nat) (hi : i ≠ UINT_MAX) (fs : List Bid) (bidId : String) :
    findFirst (fs.map fun x => ⟨x, i⟩) bidId
      = (fs.find? fun r => decide (r.bidId = bidId)).getD default := by
  induction fs with
  | nil => rfl
  | cons f fs ih =>
    simp only [List.map_cons, findFirst, List.find?_cons]
    by_cases hf : f.bidId = bidId
    · simp [hf, hi]
    · simp [hf, ih]

theorem find?_filter_of_imp {p q : Bid → Bool} (h : ∀ x, q x = true → p x = true)
    (rs : List Bid) : (rs.filter p).find? q = rs.find? q := by
  induction rs with
  | nil => rfl
  | cons r rs ih =>
    by_cases hq : q r = true
    · simp [List.filter_cons, h r hq, hq]
    · by_cases hp : p r = true
      · simp [List.filter_cons, hp, hq, ih]
      · simp [List.filter_cons, hp, hq, ih]

theorem Search_tableOf {N : Nat} (hN : 0 < N) (hmax : N ≤ UINT_MAX) (rs : List Bid)
    {bidId : String} (hid : isNumeric bidId = true) :
    Search ⟨N, tableOf N rs⟩ bidId
      = .ok ((rs.find? fun r => decide (r.bidId = bidId)).getD default) := by
  obtain ⟨i, hi, hlt⟩ := homeBucket_numeric hN hid (tableOf N rs)
  have hne : i ≠ UINT_MAX := by omega
  have hfind : (rs.filter fun r => decide (bucketOf N r = i)).find?
        (fun r => decide (r.bidId = bidId)) = rs.find? fun r => decide (r.bidId = bidId) := by
    apply find?_filter_of_imp
    intro x hx
    have hx2 : x.bidId = bidId := by simpa using hx
    have : bucketOf N x = i := by
      apply bucketOf_spec (tableOf N rs)
      rw [hx2]
      exact hi
    simpa using this
  unfold Search
  simp only [hi, tableOf_getElem? N rs hlt]
  rw [← hfind]
  cases hfs : rs.filter fun r => decide (bucketOf N r = i) with
  | nil => simp [nodeOf, Node.open]
  | cons f fs =>
    have := findFirst_map i hne (f :: fs) bidId
    simp only [List.map_cons] at this
    simp only [nodeOf, hne, if_false, this]

theorem printBucket_nodeOf (i : Nat) (hi : i ≠ UINT_MAX) (fs : List Bid) :
    printBucket (nodeOf i fs) = fs := by
  cases fs with
  | nil => simp [nodeOf, Node.open, printBucket]
  | cons f fs =>
    simp only [nodeOf, printBucket]
    rw [List.filter_eq_self.mpr]
    · simp [List.map_map, Function.comp_def]
    · intro e he
      simp only [List.mem_cons, List.mem_map] at he
      rcases he with rfl | ⟨x, _, rfl⟩ <;> simpa using hi

theorem printFrom_tableOf (N : Nat) (hmax : N ≤ UINT_MAX) (rs : List Bid) :
    ∀ n i : Nat, i + n = N →
      printFrom (tableOf N rs) n i
        = .ok (((List.range n).map (· + i)).flatMap fun j =>
            rs.filter fun r => decide (bucketOf N r = j)) := by
  intro n
  induction n with
  | zero => intro i _; simp [printFrom]
  | succ n ih =>
    intro i hi
    have hlt : i < N := by omega
    simp only [printFrom, tableOf_getElem? N rs hlt, ih (i + 1) (by omega)]
    rw [printBucket_nodeOf i (by omega)]
    simp only [List.range_succ_eq_map, List.map_cons, List.flatMap_cons, List.map_map,
      Nat.zero_add]
    congr 3
    apply List.map_congr_left
    intro a _
    simp only [Function.comp_apply]
    omega

theorem PrintAll_tableOf (N : Nat) (hmax : N ≤ UINT_MAX) (rs : List Bid) :
    PrintAll ⟨N, tableOf N rs⟩
      = .ok ((List.range N).flatMap fun j => rs.filter fun r => decide (bucketOf N r = j)) := by
  unfold PrintAll
  rw [printFrom_tableOf N hmax rs N 0 (by simp)]
  simp

theorem sum_range_ite (c v : Nat) : ∀ N : Nat,
    ((List.range N).map fun i => if c = i then v else 0).sum = if c < N then v else 0 := by
  intro N
  induction N with
  | zero => simp
  | succ N ih =>
    rw [List.range_succ, List.map_append, List.sum_append, ih]
    simp only [List.map_cons, List.map_nil, List.sum_cons, List.sum_nil]
    split_ifs <;> omega

theorem buckets_perm (N : Nat) (rs : List Bid) (h : ∀ r ∈ rs, bucketOf N r < N) :
    ((List.range N).flatMap fun j => rs.filter fun r => decide (bucketOf N r = j)).Perm rs := by
  rw [List.perm_iff_count]
  intro a
  rw [List.count_flatMap]
  have hfun : (List.count a ∘ fun j => rs.filter fun r => decide (bucketOf N r = j))
      = fun j => if bucketOf N a = j then rs.count a else 0 := by
    funext j
    simp only [Function.comp_apply]
    split_ifs with hj
    · exact List.count_filter (by simpa using hj)
    · apply List.count_eq_zero_of_not_mem
      simp [List.mem_filter, hj]
  rw [hfun, sum_range_ite]
  split_ifs with hlt
  · rfl
  · symm
    apply List.count_eq_zero_of_not_mem
    intro ha
    exact hlt (h a ha)

/-- The table after the inserts of numeric ids into a fresh table: every `Search` of a
numeric id gives the first inserted record with that id, or the empty record, and
`PrintAll` lists the inserted records, each as often as it was inserted. -/
theorem insertAll_spec {N : Nat} (hN : 0 < N) (hmax : N ≤ UINT_MAX) (rs : List Bid)
    (h : ∀ r ∈ rs, isNumeric r.bidId = true) :
    ∃ t, insertAll (create N) rs = .ok t ∧
      (∀ bidId, isNumeric bidId = true →
        t.Search bidId = .ok ((rs.find? fun r => decide (r.bidId = bidId)).getD default)) ∧
      ∃ l, t.PrintAll = .ok l ∧ l.Perm rs := by
  refine ⟨⟨N, tableOf N rs⟩, insertAll_create hN hmax rs h, ?_, _,
    PrintAll_tableOf N hmax rs, buckets_perm N rs ?_⟩
  · intro bidId hid
    exact Search_tableOf hN hmax rs hid
  · intro r hr
    obtain ⟨i, hi, hlt⟩ := homeBucket_numeric hN (h r hr) []
    rw [bucketOf_spec [] hi]
    exact hlt

theorem find?_of_nodup {rs : List Bid} (hd : (rs.map Bid.bidId).Nodup) {r : Bid} (hr : r ∈ rs) :
    (rs.find? fun x => decide (x.bidId = r.bidId)) = some r := by
  induction rs with
  | nil => simp at hr
  | cons a rs ih =>
    simp only [List.map_cons, List.nodup_cons, List.mem_map, not_exists, not_and] at hd
    rcases List.mem_cons.mp hr with rfl | hr2
    · simp
    · have hne : a.bidId ≠ r.bidId := fun h => hd.1 r hr2 h.symm
      simp [List.find?_cons, hne, ih hd.2 hr2]

theorem find?_of_not_mem {rs : List Bid} {bidId : String} (h : bidId ∉ rs.map Bid.bidId) :
    (rs.find? fun x => decide (x.bidId = bidId)) = none := by
  simp only [List.mem_map, not_exists, not_and] at h
  simp only [List.find?_eq_none, decide_eq_true_eq]
  exact h

theorem find?_first {pre : List Bid} {r1 : Bid} (rest : List Bid)
    (hpre : ∀ r ∈ pre, r.bidId ≠ r1.bidId) :
    ((pre ++ r1 :: rest).find? fun x => decide (x.bidId = r1.bidId)) = some r1 := by
  induction pre with
  | nil => simp
  | cons a pre ih =>
    have ha : a.bidId ≠ r1.bidId := hpre a (List.mem_cons_self _ _)
    simp [List.find?_cons, ha, ih fun r hr => hpre r (List.mem_cons_of_mem _ hr)]

/-- C5: the head of a bucket with no chain cannot be removed: with 5 buckets, after
`Insert` of the id "3" the call `Remove("3")` evaluates `*(node->next)` with a null
`node->next` and does not return.  With the ids "3" and "8" inserted, `Remove("3")` returns,
after it `Search("3")` gives the empty record and `Search("8")` the record of "8". -/
theorem Remove_lone_head_faults :
    (((create 5).insertAll [⟨"3", "a", "f", 1⟩]).bind fun t => t.Remove "3")
      = .error .nullDereference ∧
    ((((create 5).insertAll [⟨"3", "a", "f", 1⟩, ⟨"8", "b", "g", 2⟩]).bind
        fun t => t.Remove "3").bind fun t => t.Search "3") = .ok default ∧
    ((((create 5).insertAll [⟨"3", "a", "f", 1⟩, ⟨"8", "b", "g", 2⟩]).bind
        fun t => t.Remove "3").bind fun t => t.Search "8") = .ok ⟨"8", "b", "g", 2⟩ := by
  decide

/-- C6: inserting records and removing all of them does not succeed: with 5 buckets and
the ids "3" and "8" inserted, the two `Remove` calls, in either order, end in the
evaluation of `*(node->next)` with a null `node->next`; the same happens with a single
record. -/
theorem removeAll_faults :
    (((create 5).insertAll [⟨"3", "a", "f", 1⟩, ⟨"8", "b", "g", 2⟩]).bind
        fun t => t.removeAll ["3", "8"]) = .error .nullDereference ∧
    (((create 5).insertAll [⟨"3", "a", "f", 1⟩, ⟨"8", "b", "g", 2⟩]).bind
        fun t => t.removeAll ["8", "3"]) = .error .nullDereference ∧
    (((create 7).insertAll [⟨"4", "a", "f", 1⟩]).bind
        fun t => t.removeAll ["4"]) = .error .nullDereference := by
  decide

/-- C7: for every bucket count `N` with `0 < N` (an `unsigned`, so at most `UINT_MAX`) and
every sequence of `Insert` calls with pairwise distinct numeric ids on a fresh table, all
the calls return, `Search(id)` returns the inserted record for each inserted id, and the
empty record for every numeric id that was not inserted. -/
theorem Search_after_inserts (N : Nat) (hN : 0 < N) (hmax : N ≤ UINT_MAX) (rs : List Bid)
    (hnum : ∀ r ∈ rs, isNumeric r.bidId = true) (hdist : (rs.map Bid.bidId).Nodup) :
    ∃ t, insertAll (create N) rs = .ok t ∧
      (∀ r ∈ rs, t.Search r.bidId = .ok r) ∧
      (∀ bidId, isNumeric bidId = true → bidId ∉ rs.map Bid.bidId →
        t.Search bidId = .ok default) := by
  obtain ⟨t, ht, hsearch, _⟩ := insertAll_spec hN hmax rs hnum
  refine ⟨t, ht, ?_, ?_⟩
  · intro r hr
    rw [hsearch r.bidId (hnum r hr), find?_of_nodup hdist hr]
    rfl
  · intro bidId hid hmem
    rw [hsearch bidId hid, find?_of_not_mem hmem]
    rfl

/-- Five buckets and the ids "3", "8", "13", "4": the first three share the bucket 3. -/
theorem Search_after_inserts_witness :
    ∃ t, insertAll (create 5)
        [⟨"3", "a", "f", 1⟩, ⟨"8", "b", "g", 2⟩, ⟨"13", "c", "h", 3⟩, ⟨"4", "d", "i", 4⟩] = .ok t ∧
      (∀ r ∈ [(⟨"3", "a", "f", 1⟩ : Bid), ⟨"8", "b", "g", 2⟩, ⟨"13", "c", "h", 3⟩,
          ⟨"4", "d", "i", 4⟩], t.Search r.bidId = .ok r) ∧
      (∀ bidId, isNumeric bidId = true →
        bidId ∉ [(⟨"3", "a", "f", 1⟩ : Bid), ⟨"8", "b", "g", 2⟩, ⟨"13", "c", "h", 3⟩,
          ⟨"4", "d", "i", 4⟩].map Bid.bidId →
        t.Search bidId = .ok default) :=
  Search_after_inserts 5 (by decide) (by decide)
    [⟨"3", "a", "f", 1⟩, ⟨"8", "b", "g", 2⟩, ⟨"13", "c", "h", 3⟩, ⟨"4", "d", "i", 4⟩]
    (by decide) (by decide)

/-- C8: `Insert` makes no duplicate check.  When a record `r1` is inserted (its id was
not inserted before) and later a record `r2` with the same id, with any other inserts
before, between and after, the table holds both entries: `PrintAll` lists every inserted
record as often as it was inserted; and `Search` of the id returns `r1`, hence not `r2`
when the two records differ. -/
theorem Search_earliest (N : Nat) (hN : 0 < N) (hmax : N ≤ UINT_MAX)
    (before between after : List Bid) (r1 r2 : Bid)
    (hnum : ∀ r ∈ before ++ r1 :: (between ++ r2 :: after), isNumeric r.bidId = true)
    (hid : r2.bidId = r1.bidId) (hfirst : ∀ r ∈ before, r.bidId ≠ r1.bidId) :
    ∃ t, insertAll (create N) (before ++ r1 :: (between ++ r2 :: after)) = .ok t ∧
      t.Search r2.bidId = .ok r1 ∧ (r1 ≠ r2 → t.Search r2.bidId ≠ .ok r2) ∧
      ∃ l, t.PrintAll = .ok l ∧ l.Perm (before ++ r1 :: (between ++ r2 :: after)) := by
  obtain ⟨t, ht, hsearch, hprint⟩ := insertAll_spec hN hmax _ hnum
  have hr1 : isNumeric r1.bidId = true := hnum r1 (by simp)
  have hs : t.Search r2.bidId = .ok r1 := by
    rw [hid, hsearch r1.bidId hr1, find?_first _ hfirst]
    rfl
  refine ⟨t, ht, hs, ?_, hprint⟩
  intro hne h
  rw [hs] at h
  exact hne (Except.ok.inj h)

/-- Five buckets; the id "3" is inserted twice, with an insert of "8" in between. -/
theorem Search_earliest_witness :
    ∃ t, insertAll (create 5)
        ([] ++ ⟨"3", "a", "f", 1⟩ :: ([⟨"8", "b", "g", 2⟩] ++ ⟨"3", "z", "h", 9⟩ :: [])) = .ok t ∧
      t.Search "3" = .ok ⟨"3", "a", "f", 1⟩ ∧
      ((⟨"3", "a", "f", 1⟩ : Bid) ≠ ⟨"3", "z", "h", 9⟩ → t.Search "3" ≠ .ok ⟨"3", "z", "h", 9⟩) ∧
      ∃ l, t.PrintAll = .ok l ∧
        l.Perm ([] ++ ⟨"3", "a", "f", 1⟩ :: ([⟨"8", "b", "g", 2⟩] ++ ⟨"3", "z", "h", 9⟩ :: [])) :=
  Search_earliest 5 (by decide) (by decide) [] [⟨"8", "b", "g", 2⟩] [] ⟨"3", "a", "f", 1⟩
    ⟨"3", "z", "h", 9⟩ (by decide) rfl (by decide)

/-- C9: for every bucket count `N` with `0 < N <= 2^32 - 1` and every key, `hash` returns
an index below `N`, which is therefore not the key `UINT_MAX` of an open bucket; the index
is the key modulo 2^32, reduced modulo `N`, and for a negative 32-bit key this is
`key + 2^32` reduced modulo `N`. -/
theorem hash_lt (N : Nat) (key : Int) (hN : 0 < N) (hmax : N ≤ 4294967295) :
    ∃ h, hash N key = .ok h ∧ h < N ∧ h ≠ UINT_MAX ∧
      h = (key % 4294967296).toNat % N ∧
      (-2147483648 ≤ key → key < 0 → h = (key + 4294967296).toNat % N) := by
  refine ⟨(key % 4294967296).toNat % N, ?_, Nat.mod_lt _ hN, ?_, rfl, ?_⟩
  · simp [hash, Nat.pos_iff_ne_zero.mp hN]
  · have := Nat.mod_lt (key % 4294967296).toNat hN
    unfold UINT_MAX
    omega
  · intro h1 h2
    have : key % 4294967296 = key + 4294967296 := by omega
    rw [this]

/-- Five buckets and the key -1: the key is converted to 2^32 - 1, and the bucket is 0. -/
theorem hash_lt_witness :
    ∃ h, hash 5 (-1) = .ok h ∧ h < 5 ∧ h ≠ UINT_MAX ∧
      h = ((-1 : Int) % 4294967296).toNat % 5 ∧
      (-2147483648 ≤ (-1 : Int) → (-1 : Int) < 0 → h = ((-1 : Int) + 4294967296).toNat % 5) :=
  hash_lt 5 (-1) (by decide) (by decide)

end HashTable

namespace LinkedList

/-- C10: `Size()` and the number of nodes of a traversal from `head` come apart.  After
`Append` of two records, `Remove` of the second one unlinks and deletes the last node
and leaves `tail` pointing to it; the next `Append` links the new node behind the deleted
node and counts it: `Size()` is 2 and `PrintList` displays one record. -/
theorem Size_ne_traversal_count :
    ((run [.append ⟨"1", "a", "f", 1⟩, .append ⟨"2", "b", "g", 2⟩, .remove "2"]).map
        fun s => (s.tail, s.heap[1]?.map BidNode.live, s.Size)) = .ok (some 1, some false, 1) ∧
    ((run [.append ⟨"1", "a", "f", 1⟩, .append ⟨"2", "b", "g", 2⟩, .remove "2",
        .append ⟨"3", "c", "h", 3⟩]).map Size) = .ok 2 ∧
    ((run [.append ⟨"1", "a", "f", 1⟩, .append ⟨"2", "b", "g", 2⟩, .remove "2",
        .append ⟨"3", "c", "h", 3⟩]).bind PrintList) = .ok [⟨"1", "a", "f", 1⟩] := by
  decide

end LinkedList

namespace LinkedList

theorem IsSeg_lt {heap : List BidNode} {l : List Nat} : ∀ {p q : Option Nat},
    IsSeg heap p l q → ∀ a ∈ l, a < heap.length := by
  induction l with
  | nil => intro _ _ _ a ha; simp at ha
  | cons b rest ih =>
    intro p q h a ha
    obtain ⟨_, n, hn, hrest⟩ := h
    rcases List.mem_cons.mp ha with rfl | ha
    · exact (List.getElem?_eq_some_iff.mp hn).1
    · exact ih hrest a ha

theorem IsSeg_append {heap : List BidNode} {l1 l2 : List Nat} : ∀ {p q : Option Nat},
    IsSeg heap p (l1 ++ l2) q ↔ ∃ m, IsSeg heap p l1 m ∧ IsSeg heap m l2 q := by
  induction l1 with
  | nil =>
    intro p q
    simp only [List.nil_append, IsSeg]
    constructor
    · intro h; exact ⟨p, rfl, h⟩
    · rintro ⟨m, rfl, h⟩; exact h
  | cons a rest ih =>
    intro p q
    simp only [List.cons_append, IsSeg]
    constructor
    · rintro ⟨hp, n, hn, h⟩
      obtain ⟨m, h1, h2⟩ := ih.mp h
      exact ⟨m, ⟨hp, n, hn, h1⟩, h2⟩
    · rintro ⟨m, ⟨hp, n, hn, h1⟩, h2⟩
      exact ⟨hp, n, hn, ih.mpr ⟨m, h1, h2⟩⟩

theorem IsSeg_frame_set {heap : List BidNode} {l : List Nat} (t : Nat) (x : BidNode) :
    ∀ {p q : Option Nat}, IsSeg heap p l q → t ∉ l → IsSeg (heap.set t x) p l q := by
  induction l with
  | nil => intro p q h _; exact h
  | cons a rest ih =>
    intro p q h ht
    obtain ⟨hp, n, hn, hrest⟩ := h
    simp only [List.mem_cons, not_or] at ht
    refine ⟨hp, n, ?_, ih hrest ht.2⟩
    rw [List.getElem?_set_ne ht.1]
    exact hn

theorem IsSeg_frame_append {heap : List BidNode} {l : List Nat} (ex : List BidNode) :
    ∀ {p q : Option Nat}, IsSeg heap p l q → IsSeg (heap ++ ex) p l q := by
  induction l with
  | nil => intro p q h; exact h
  | cons a rest ih =>
    intro p q h
    obtain ⟨hp, n, hn, hrest⟩ := h
    refine ⟨hp, n, ?_, ih hrest⟩
    rw [List.getElem?_append_left (List.getElem?_eq_some_iff.mp hn).1]
    exact hn

theorem IsSeg_none {heap : List BidNode} {l : List Nat} {q : Option Nat}
    (h : IsSeg heap none l q) : l = [] ∧ q = none := by
  cases l with
  | nil => exact ⟨rfl, h.symm⟩
  | cons a rest => exact absurd h.1 (by simp)

theorem length_le_of_nodup {l : List Nat} {n : Nat} (hlt : ∀ a ∈ l, a < n) (hd : l.Nodup) :
    l.length ≤ n := by
  have hsub : l ⊆ List.range n := fun a ha => List.mem_range.mpr (hlt a ha)
  have := (List.subperm_of_subset hd hsub).length_le
  simpa using this

theorem traverse_of_IsSeg {heap : List BidNode} {l : List Nat} : ∀ {p : Option Nat} (fuel : Nat),
    IsSeg heap p l none → l.length ≤ fuel → traverse heap fuel p = .ok (l.map (dataAt heap)) := by
  induction l with
  | nil =>
    intro p fuel h _
    have hp : p = none := h
    subst hp
    cases fuel <;> simp [traverse]
  | cons a rest ih =>
    intro p fuel h hf
    obtain ⟨hp, n, hn, hrest⟩ := h
    subst hp
    cases fuel with
    | zero => simp at hf
    | succ fuel =>
      simp only [traverse, hn, ih fuel hrest (by simpa using hf), List.map_cons, dataAt]

theorem Inv_length_le {s : LinkedList} {l : List Nat} (h : Inv s l) : l.length ≤ s.heap.length :=
  length_le_of_nodup (IsSeg_lt h.1) h.2.1

theorem PrintList_of_Inv {s : LinkedList} {l : List Nat} (h : Inv s l) :
    s.PrintList = .ok (l.map (dataAt s.heap)) :=
  traverse_of_IsSeg _ h.1 (Inv_length_le h)

end LinkedList

namespace LinkedList

theorem dataAt_append_left {heap : List BidNode} (ex : List BidNode) {a : Nat}
    (ha : a < heap.length) : dataAt (heap ++ ex) a = dataAt heap a := by
  unfold dataAt
  rw [List.getElem?_append_left ha]

theorem dataAt_set {heap : List BidNode} {t : Nat} {tn : BidNode} (ht : heap[t]? = some tn)
    (nx : Option Nat) (lv : Bool) (a : Nat) :
    dataAt (heap.set t ⟨tn.data, nx, lv⟩) a = dataAt heap a := by
  unfold dataAt
  by_cases hta : t = a
  · subst hta
    rw [List.getElem?_set_self (List.getElem?_eq_some_iff.mp ht).1, ht]
  · rw [List.getElem?_set_ne hta]

theorem map_dataAt_append_left {heap : List BidNode} (ex : List BidNode) {l : List Nat}
    (hl : ∀ a ∈ l, a < heap.length) : l.map (dataAt (heap ++ ex)) = l.map (dataAt heap) :=
  List.map_congr_left fun a ha => dataAt_append_left ex (hl a ha)

theorem map_dataAt_set {heap : List BidNode} {t : Nat} {tn : BidNode} (ht : heap[t]? = some tn)
    (nx : Option Nat) (lv : Bool) (l : List Nat) :
    l.map (dataAt (heap.set t ⟨tn.data, nx, lv⟩)) = l.map (dataAt heap) :=
  List.map_congr_left fun a _ => dataAt_set ht nx lv a

theorem getElem?_new (heap : List BidNode) (x : BidNode) :
    (heap ++ [x])[heap.length]? = some x := by
  simp

theorem Prepend_spec {s : LinkedList} {l : List Nat} (h : Inv s l) (bid : Bid) :
    ∃ s', s.Prepend bid = .ok s' ∧ Inv s' (s.heap.length :: l) ∧
      (s.heap.length :: l).map (dataAt s'.heap) = bid :: l.map (dataAt s.heap) ∧
      s'.size = s.size + 1 ∧ (s.tail = l.getLast? → s'.tail = (s.heap.length :: l).getLast?) := by
  obtain ⟨hseg, hnd, hnone, hsome⟩ := h
  have hlt := IsSeg_lt hseg
  have hnew : s.heap.length ∉ l := fun hm => Nat.lt_irrefl _ (hlt _ hm)
  cases hh : s.head with
  | none =>
    rw [hh] at hseg
    obtain ⟨hl, _⟩ := IsSeg_none hseg
    subst hl
    refine ⟨⟨s.heap ++ [⟨bid, none, true⟩], some s.heap.length, some s.heap.length, s.size + 1⟩,
      by simp [Prepend, hh], ⟨?_, by simp, by simp, ?_⟩, ?_, rfl, fun _ => rfl⟩
    · exact ⟨rfl, _, getElem?_new _ _, rfl⟩
    · intro _
      exact ⟨_, rfl, by simp, fun _ => rfl⟩
    · simp [dataAt]
  | some h0 =>
    refine ⟨⟨s.heap ++ [⟨bid, some h0, true⟩], some s.heap.length, s.tail, s.size + 1⟩,
      by simp [Prepend, hh], ⟨?_, List.nodup_cons.mpr ⟨hnew, hnd⟩, by simp, ?_⟩, ?_, rfl, ?_⟩
    · refine ⟨rfl, _, getElem?_new _ _, ?_⟩
      rw [hh] at hseg
      exact IsSeg_frame_append _ hseg
    · intro _
      obtain ⟨t, ht, htlt, hlast⟩ := hsome (by simp [hh])
      refine ⟨t, ht, by simp; omega, ?_⟩
      intro hmem
      rcases List.mem_cons.mp hmem with rfl | hmem
      · exact absurd htlt (Nat.lt_irrefl _)
      · have := hlast hmem
        cases l with
        | nil => simp at hmem
        | cons a rest => simpa [List.getLast?_cons_cons] using this
    · simp only [List.map_cons, map_dataAt_append_left _ hlt]
      simp [dataAt]
    · intro htl
      cases l with
      | nil =>
        rw [hh] at hseg
        exact absurd hseg (by simp [IsSeg])
      | cons a rest => simpa [List.getLast?_cons_cons] using htl

theorem Append_spec {s : LinkedList} {l : List Nat} (h : Inv s l) (bid : Bid) :
    ∃ s' l', s.Append bid = .ok s' ∧ Inv s' l' ∧ s'.size = s.size + 1 ∧
      (s.tail = l.getLast? → l'.map (dataAt s'.heap) = l.map (dataAt s.heap) ++ [bid] ∧
        s'.tail = l'.getLast?) := by
  obtain ⟨hseg, hnd, hnone, hsome⟩ := h
  have hlt := IsSeg_lt hseg
  have hnew : s.heap.length ∉ l := fun hm => Nat.lt_irrefl _ (hlt _ hm)
  cases hh : s.head with
  | none =>
    rw [hh] at hseg
    obtain ⟨hl, _⟩ := IsSeg_none hseg
    subst hl
    refine ⟨⟨s.heap ++ [⟨bid, none, true⟩], some s.heap.length, some s.heap.length, s.size + 1⟩,
      [s.heap.length], by simp [Append, hh], ⟨?_, by simp, by simp, ?_⟩, rfl, fun _ => ⟨?_, rfl⟩⟩
    · exact ⟨rfl, _, getElem?_new _ _, rfl⟩
    · intro _
      exact ⟨_, rfl, by simp, fun _ => rfl⟩
    · simp [dataAt]
  | some h0 =>
    obtain ⟨t, ht, htlt, hlast⟩ := hsome (by simp [hh])
    obtain ⟨tn, htn⟩ : ∃ tn, s.heap[t]? = some tn := ⟨s.heap[t], List.getElem?_eq_getElem htlt⟩
    have htn1 : (s.heap ++ [BidNode.mk bid none true])[t]? = some tn := by
      rw [List.getElem?_append_left htlt]; exact htn
    have hne : t ≠ s.heap.length := by omega
    have hrun : s.Append bid = .ok ⟨(s.heap ++ [BidNode.mk bid none true]).set t
        ⟨tn.data, some s.heap.length, tn.live⟩, s.head, some s.heap.length, s.size + 1⟩ := by
      simp only [Append, hh, ht, htn1]
    have hnewnode : ((s.heap ++ [BidNode.mk bid none true]).set t
        ⟨tn.data, some s.heap.length, tn.live⟩)[s.heap.length]? = some ⟨bid, none, true⟩ := by
      rw [List.getElem?_set_ne hne]; exact getElem?_new _ _
    by_cases hmem : t ∈ l
    · obtain ⟨ini, hini⟩ := List.getLast?_eq_some_iff.mp (hlast hmem)
      subst hini
      have hnd2 : t ∉ ini := by
        have := List.nodup_append.mp hnd
        intro hti
        exact this.2.2 hti (by simp)
      obtain ⟨m, hseg1, hseg2⟩ := IsSeg_append.mp hseg
      have hm : m = some t := hseg2.1
      subst hm
      refine ⟨_, ini ++ [t] ++ [s.heap.length], hrun, ⟨?_, ?_, by simp [hh], ?_⟩, rfl, fun _ => ⟨?_, ?_⟩⟩
      · rw [List.append_assoc]
        refine IsSeg_append.mpr ⟨some t, ?_, ?_⟩
        · exact IsSeg_frame_set _ _ (IsSeg_frame_append _ hseg1) hnd2
        · refine ⟨rfl, ⟨tn.data, some s.heap.length, tn.live⟩, ?_, rfl, _, hnewnode, rfl⟩
          rw [List.getElem?_set_self (by simp; omega)]
      · rw [List.nodup_append]
        refine ⟨hnd, by simp, ?_⟩
        intro a ha hb
        simp only [List.mem_singleton] at hb
        subst hb
        exact hnew ha
      · intro _
        exact ⟨_, rfl, by simp, fun _ => by simp⟩
      · show List.map (dataAt ((s.heap ++ [BidNode.mk bid none true]).set t
            ⟨tn.data, some s.heap.length, tn.live⟩)) _ = _
        have hd : dataAt ((s.heap ++ [BidNode.mk bid none true]).set t
            ⟨tn.data, some s.heap.length, tn.live⟩) s.heap.length = bid := by
          unfold dataAt
          rw [hnewnode]
        rw [List.map_append, map_dataAt_set htn1, map_dataAt_append_left _ hlt]
        simp only [List.map_cons, List.map_nil, hd]
      · simp
    · refine ⟨_, l, hrun, ⟨?_, hnd, by simp [hh], ?_⟩, rfl, ?_⟩
      · exact IsSeg_frame_set _ _ (IsSeg_frame_append _ hseg) hmem
      · intro _
        exact ⟨_, rfl, by simp, fun hm => absurd hm hnew⟩
      · intro htl
        exfalso
        rw [ht] at htl
        exact hmem (List.mem_of_getLast?_eq_some htl.symm)

end LinkedList

namespace LinkedList

theorem removeLoop_spec (bidId : String) (s : LinkedList) (l : List Nat)
    (hseg : IsSeg s.heap s.head l none) (hnd : l.Nodup) :
    ∀ (suffix pre : List Nat) (p : Nat) (pn : BidNode) (fuel : Nat),
      l = pre ++ p :: suffix → s.heap[p]? = some pn → IsSeg s.heap pn.next suffix none →
      suffix.length ≤ fuel →
      ∃ s', removeLoop bidId s fuel pn.next (some p) = .ok s' ∧
        IsSeg s'.heap s'.head
          (pre ++ p :: suffix.eraseP fun a => decide ((dataAt s.heap a).bidId = bidId)) none ∧
        s'.head = s.head ∧ s'.tail = s.tail ∧ s'.heap.length = s.heap.length ∧
        (∀ a, dataAt s'.heap a = dataAt s.heap a) ∧
        ((∃ a ∈ suffix, (dataAt s.heap a).bidId = bidId) → s'.size = s.size - 1) ∧
        ((∀ a ∈ suffix, (dataAt s.heap a).bidId ≠ bidId) → s' = s) := by
  intro suffix
  induction suffix with
  | nil =>
    intro pre p pn fuel hl hp hsuf _
    have hnext : pn.next = none := hsuf
    refine ⟨s, by rw [hnext]; cases fuel <;> rfl, ?_, rfl, rfl, rfl, fun _ => rfl, ?_, fun _ => rfl⟩
    · rw [List.eraseP_nil, ← hl]; exact hseg
    · rintro ⟨a, ha, _⟩; simp at ha
  | cons c rest ih =>
    intro pre p pn fuel hl hp hsuf hfuel
    obtain ⟨hnext, cn, hc, hrest⟩ := hsuf
    cases fuel with
    | zero => simp at hfuel
    | succ fuel =>
      have hcd : dataAt s.heap c = cn.data := by unfold dataAt; rw [hc]
      rw [hnext]
      simp only [removeLoop, hc]
      by_cases hm : cn.data.bidId = bidId
      · -- the node at `c` is the first match
        rw [if_pos hm]
        have hnd' : (pre ++ p :: c :: rest).Nodup := hl ▸ hnd
        have hcp : c ≠ p := by
          intro h
          have := (List.nodup_append.mp hnd').2.1
          simp [h] at this
        have hc_pre : c ∉ pre := fun h =>
          (List.nodup_append.mp hnd').2.2 h (by simp)
        have hp_pre : p ∉ pre := fun h =>
          (List.nodup_append.mp hnd').2.2 h (by simp)
        have hrest_nd : (p :: c :: rest).Nodup := (List.nodup_append.mp hnd').2.1
        have hp_rest : p ∉ rest := by
          intro h
          have := (List.nodup_cons.mp hrest_nd).1
          exact this (List.mem_cons_of_mem _ h)
        have hc_rest : c ∉ rest := (List.nodup_cons.mp (List.nodup_cons.mp hrest_nd).2).1
        have hhead : some c ≠ s.head := by
          intro h
          rw [hl] at hseg
          cases pre with
          | nil =>
            have : s.head = some p := hseg.1
            rw [this] at h
            exact hcp (Option.some.inj h)
          | cons a pre' =>
            have : s.head = some a := hseg.1
            rw [this] at h
            exact hc_pre (by simp [Option.some.inj h])
        rw [if_neg hhead]
        simp only [hp]
        have hplt : p < s.heap.length := (List.getElem?_eq_some_iff.mp hp).1
        have hc2 : (s.heap.set p ⟨pn.data, cn.next, pn.live⟩)[c]? = some cn := by
          rw [List.getElem?_set_ne (Ne.symm hcp)]; exact hc
        refine ⟨_, rfl, ?_, rfl, rfl, by simp, ?_, fun _ => rfl, ?_⟩
        · have hq : decide ((dataAt s.heap c).bidId = bidId) = true := by
            rw [hcd]; exact decide_eq_true hm
          have he : (c :: rest).eraseP (fun a => decide ((dataAt s.heap a).bidId = bidId))
              = rest := List.eraseP_cons_of_pos hq
          rw [he]
          rw [hl] at hseg
          obtain ⟨m, hseg1, hseg2⟩ := IsSeg_append.mp hseg
          have hmp : m = some p := hseg2.1
          subst hmp
          refine IsSeg_append.mpr ⟨some p, ?_, rfl, ⟨pn.data, cn.next, pn.live⟩, ?_, ?_⟩
          · exact IsSeg_frame_set _ _ (IsSeg_frame_set _ _ hseg1 hp_pre) hc_pre
          · rw [List.getElem?_set_ne hcp, List.getElem?_set_self hplt]
          · exact IsSeg_frame_set _ _ (IsSeg_frame_set _ _ hrest hp_rest) hc_rest
        · intro a
          show dataAt ((s.heap.set p ⟨pn.data, cn.next, pn.live⟩).set c ⟨cn.data, cn.next, false⟩) a
            = dataAt s.heap a
          rw [dataAt_set hc2, dataAt_set hp]
        · intro hall
          exact absurd (hcd ▸ hm) (hall c (List.mem_cons_self _ _))
      · -- no match at `c`: the loop goes on
        rw [if_neg hm]
        have hq : ¬ (decide ((dataAt s.heap c).bidId = bidId) = true) := by
          rw [hcd]; simpa using hm
        obtain ⟨s', hrun, hseg', hhd, htl, hlen, hdata, hsize, hsame⟩ :=
          ih (pre ++ [p]) c cn fuel (by simp [hl]) hc hrest (by simpa using hfuel)
        refine ⟨s', hrun, ?_, hhd, htl, hlen, hdata, ?_, ?_⟩
        · have he : (c :: rest).eraseP (fun a => decide ((dataAt s.heap a).bidId = bidId))
              = c :: rest.eraseP (fun a => decide ((dataAt s.heap a).bidId = bidId)) :=
            List.eraseP_cons_of_neg hq
          rw [he]
          simpa using hseg'
        · rintro ⟨a, ha, hma⟩
          rcases List.mem_cons.mp ha with rfl | ha
          · exact absurd (hcd ▸ hma) hm
          · exact hsize ⟨a, ha, hma⟩
        · intro hall
          exact hsame fun a ha => hall a (List.mem_cons_of_mem _ ha)

end LinkedList

namespace LinkedList

theorem getLast?_eraseP_of_mem {l : List Nat} (q : Nat → Bool) {t : Nat} (hnd : l.Nodup)
    (hlast : l.getLast? = some t) (hmem : t ∈ l.eraseP q) : (l.eraseP q).getLast? = some t := by
  obtain ⟨ini, rfl⟩ := List.getLast?_eq_some_iff.mp hlast
  have ht_ini : t ∉ ini := fun h => (List.nodup_append.mp hnd).2.2 h (by simp)
  by_cases hex : ∃ a ∈ ini, q a = true
  · obtain ⟨a, ha, hqa⟩ := hex
    rw [List.eraseP_append_left hqa _ ha]
    simp
  · have hall : ∀ b ∈ ini, ¬ q b = true := fun b hb hqb => hex ⟨b, hb, hqb⟩
    rw [List.eraseP_append_right _ hall] at hmem ⊢
    by_cases hqt : q t = true
    · have he : [t].eraseP q = [] := List.eraseP_cons_of_pos hqt
      rw [he] at hmem
      simp at hmem
      exact absurd hmem ht_ini
    · have he : [t].eraseP q = [t] := List.eraseP_cons_of_neg hqt
      rw [he]
      simp

theorem Remove_spec {s : LinkedList} {l : List Nat} (h : Inv s l) (bidId : String) :
    ∃ s', s.Remove bidId = .ok s' ∧
      Inv s' (l.eraseP fun a => decide ((dataAt s.heap a).bidId = bidId)) ∧
      (∀ a, dataAt s'.heap a = dataAt s.heap a) ∧
      ((∃ a ∈ l, (dataAt s.heap a).bidId = bidId) → s'.size = s.size - 1) ∧
      ((∀ a ∈ l, (dataAt s.heap a).bidId ≠ bidId) → s' = s) := by
  have hlen := Inv_length_le h
  obtain ⟨hseg, hnd, hnone, hsome⟩ := h
  cases l with
  | nil =>
    have hh : s.head = none := hseg
    refine ⟨s, ?_, ⟨hseg, hnd, hnone, hsome⟩, fun _ => rfl, ?_, fun _ => rfl⟩
    · unfold Remove
      rw [hh]
      cases s.heap.length <;> rfl
    · rintro ⟨a, ha, _⟩; simp at ha
  | cons a rest =>
    obtain ⟨hh, an, ha, hrest⟩ := hseg
    obtain ⟨fuel, hfuel⟩ : ∃ fuel, s.heap.length = fuel + 1 :=
      ⟨s.heap.length - 1, by simp at hlen; omega⟩
    have had : dataAt s.heap a = an.data := by unfold dataAt; rw [ha]
    have hnda := List.nodup_cons.mp hnd
    obtain ⟨t, ht, htlt, htlast⟩ := hsome (by simp [hh])
    unfold Remove
    rw [hfuel, hh]
    simp only [removeLoop, ha]
    by_cases hm : an.data.bidId = bidId
    · rw [if_pos hm, if_pos (by rw [hh])]
      have hq : decide ((dataAt s.heap a).bidId = bidId) = true := by
        rw [had]; exact decide_eq_true hm
      have he : (a :: rest).eraseP (fun a => decide ((dataAt s.heap a).bidId = bidId)) = rest :=
        List.eraseP_cons_of_pos hq
      rw [he]
      refine ⟨_, rfl, ⟨hrest, hnda.2, ?_, ?_⟩, fun _ => rfl, fun _ => rfl, ?_⟩
      · intro hn
        show (if an.next = none then none else s.tail) = none
        rw [if_pos hn]
      · intro hn
        have hn' : an.next ≠ none := hn
        refine ⟨t, ?_, htlt, ?_⟩
        · show (if an.next = none then none else s.tail) = some t
          rw [if_neg hn', ht]
        · intro hmem
          have := htlast (List.mem_cons_of_mem _ hmem)
          cases rest with
          | nil => simp at hmem
          | cons b rest' => simpa [List.getLast?_cons_cons] using this
      · intro hall
        exact absurd (had ▸ hm) (hall a (List.mem_cons_self _ _))
    · rw [if_neg hm]
      have hq : ¬ (decide ((dataAt s.heap a).bidId = bidId) = true) := by
        rw [had]; simpa using hm
      have he : (a :: rest).eraseP (fun a => decide ((dataAt s.heap a).bidId = bidId))
          = a :: rest.eraseP (fun a => decide ((dataAt s.heap a).bidId = bidId)) :=
        List.eraseP_cons_of_neg hq
      have hseg0 : IsSeg s.heap s.head (a :: rest) none := ⟨hh, an, ha, hrest⟩
      obtain ⟨s', hrun, hseg', hhd, htl, hlen', hdata, hsize, hsame⟩ :=
        removeLoop_spec bidId s (a :: rest) hseg0 hnd rest [] a an fuel rfl ha hrest
          (by simp at hlen; omega)
      rw [he]
      refine ⟨s', hrun, ⟨by simpa using hseg', ?_, ?_, ?_⟩, hdata, ?_, ?_⟩
      · rw [← he]
        exact hnd.sublist (List.eraseP_sublist _)
      · intro hn
        rw [hhd, hh] at hn
        exact absurd hn (by simp)
      · intro _
        refine ⟨t, by rw [htl, ht], by rw [hlen']; exact htlt, ?_⟩
        intro hmem
        rw [← he] at hmem ⊢
        exact getLast?_eraseP_of_mem _ hnd
          (htlast ((List.eraseP_sublist _).subset hmem)) hmem
      · rintro ⟨b, hb, hmb⟩
        rcases List.mem_cons.mp hb with rfl | hb
        · exact absurd (had ▸ hmb) hm
        · exact hsize ⟨b, hb, hmb⟩
      · intro hall
        exact hsame fun b hb => hall b (List.mem_cons_of_mem _ hb)

/-- The records of the chain after `Remove`, from the records before it. -/
theorem records_eraseP (heap heap' : List BidNode) (l : List Nat) (bidId : String)
    (hdata : ∀ a, dataAt heap' a = dataAt heap a) :
    (l.eraseP fun a => decide ((dataAt heap a).bidId = bidId)).map (dataAt heap')
      = (l.map (dataAt heap)).eraseP fun b => decide (b.bidId = bidId) := by
  rw [List.eraseP_map]
  have : dataAt heap' = dataAt heap := funext hdata
  rw [this]
  rfl

theorem step_Inv {s : LinkedList} {l : List Nat} (h : Inv s l) (op : Op) :
    ∃ s' l', step s op = .ok s' ∧ Inv s' l' := by
  cases op with
  | append bid =>
    obtain ⟨s', l', hrun, hinv, _⟩ := Append_spec h bid
    exact ⟨s', l', hrun, hinv⟩
  | prepend bid =>
    obtain ⟨s', hrun, hinv, _⟩ := Prepend_spec h bid
    exact ⟨s', _, hrun, hinv⟩
  | remove bidId =>
    obtain ⟨s', hrun, hinv, _⟩ := Remove_spec h bidId
    exact ⟨s', _, hrun, hinv⟩

theorem runFrom_Inv (ops : List Op) : ∀ {s : LinkedList} {l : List Nat}, Inv s l →
    ∃ s' l', runFrom s ops = .ok s' ∧ Inv s' l' := by
  induction ops with
  | nil => intro s l h; exact ⟨s, l, rfl, h⟩
  | cons op ops ih =>
    intro s l h
    obtain ⟨s1, l1, hstep, h1⟩ := step_Inv h op
    obtain ⟨s2, l2, hrun, h2⟩ := ih h1
    exact ⟨s2, l2, by simp only [runFrom, hstep, hrun], h2⟩

theorem Inv_create : Inv create [] :=
  ⟨rfl, List.nodup_nil, fun _ => rfl, fun h => absurd rfl h⟩

theorem run_Inv (ops : List Op) : ∃ s l, run ops = .ok s ∧ Inv s l :=
  runFrom_Inv ops Inv_create

end LinkedList

namespace LinkedList

theorem runFrom_append (ops1 ops2 : List Op) : ∀ s : LinkedList,
    runFrom s (ops1 ++ ops2) = (runFrom s ops1).bind fun s1 => runFrom s1 ops2 := by
  induction ops1 with
  | nil => intro s; rfl
  | cons op ops ih =>
    intro s
    simp only [List.cons_append, runFrom]
    cases step s op with
    | error e => rfl
    | ok s1 => exact ih s1

theorem appends_spec (rs : List Bid) : ∀ {s : LinkedList} {l : List Nat}, Inv s l →
    s.tail = l.getLast? →
    ∃ s' l', runFrom s (rs.map Op.append) = .ok s' ∧ Inv s' l' ∧ s'.tail = l'.getLast? ∧
      l'.map (dataAt s'.heap) = l.map (dataAt s.heap) ++ rs ∧ s'.size = s.size + rs.length := by
  induction rs with
  | nil => intro s l h ht; exact ⟨s, l, rfl, h, ht, by simp, by simp⟩
  | cons r rs ih =>
    intro s l h ht
    obtain ⟨s1, l1, hrun1, hinv1, hsize1, hgood⟩ := Append_spec h r
    obtain ⟨hrec1, htail1⟩ := hgood ht
    obtain ⟨s2, l2, hrun2, hinv2, htail2, hrec2, hsize2⟩ := ih hinv1 htail1
    refine ⟨s2, l2, ?_, hinv2, htail2, ?_, ?_⟩
    · simp only [List.map_cons, runFrom, step, hrun1, hrun2]
    · rw [hrec2, hrec1]; simp
    · rw [hsize2, hsize1]; simp; omega

theorem eraseP_eq_filter_of_nodup (bidId : String) : ∀ {L : List Bid}, (L.map Bid.bidId).Nodup →
    L.eraseP (fun b => decide (b.bidId = bidId)) = L.filter fun b => !decide (b.bidId = bidId) := by
  intro L
  induction L with
  | nil => intro _; rfl
  | cons b L ih =>
    intro hnd
    simp only [List.map_cons, List.nodup_cons, List.mem_map, not_exists, not_and] at hnd
    by_cases hb : b.bidId = bidId
    · have he : (b :: L).eraseP (fun b => decide (b.bidId = bidId)) = L :=
        List.eraseP_cons_of_pos (by simpa using hb)
      rw [he, List.filter_cons_of_neg (by simp [hb])]
      symm
      rw [List.filter_eq_self]
      intro x hx
      have : x.bidId ≠ bidId := fun h => hnd.1 x hx (h.trans hb.symm)
      simpa using this
    · have he : (b :: L).eraseP (fun b => decide (b.bidId = bidId))
          = b :: L.eraseP (fun b => decide (b.bidId = bidId)) :=
        List.eraseP_cons_of_neg (by simpa using hb)
      rw [he, List.filter_cons_of_pos (by simp [hb]), ih hnd.2]

theorem removes_spec (ids : List String) : ∀ {s : LinkedList} {l : List Nat}, Inv s l →
    ((l.map (dataAt s.heap)).map Bid.bidId).Nodup → s.size = l.length →
    ∃ s' l', runFrom s (ids.map Op.remove) = .ok s' ∧ Inv s' l' ∧
      l'.map (dataAt s'.heap)
        = (l.map (dataAt s.heap)).filter (fun b => !decide (b.bidId ∈ ids)) ∧
      s'.size = l'.length := by
  induction ids with
  | nil => intro s l h _ hs; exact ⟨s, l, rfl, h, by simp, hs⟩
  | cons bidId ids ih =>
    intro s l h hnd hs
    obtain ⟨s1, hrun1, hinv1, hdata1, hsize1, hsame1⟩ := Remove_spec h bidId
    have hrec1 := records_eraseP s.heap s1.heap l bidId hdata1
    rw [eraseP_eq_filter_of_nodup bidId hnd] at hrec1
    have hnd1 : (((l.eraseP fun a => decide ((dataAt s.heap a).bidId = bidId)).map
        (dataAt s1.heap)).map Bid.bidId).Nodup := by
      rw [hrec1]
      exact hnd.sublist ((List.filter_sublist _).map _)
    have hs1 : s1.size = (l.eraseP fun a => decide ((dataAt s.heap a).bidId = bidId)).length := by
      by_cases hex : ∃ a ∈ l, (dataAt s.heap a).bidId = bidId
      · obtain ⟨a, ha, hma⟩ := hex
        rw [hsize1 ⟨a, ha, hma⟩, hs, List.length_eraseP_of_mem ha (by simpa using hma)]
        have : 0 < l.length := List.length_pos_of_mem ha
        omega
      · have hall : ∀ a ∈ l, (dataAt s.heap a).bidId ≠ bidId := fun a ha hma => hex ⟨a, ha, hma⟩
        rw [hsame1 hall, hs, List.eraseP_of_forall_not]
        intro a ha
        simpa using hall a ha
    obtain ⟨s2, l2, hrun2, hinv2, hrec2, hs2⟩ := ih hinv1 hnd1 hs1
    refine ⟨s2, l2, ?_, hinv2, ?_, hs2⟩
    · simp only [List.map_cons, runFrom, step, hrun1, hrun2]
    · rw [hrec2, hrec1, List.filter_filter]
      apply List.filter_congr
      intro x _
      simp only [List.mem_cons, not_or, Bool.and_eq_true, Bool.not_eq_true', decide_eq_false_iff_not,
        Bool.decide_or, Bool.not_or]
      rw [Bool.and_comm]

end LinkedList

namespace LinkedList

/-- C11: the bookkeeping of `tail` is not kept consistent.  After `Append` of two records,
`Remove` of the second one unlinks and deletes the last node: the chain from `head` is
the single node at address 0, whose `next` is null, while `tail` still holds the address 1
of the deleted node, which is not the last node of the chain. -/
theorem tail_stale_after_Remove :
    ((run [.append ⟨"1", "a", "f", 1⟩, .append ⟨"2", "b", "g", 2⟩, .remove "2"]).map
        fun s => (s.head, s.heap[0]?.map BidNode.next, s.tail)) = .ok (some 0, some none, some 1) ∧
    ((run [.append ⟨"1", "a", "f", 1⟩, .append ⟨"2", "b", "g", 2⟩, .remove "2"]).bind
        PrintList) = .ok [⟨"1", "a", "f", 1⟩] ∧
    ((run [.append ⟨"1", "a", "f", 1⟩, .append ⟨"2", "b", "g", 2⟩, .remove "2"]).map
        fun s => s.heap[1]?.map BidNode.live) = .ok (some false) := by
  decide

/-- C14: for every sequence of records appended to the empty list, the traversal from
`head` yields the records in the order of insertion and `Size()` is their number; and on
every list reached by `Append`, `Prepend` (and `Remove`) calls, `Prepend(r)` puts `r` first,
leaves the rest of the traversal as it was and increases `Size()` by 1. -/
theorem Append_Prepend_order :
    (∀ rs : List Bid, ∃ s, run (rs.map Op.append) = .ok s ∧ s.PrintList = .ok rs ∧
      s.Size = rs.length) ∧
    (∀ (ops : List Op) (r : Bid), ∃ s L s', run ops = .ok s ∧ s.PrintList = .ok L ∧
      s.Prepend r = .ok s' ∧ s'.PrintList = .ok (r :: L) ∧ s'.Size = s.Size + 1) := by
  constructor
  · intro rs
    obtain ⟨s, l, hrun, hinv, _, hrec, hsize⟩ := appends_spec rs Inv_create rfl
    refine ⟨s, hrun, ?_, ?_⟩
    · rw [PrintList_of_Inv hinv, hrec]; rfl
    · show s.size = _
      rw [hsize]; simp [create]
  · intro ops r
    obtain ⟨s, l, hrun, hinv⟩ := run_Inv ops
    obtain ⟨s', hpre, hinv', hrec, hsize, _⟩ := Prepend_spec hinv r
    exact ⟨s, _, s', hrun, PrintList_of_Inv hinv, hpre, by rw [PrintList_of_Inv hinv', hrec], hsize⟩

/-- C15: for every list of records with pairwise distinct ids, appending them all to the
empty list and then removing all their ids, in any order, leaves the empty list: `head`
and `tail` are null, the traversal yields nothing and `Size()` is 0. -/
theorem Append_all_Remove_all (rs : List Bid) (ids : List String)
    (hdist : (rs.map Bid.bidId).Nodup) (hperm : ids.Perm (rs.map Bid.bidId)) :
    ∃ s, run (rs.map Op.append ++ ids.map Op.remove) = .ok s ∧
      s.head = none ∧ s.tail = none ∧ s.PrintList = .ok [] ∧ s.Size = 0 := by
  obtain ⟨s1, l1, hrun1, hinv1, _, hrec1, hsize1⟩ := appends_spec rs Inv_create rfl
  have hrec1' : l1.map (dataAt s1.heap) = rs := by rw [hrec1]; rfl
  have hlen1 : s1.size = l1.length := by
    rw [hsize1]
    have := congrArg List.length hrec1'
    simp only [List.length_map] at this
    rw [this]; simp [create]
  obtain ⟨s2, l2, hrun2, hinv2, hrec2, hsize2⟩ :=
    removes_spec ids hinv1 (by rw [hrec1']; exact hdist) hlen1
  have hl2 : l2 = [] := by
    have hnil : l2.map (dataAt s2.heap) = [] := by
      rw [hrec2, hrec1', List.filter_eq_nil_iff]
      intro b hb
      have : b.bidId ∈ ids := hperm.symm.subset (List.mem_map_of_mem _ hb)
      simp [this]
    simpa using hnil
  subst hl2
  have hhead : s2.head = none := hinv2.1
  refine ⟨s2, ?_, hhead, hinv2.2.2.1 hhead, ?_, ?_⟩
  · unfold run
    rw [runFrom_append]
    have h1 : runFrom create (rs.map Op.append) = .ok s1 := hrun1
    rw [h1]
    exact hrun2
  · rw [PrintList_of_Inv hinv2]; rfl
  · show s2.size = 0
    rw [hsize2]; rfl

/-- Three records are appended and their ids removed in another order: the last node
first, then the first one, then the remaining one. -/
theorem Append_all_Remove_all_witness :
    ∃ s, run ([(⟨"1", "a", "f", 1⟩ : Bid), ⟨"2", "b", "g", 2⟩, ⟨"3", "c", "h", 3⟩].map Op.append
        ++ ["3", "1", "2"].map Op.remove) = .ok s ∧
      s.head = none ∧ s.tail = none ∧ s.PrintList = .ok [] ∧ s.Size = 0 :=
  Append_all_Remove_all [⟨"1", "a", "f", 1⟩, ⟨"2", "b", "g", 2⟩, ⟨"3", "c", "h", 3⟩]
    ["3", "1", "2"] (by decide) (by decide)

end LinkedList

theorem HashTable.printFrom_eq (nodes : List HashTable.Node) : ∀ n i : Nat,
    i + n = nodes.length →
      HashTable.printFrom nodes n i = .ok ((nodes.drop i).flatMap HashTable.printBucket) := by
  intro n
  induction n with
  | zero =>
    intro i hi
    rw [List.drop_of_length_le (by omega)]
    rfl
  | succ n ih =>
    intro i hi
    have hlt : i < nodes.length := by omega
    simp only [HashTable.printFrom, List.getElem?_eq_getElem hlt, ih (i + 1) (by omega)]
    rw [List.drop_eq_getElem_cons hlt]
    rfl

theorem set_getElem_same {α : Type} (l : List α) (i : Nat) (h : i < l.length) :
    l.set i l[i] = l := by
  apply List.ext_getElem?
  intro j
  by_cases hij : i = j
  · subst hij
    rw [List.getElem?_set_self h, List.getElem?_eq_getElem h]
  · rw [List.getElem?_set_ne hij]

theorem HashTable.unlinkFirst_absent {chain : List HashTable.Entry} {bidId : String}
    (h : ∀ e ∈ chain, e.key ≠ UINT_MAX → e.bid.bidId ≠ bidId) :
    HashTable.unlinkFirst chain bidId = chain := by
  induction chain with
  | nil => rfl
  | cons e rest ih =>
    simp only [HashTable.unlinkFirst]
    rw [if_neg, ih fun x hx => h x (List.mem_cons_of_mem _ hx)]
    rintro ⟨hk, hb⟩
    exact h e (List.mem_cons_self _ _) hk hb

theorem HashTable.Remove_absent (t : HashTable) (bidId : String) (hN : 0 < t.tableSize)
    (hlen : t.nodes.length = t.tableSize) (hid : HashTable.isNumeric bidId = true)
    (habs : ∃ l, t.PrintAll = .ok l ∧ ∀ b ∈ l, b.bidId ≠ bidId) : t.Remove bidId = .ok t := by
  obtain ⟨l, hl, habs⟩ := habs
  unfold HashTable.PrintAll at hl
  rw [HashTable.printFrom_eq t.nodes t.tableSize 0 (by omega)] at hl
  have hl2 := Except.ok.inj hl
  subst hl2
  obtain ⟨i, hi, hlt⟩ := HashTable.homeBucket_numeric hN hid t.nodes
  have hlt2 : i < t.nodes.length := by omega
  have hnode : t.nodes[i] ∈ t.nodes := List.getElem_mem hlt2
  have hb : ∀ b ∈ HashTable.printBucket t.nodes[i], b.bidId ≠ bidId := by
    intro b hb
    apply habs
    simp only [List.drop_zero, List.mem_flatMap]
    exact ⟨_, hnode, hb⟩
  have hself : ∀ x : HashTable.Node, x = t.nodes[i] →
      (⟨t.tableSize, t.nodes.set i x⟩ : HashTable) = t := by
    intro x hx
    subst hx
    rw [set_getElem_same _ _ hlt2]
  unfold HashTable.Remove
  simp only [hi, List.getElem?_eq_getElem hlt2]
  split_ifs with hk hhead
  · rfl
  · exfalso
    apply hb t.nodes[i].bid _ hhead
    simp [HashTable.printBucket, hk]
  · rw [hself]
    rw [HashTable.unlinkFirst_absent]
    intro e he hek
    apply hb
    simp only [HashTable.printBucket, List.mem_map, List.mem_filter, List.mem_cons]
    exact ⟨e, ⟨Or.inr he, by simpa using hek⟩, rfl⟩

/-- C16: `Remove` of an id that is not stored changes nothing in the hash table and in
the linked list; in the tree it changes nothing where the nodes it compares with can be
read, and does not return where one of them has been destroyed.  After `Insert` of the
ids "5" and "3" and `Remove("5")` the root of the tree is the destroyed node of "3", and
`Remove("7")`, of an id that is not stored, reads it: no tree is returned.  `Remove` of
an id that `SearchNode` does not find returns the tree as it is, and so does `Remove` of
an id that is not in the enumeration of a tree reached from the empty tree, when the
enumeration is returned.  The hash table, for a numeric id whose home bucket is open or
holds other ids only, is returned with the same buckets and chains; the linked list is
returned with the same nodes, `head`, `tail` and `Size()`. -/
theorem Remove_absent_noop_or_fault :
    (BinarySearchTree.run [.insert ⟨"5", "a", "f", 1⟩, .insert ⟨"3", "b", "g", 2⟩, .remove "5"]
        = .ok ⟨.node false ⟨"3", "b", "g", 2⟩ .null .null⟩ ∧
      BinarySearchTree.Remove ⟨.node false ⟨"3", "b", "g", 2⟩ .null .null⟩ "7"
        = .error .invalidPointer) ∧
    (∀ (t : BinarySearchTree) (bidId : String),
      BinarySearchTree.SearchNode t.root bidId = .ok .null → t.Remove bidId = .ok t) ∧
    (∀ (ops : List BinarySearchTree.Op) (t : BinarySearchTree) (xs : List Bid)
      (bidId : String), BinarySearchTree.run ops = .ok t → t.InOrder = .ok xs →
      (∀ b ∈ xs, b.bidId ≠ bidId) → t.Remove bidId = .ok t) ∧
    (∀ (t : HashTable) (bidId : String), 0 < t.tableSize → t.nodes.length = t.tableSize →
      HashTable.isNumeric bidId = true →
      (∃ l, t.PrintAll = .ok l ∧ ∀ b ∈ l, b.bidId ≠ bidId) → t.Remove bidId = .ok t) ∧
    (∀ (ops : List LinkedList.Op) (bidId : String), ∃ s L, LinkedList.run ops = .ok s ∧
      s.PrintList = .ok L ∧ ((∀ b ∈ L, b.bidId ≠ bidId) → s.Remove bidId = .ok s)) := by
  refine ⟨by decide, ?_, ?_, HashTable.Remove_absent, ?_⟩
  · intro t bidId h
    simp only [BinarySearchTree.Remove, BinarySearchTree.RemoveNode_of_SearchNode_null h]
  · intro ops t xs bidId _ hxs h
    obtain ⟨hlive, hrec⟩ := BinarySearchTree.Traverse_ok hxs
    subst hrec
    simp only [BinarySearchTree.Remove,
      BinarySearchTree.RemoveNode_of_SearchNode_null (BinarySearchTree.SearchNode_absent hlive h)]
  · intro ops bidId
    obtain ⟨s, l, hrun, hinv⟩ := LinkedList.run_Inv ops
    refine ⟨s, _, hrun, LinkedList.PrintList_of_Inv hinv, ?_⟩
    intro h
    obtain ⟨s', hrem, _, _, _, hsame⟩ := LinkedList.Remove_spec hinv bidId
    rw [hrem, hsame]
    intro a ha
    exact h _ (List.mem_map_of_mem _ ha)

/-- The tree with the ids "5" and "3" and `Remove("4")`; the table of 5 buckets with the
ids "3" and "8" in the bucket 3, and `Remove` of "13" (same bucket) and of "4" (an open
bucket); the list with the ids "1" and "2" and `Remove("3")`. -/
theorem Remove_absent_noop_or_fault_witness :
    BinarySearchTree.Remove
        ⟨.node true ⟨"5", "a", "f", 1⟩ (.node true ⟨"3", "b", "g", 2⟩ .null .null) .null⟩ "4"
      = .ok ⟨.node true ⟨"5", "a", "f", 1⟩ (.node true ⟨"3", "b", "g", 2⟩ .null .null) .null⟩ ∧
    HashTable.Remove ⟨5, [HashTable.Node.open, HashTable.Node.open, HashTable.Node.open,
        ⟨⟨"3", "a", "f", 1⟩, 3, [⟨⟨"8", "b", "g", 2⟩, 3⟩]⟩, HashTable.Node.open]⟩ "13"
      = .ok ⟨5, [HashTable.Node.open, HashTable.Node.open, HashTable.Node.open,
        ⟨⟨"3", "a", "f", 1⟩, 3, [⟨⟨"8", "b", "g", 2⟩, 3⟩]⟩, HashTable.Node.open]⟩ ∧
    HashTable.Remove ⟨5, [HashTable.Node.open, HashTable.Node.open, HashTable.Node.open,
        ⟨⟨"3", "a", "f", 1⟩, 3, [⟨⟨"8", "b", "g", 2⟩, 3⟩]⟩, HashTable.Node.open]⟩ "4"
      = .ok ⟨5, [HashTable.Node.open, HashTable.Node.open, HashTable.Node.open,
        ⟨⟨"3", "a", "f", 1⟩, 3, [⟨⟨"8", "b", "g", 2⟩, 3⟩]⟩, HashTable.Node.open]⟩ ∧
    ∃ s L, LinkedList.run [.append ⟨"1", "a", "f", 1⟩, .append ⟨"2", "b", "g", 2⟩] = .ok s ∧
      s.PrintList = .ok L ∧ ((∀ b ∈ L, b.bidId ≠ "3") → s.Remove "3" = .ok s) :=
  ⟨Remove_absent_noop_or_fault.2.2.1
      [.insert ⟨"5", "a", "f", 1⟩, .insert ⟨"3", "b", "g", 2⟩] _
      [⟨"3", "b", "g", 2⟩, ⟨"5", "a", "f", 1⟩] "4" (by decide) (by decide) (by decide),
   Remove_absent_noop_or_fault.2.2.2.1 _ "13" (by decide) (by decide) (by decide)
    ⟨[⟨"3", "a", "f", 1⟩, ⟨"8", "b", "g", 2⟩], by decide, by decide⟩,
   Remove_absent_noop_or_fault.2.2.2.1 _ "4" (by decide) (by decide) (by decide)
    ⟨[⟨"3", "a", "f", 1⟩, ⟨"8", "b", "g", 2⟩], by decide, by decide⟩,
   Remove_absent_noop_or_fault.2.2.2.2 _ "3"⟩

/-! ## Sorting -/

theorem strLess_le_trans {a b c : String} (h1 : strLess b a = false) (h2 : strLess c b = false) :
    strLess c a = false := by
  by_contra hca
  have hca' : strLess c a = true := by simpa using hca
  cases hbc : strLess b c with
  | true =>
    have := strLess_trans hbc hca'
    rw [h1] at this
    exact Bool.false_ne_true this
  | false =>
    have hbeq : b = c := strLess_total hbc h2
    subst hbeq
    rw [h1] at hca'
    exact Bool.false_ne_true hca'

namespace VectorSorting

theorem TitleLe_refl (a : Bid) : TitleLe a a := strLess_irrefl _

theorem TitleLe_trans {a b c : Bid} (h1 : TitleLe a b) (h2 : TitleLe b c) : TitleLe a c :=
  strLess_le_trans h1 h2

theorem TitleLe_of_less {a b : Bid} (h : strLess a.title b.title = true) : TitleLe a b :=
  strLess_asymm h

theorem getElem?_eq_nth {bids : List Bid} {k : Nat} (h : k < bids.length) :
    bids[k]? = some (nth bids k) := by
  unfold nth
  rw [List.getD_eq_getElem?_getD, List.getElem?_eq_getElem h]
  rfl

theorem getElem_eq_nth {bids : List Bid} {k : Nat} (h : k < bids.length) :
    bids[k] = nth bids k := by
  have := getElem?_eq_nth h
  rw [List.getElem?_eq_getElem h] at this
  exact Option.some.inj this

theorem length_swapAt (bids : List Bid) (i j : Nat) : (swapAt bids i j).length = bids.length := by
  simp [swapAt]

theorem nth_swapAt {bids : List Bid} {i j : Nat} (hi : i < bids.length) (hj : j < bids.length)
    (x : Nat) :
    nth (swapAt bids i j) x
      = if x = j then nth bids i else if x = i then nth bids j else nth bids x := by
  unfold swapAt nth
  simp only [List.getD_eq_getElem?_getD]
  by_cases hxj : x = j
  · subst hxj
    rw [if_pos rfl, List.getElem?_set_self (by simpa using hj)]
    rfl
  · rw [if_neg hxj, List.getElem?_set_ne (Ne.symm hxj)]
    by_cases hxi : x = i
    · subst hxi
      rw [if_pos rfl, List.getElem?_set_self hi]
      rfl
    · rw [if_neg hxi, List.getElem?_set_ne (Ne.symm hxi)]

theorem getElem?_swapAt_of_ne (bids : List Bid) {i j x : Nat} (hi : x ≠ i) (hj : x ≠ j) :
    (swapAt bids i j)[x]? = bids[x]? := by
  unfold swapAt
  rw [List.getElem?_set_ne (Ne.symm hj), List.getElem?_set_ne (Ne.symm hi)]

theorem swapAt_perm {bids : List Bid} {i j : Nat} (hi : i < bids.length) (hj : j < bids.length) :
    (swapAt bids i j).Perm bids := by
  rw [List.perm_iff_count]
  intro b
  unfold swapAt
  have hj' : j < (bids.set i (nth bids j)).length := by simpa using hj
  rw [List.count_set _ _ _ _ hj', List.count_set _ _ _ _ hi]
  have hji : (bids.set i (nth bids j))[j] = nth bids j := by
    by_cases hij : i = j
    · subst hij
      simp
    · rw [List.getElem_set_ne hij]
      exact getElem_eq_nth hj
  rw [hji, getElem_eq_nth hi]
  have hle : (if (nth bids i == b) = true then 1 else 0) ≤ bids.count b := by
    rw [← getElem_eq_nth hi]
    split_ifs with h
    · have hb : bids[i] = b := by simpa using h
      exact List.count_pos_iff.mpr (hb ▸ List.getElem_mem hi)
    · exact Nat.zero_le _
  omega

end VectorSorting

namespace VectorSorting

theorem minLoop_spec (bids : List Bid) : ∀ k j m : Nat, j + k = bids.length → m < j →
    ∃ m', minLoop bids k j m = .ok m' ∧ m' < bids.length ∧ (m' = m ∨ j ≤ m') ∧
      TitleLe (nth bids m') (nth bids m) ∧
      (∀ x, j ≤ x → x < bids.length → TitleLe (nth bids m') (nth bids x)) ∧
      ((∀ x, j ≤ x → x < bids.length → strLess (nth bids x).title (nth bids m).title = false) →
        m' = m) := by
  intro k
  induction k with
  | zero =>
    intro j m hj hm
    refine ⟨m, rfl, by omega, Or.inl rfl, TitleLe_refl _, ?_, fun _ => rfl⟩
    intro x hx hxl
    omega
  | succ k ih =>
    intro j m hj hm
    have hjl : j < bids.length := by omega
    have hml : m < bids.length := by omega
    simp only [minLoop, getElem?_eq_nth hjl, getElem?_eq_nth hml]
    by_cases hless : strLess (nth bids j).title (nth bids m).title = true
    · rw [if_pos hless]
      obtain ⟨m', hrun, hlt, hor, hle, hall, _⟩ := ih (j + 1) j (by omega) (by omega)
      refine ⟨m', hrun, hlt, ?_, TitleLe_trans hle (TitleLe_of_less hless), ?_, ?_⟩
      · rcases hor with h | h
        · exact Or.inr (by omega)
        · exact Or.inr (by omega)
      · intro x hx hxl
        rcases Nat.eq_or_lt_of_le hx with h | h
        · subst h; exact hle
        · exact hall x h hxl
      · intro hnone
        have := hnone j (Nat.le_refl _) hjl
        rw [hless] at this
        exact absurd this (by simp)
    · rw [if_neg hless]
      have hless' : strLess (nth bids j).title (nth bids m).title = false := by simpa using hless
      obtain ⟨m', hrun, hlt, hor, hle, hall, hid⟩ := ih (j + 1) m (by omega) (by omega)
      refine ⟨m', hrun, hlt, ?_, hle, ?_, ?_⟩
      · rcases hor with h | h
        · exact Or.inl h
        · exact Or.inr (by omega)
      · intro x hx hxl
        rcases Nat.eq_or_lt_of_le hx with h | h
        · subst h; exact TitleLe_trans hle hless'
        · exact hall x h hxl
      · intro hnone
        exact hid fun x hx hxl => hnone x (by omega) hxl

theorem sortLoop_spec (size : Nat) : ∀ (k i : Nat) (bids : List Bid), bids.length = size →
    i + k + 1 = size → SortedUpTo bids i →
    ∃ r, sortLoop size k i bids = .ok r ∧ r.Perm bids ∧ SortedUpTo r (i + k) := by
  intro k
  induction k with
  | zero => intro i bids _ _ hs; exact ⟨bids, rfl, List.Perm.refl _, hs⟩
  | succ k ih =>
    intro i bids hlen hik hs
    have hil : i < bids.length := by omega
    obtain ⟨m, hrun, hml, hor, hle, hall, _⟩ :=
      minLoop_spec bids (size - (i + 1)) (i + 1) i (by omega) (by omega)
    simp only [sortLoop, hrun]
    by_cases hmi : m = i
    · subst hmi
      simp only [ne_eq, not_true_eq_false, if_false]
      obtain ⟨r, hr, hperm, hsorted⟩ := ih (m + 1) bids hlen (by omega) (by
        intro a b hab ha hb
        rcases Nat.lt_succ_iff_lt_or_eq.mp ha with h | h
        · exact hs a b hab h hb
        · subst h; exact hall b (by omega) hb)
      exact ⟨r, hr, hperm, by rw [show m + (k + 1) = m + 1 + k by omega]; exact hsorted⟩
    · have hmgt : i + 1 ≤ m := by
        rcases hor with h | h
        · exact absurd h hmi
        · exact h
      rw [if_pos hmi]
      simp only [getElem?_eq_nth hml, getElem?_eq_nth hil]
      have hswap : (bids.set m (nth bids i)).set i (nth bids m) = swapAt bids m i := rfl
      rw [hswap]
      obtain ⟨r, hr, hperm, hsorted⟩ := ih (i + 1) (swapAt bids m i)
        (by rw [length_swapAt]; exact hlen) (by omega) (by
        intro a b hab ha hb
        rw [length_swapAt] at hb
        rw [nth_swapAt hml hil a, nth_swapAt hml hil b]
        rcases Nat.lt_succ_iff_lt_or_eq.mp ha with h | h
        · -- a record before `i` is not moved
          rw [if_neg (by omega), if_neg (by omega)]
          split_ifs
          · exact hs a m (by omega) h hml
          · exact hs a i h h hil
          · exact hs a b hab h hb
        · -- the record at `i` is now the least of the rest
          subst h
          rw [if_pos rfl, if_neg (by omega)]
          split_ifs
          · exact hle
          · exact hall b (by omega) hb)
      exact ⟨r, hr, hperm.trans (swapAt_perm hml hil),
        by rw [show i + (k + 1) = i + 1 + k by omega]; exact hsorted⟩

theorem sortLoop_of_sorted (size : Nat) : ∀ (k i : Nat) (bids : List Bid), bids.length = size →
    i + k + 1 = size → (∀ a b, a < b → b < size → TitleLe (nth bids a) (nth bids b)) →
    sortLoop size k i bids = .ok bids := by
  intro k
  induction k with
  | zero => intro i bids _ _ _; rfl
  | succ k ih =>
    intro i bids hlen hik hs
    obtain ⟨m, hrun, _, _, _, _, hid⟩ :=
      minLoop_spec bids (size - (i + 1)) (i + 1) i (by omega) (by omega)
    have hm : m = i := hid fun x hx hxl => hs i x (by omega) (by omega)
    subst hm
    simp only [sortLoop, hrun, ne_eq, not_true_eq_false, if_false]
    exact ih (m + 1) bids hlen (by omega) hs

theorem pairwise_of_sortedUpTo {r : List Bid} (h : SortedUpTo r (r.length - 1)) :
    r.Pairwise TitleLe := by
  rw [List.pairwise_iff_getElem]
  intro i j hi hj hij
  rw [getElem_eq_nth hi, getElem_eq_nth hj]
  exact h i j hij (by omega) hj

theorem selectionSort_spec (bids : List Bid) :
    ∃ r, selectionSort bids = .ok r ∧ r.Perm bids ∧ r.Pairwise TitleLe := by
  cases hb : bids with
  | nil => exact ⟨[], rfl, List.Perm.refl _, List.Pairwise.nil⟩
  | cons b rest =>
    rw [← hb]
    have hpos : 0 < bids.length := by rw [hb]; simp
    obtain ⟨r, hr, hperm, hsorted⟩ := sortLoop_spec bids.length (bids.length - 1) 0 bids rfl
      (by omega) (fun a b _ ha _ => absurd ha (Nat.not_lt_zero _))
    refine ⟨r, hr, hperm, pairwise_of_sortedUpTo ?_⟩
    rw [hperm.length_eq]
    simpa using hsorted

theorem selectionSort_of_sorted {bids : List Bid} (h : bids.Pairwise TitleLe) :
    selectionSort bids = .ok bids := by
  cases hb : bids with
  | nil => rfl
  | cons b rest =>
    rw [← hb]
    have hpos : 0 < bids.length := by rw [hb]; simp
    apply sortLoop_of_sorted bids.length (bids.length - 1) 0 bids rfl (by omega)
    intro a c hac hc
    rw [← getElem_eq_nth (show a < bids.length by omega), ← getElem_eq_nth hc]
    exact List.pairwise_iff_getElem.mp h a c _ _ hac

end VectorSorting

namespace VectorSorting

theorem elemAt_cast {bids : List Bid} {k : Nat} (h : k < bids.length) :
    elemAt bids (k : Int) = .ok (nth bids k) := by
  unfold elemAt
  rw [if_neg (by omega)]
  simp only [Int.toNat_ofNat, getElem?_eq_nth h]

theorem scanLow_spec (bids : List Bid) (pv : String) : ∀ fuel j m : Nat, j ≤ m →
    m < bids.length → strLess (nth bids m).title pv = false → m - j < fuel →
    ∃ j' : Nat, scanLow bids pv fuel ((j : Int) - 1) = .ok (j' : Int) ∧ j ≤ j' ∧ j' ≤ m ∧
      strLess (nth bids j').title pv = false ∧
      ∀ x, j ≤ x → x < j' → strLess (nth bids x).title pv = true := by
  intro fuel
  induction fuel with
  | zero => intro j m _ _ _ hf; omega
  | succ fuel ih =>
    intro j m hjm hm hstop hf
    have hcast : (j : Int) - 1 + 1 = (j : Int) := by omega
    simp only [scanLow, hcast, elemAt_cast (show j < bids.length by omega)]
    by_cases hless : strLess (nth bids j).title pv = true
    · rw [if_pos hless]
      have hjm' : j ≠ m := by
        rintro rfl
        rw [hstop] at hless
        exact Bool.false_ne_true hless
      obtain ⟨j', hrun, h1, h2, h3, h4⟩ := ih (j + 1) m (by omega) hm hstop (by omega)
      have hcast2 : ((j + 1 : Nat) : Int) - 1 = (j : Int) := by omega
      rw [hcast2] at hrun
      refine ⟨j', hrun, by omega, h2, h3, ?_⟩
      intro x hx hxj
      rcases Nat.eq_or_lt_of_le hx with h | h
      · subst h; exact hless
      · exact h4 x h hxj
    · rw [if_neg hless]
      refine ⟨j, rfl, Nat.le_refl _, hjm, by simpa using hless, ?_⟩
      intro x hx hxj
      omega

theorem scanHigh_spec (bids : List Bid) (pv : String) : ∀ fuel j m : Nat, m ≤ j →
    j < bids.length → strLess pv (nth bids m).title = false → j - m < fuel →
    ∃ j' : Nat, scanHigh bids pv fuel ((j : Int) + 1) = .ok (j' : Int) ∧ m ≤ j' ∧ j' ≤ j ∧
      strLess pv (nth bids j').title = false ∧
      ∀ x, j' < x → x ≤ j → strLess pv (nth bids x).title = true := by
  intro fuel
  induction fuel with
  | zero => intro j m _ _ _ hf; omega
  | succ fuel ih =>
    intro j m hmj hj hstop hf
    have hcast : (j : Int) + 1 - 1 = (j : Int) := by omega
    simp only [scanHigh, hcast, elemAt_cast hj]
    by_cases hgt : strLess pv (nth bids j).title = true
    · rw [if_pos hgt]
      have hjm' : j ≠ m := by
        rintro rfl
        rw [hstop] at hgt
        exact Bool.false_ne_true hgt
      obtain ⟨j', hrun, h1, h2, h3, h4⟩ := ih (j - 1) m (by omega) (by omega) hstop (by omega)
      have hcast2 : ((j - 1 : Nat) : Int) + 1 = (j : Int) := by omega
      rw [hcast2] at hrun
      refine ⟨j', hrun, h1, by omega, h3, ?_⟩
      intro x hx hxj
      rcases Nat.eq_or_lt_of_le hxj with h | h
      · subst h; exact hgt
      · exact h4 x hx (by omega)
    · rw [if_neg hgt]
      refine ⟨j, rfl, hmj, Nat.le_refl _, by simpa using hgt, ?_⟩
      intro x hx hxj
      omega

end VectorSorting

namespace VectorSorting

theorem partitionLoop_spec (pv : String) (b e : Nat) :
    ∀ (fuel : Nat) (bids : List Bid) (lo hi : Nat),
      e < bids.length → b ≤ lo → hi ≤ e → hi + 1 - lo < fuel →
      (∀ x, b ≤ x → x < lo → strLess pv (nth bids x).title = false) →
      (∀ x, hi < x → x ≤ e → strLess (nth bids x).title pv = false) →
      (∃ m1, lo ≤ m1 ∧ m1 ≤ e ∧ strLess (nth bids m1).title pv = false) →
      (∃ m2, b ≤ m2 ∧ m2 ≤ hi ∧ strLess pv (nth bids m2).title = false) →
      (hi < e ∨ ∃ m, lo ≤ m ∧ m ≤ hi ∧ m < e ∧ strLess (nth bids m).title pv = false ∧
        strLess pv (nth bids m).title = false) →
      ∃ (p : Nat) (r : List Bid),
        partitionLoop pv fuel bids ((lo : Int) - 1) ((hi : Int) + 1) = .ok ((p : Int), r) ∧
        b ≤ p ∧ p < e ∧ r.Perm bids ∧ (∀ x, x < b ∨ e < x → r[x]? = bids[x]?) ∧
        (∀ x, b ≤ x → x ≤ p → strLess pv (nth r x).title = false) ∧
        (∀ x, p < x → x ≤ e → strLess (nth r x).title pv = false) := by
  intro fuel
  induction fuel with
  | zero => intro bids lo hi _ _ _ hf; omega
  | succ fuel ih =>
    intro bids lo hi he hblo hhie hf hb hc hd1 hd2 hmid
    obtain ⟨m1, hm1a, hm1b, hm1c⟩ := hd1
    obtain ⟨m2, hm2a, hm2b, hm2c⟩ := hd2
    obtain ⟨l1, hlow, hl1a, hl1b, hl1stop, hl1pass⟩ :=
      scanLow_spec bids pv (bids.length + 1) lo m1 hm1a (by omega) hm1c (by omega)
    obtain ⟨h1, hhigh, hh1a, hh1b, hh1stop, hh1pass⟩ :=
      scanHigh_spec bids pv (bids.length + 1) hi m2 hm2b (by omega) hm2c (by omega)
    simp only [partitionLoop, hlow, hhigh]
    by_cases hret : h1 ≤ l1
    · -- the cursors have met or crossed: `high` is returned
      rw [if_pos (by omega)]
      refine ⟨h1, bids, rfl, by omega, ?_, List.Perm.refl _, fun _ _ => rfl, ?_, ?_⟩
      · rcases hmid with h | ⟨m, hma, hmb, hmc, hmd, hme⟩
        · omega
        · have h1m : l1 ≤ m := by
            by_contra hcon
            have := hl1pass m hma (by omega)
            rw [hmd] at this
            exact Bool.false_ne_true this
          have h2m : m ≤ h1 := by
            by_contra hcon
            have := hh1pass m (by omega) hmb
            rw [hme] at this
            exact Bool.false_ne_true this
          omega
      · intro x hbx hxp
        by_cases hxlo : x < lo
        · exact hb x hbx hxlo
        · by_cases hxl1 : x < l1
          · exact strLess_asymm (hl1pass x (by omega) hxl1)
          · have : x = h1 := by omega
            subst this
            exact hh1stop
      · intro x hpx hxe
        by_cases hxhi : x ≤ hi
        · exact strLess_asymm (hh1pass x hpx hxhi)
        · exact hc x (by omega) hxe
    · -- the records at `low` and `high` are exchanged and the loop goes on
      have hlt : l1 < h1 := by omega
      have hl1len : l1 < bids.length := by omega
      have hh1len : h1 < bids.length := by omega
      rw [if_neg (by omega)]
      simp only [elemAt_cast hl1len, elemAt_cast hh1len, Int.toNat_ofNat]
      have hswap : (bids.set l1 (nth bids h1)).set h1 (nth bids l1) = swapAt bids l1 h1 := rfl
      rw [hswap]
      have hcast1 : (l1 : Int) = ((l1 + 1 : Nat) : Int) - 1 := by omega
      have hcast2 : (h1 : Int) = ((h1 - 1 : Nat) : Int) + 1 := by omega
      rw [hcast1, hcast2]
      have hnth := nth_swapAt hl1len hh1len
      obtain ⟨p, r, hrun, hbp, hpe, hperm, hframe, hpost1, hpost2⟩ :=
        ih (swapAt bids l1 h1) (l1 + 1) (h1 - 1) (by rw [length_swapAt]; exact he)
          (by omega) (by omega) (by omega)
          (by
            intro x hbx hx
            rw [hnth x, if_neg (by omega)]
            by_cases hxl : x = l1
            · rw [if_pos hxl]; exact hh1stop
            · rw [if_neg hxl]
              by_cases hxlo : x < lo
              · exact hb x hbx hxlo
              · exact strLess_asymm (hl1pass x (by omega) (by omega)))
          (by
            intro x hx hxe
            rw [hnth x]
            by_cases hxh : x = h1
            · rw [if_pos hxh]; exact hl1stop
            · rw [if_neg hxh, if_neg (by omega)]
              by_cases hxhi : x ≤ hi
              · exact strLess_asymm (hh1pass x (by omega) hxhi)
              · exact hc x (by omega) hxe)
          ⟨h1, by omega, by omega, by rw [hnth h1, if_pos rfl]; exact hl1stop⟩
          ⟨l1, by omega, by omega, by
            rw [hnth l1, if_neg (by omega), if_pos rfl]; exact hh1stop⟩
          (Or.inl (by omega))
      refine ⟨p, r, hrun, hbp, hpe, hperm.trans (swapAt_perm hl1len hh1len), ?_, hpost1, hpost2⟩
      intro x hx
      rw [hframe x hx]
      exact getElem?_swapAt_of_ne bids (by omega) (by omega)

theorem partition_spec (bids : List Bid) (b e : Nat) (hbe : b < e) (he : e < bids.length) :
    ∃ (p : Nat) (r : List Bid), partition bids (b : Int) (e : Int) = .ok ((p : Int), r) ∧
      b ≤ p ∧ p < e ∧ r.Perm bids ∧ (∀ x, x < b ∨ e < x → r[x]? = bids[x]?) ∧
      (∀ x, b ≤ x → x ≤ p →
        strLess (nth bids ((b + e) / 2)).title (nth r x).title = false) ∧
      (∀ x, p < x → x ≤ e →
        strLess (nth r x).title (nth bids ((b + e) / 2)).title = false) := by
  have hmid : Int.tdiv ((b : Int) + (e : Int)) 2 = (((b + e) / 2 : Nat) : Int) := by
    rw [Int.tdiv_eq_ediv (by omega) (by omega)]
    omega
  have hmlt : (b + e) / 2 < bids.length := by omega
  unfold partition
  rw [hmid]
  simp only [elemAt_cast hmlt]
  exact partitionLoop_spec _ b e (bids.length + 1) bids b e he (Nat.le_refl _) (Nat.le_refl _)
    (by omega) (fun x h1 h2 => by omega) (fun x h1 h2 => by omega)
    ⟨(b + e) / 2, by omega, by omega, strLess_irrefl _⟩
    ⟨(b + e) / 2, by omega, by omega, strLess_irrefl _⟩
    (Or.inr ⟨(b + e) / 2, by omega, by omega, by omega, strLess_irrefl _, strLess_irrefl _⟩)

end VectorSorting

namespace VectorSorting

theorem nth_congr {r l : List Bid} {x : Nat} (h : r[x]? = l[x]?) : nth r x = nth l x := by
  unfold nth
  rw [List.getD_eq_getElem?_getD, List.getD_eq_getElem?_getD, h]

theorem segment_perm {r l : List Bid} (hperm : r.Perm l) (b e : Nat)
    (hframe : ∀ x, x < b ∨ e < x → r[x]? = l[x]?) :
    ((r.drop b).take (e + 1 - b)).Perm ((l.drop b).take (e + 1 - b)) := by
  have htake : r.take b = l.take b := by
    apply List.ext_getElem?
    intro x
    rw [List.getElem?_take, List.getElem?_take]
    split_ifs with hx
    · exact hframe x (Or.inl hx)
    · rfl
  have hdrop : (r.drop b).drop (e + 1 - b) = (l.drop b).drop (e + 1 - b) := by
    apply List.ext_getElem?
    intro x
    rw [List.drop_drop, List.drop_drop, List.getElem?_drop, List.getElem?_drop]
    exact hframe _ (Or.inr (by omega))
  have hr : r = r.take b ++ ((r.drop b).take (e + 1 - b) ++ (r.drop b).drop (e + 1 - b)) := by
    rw [List.take_append_drop, List.take_append_drop]
  have hl : l = l.take b ++ ((l.drop b).take (e + 1 - b) ++ (l.drop b).drop (e + 1 - b)) := by
    rw [List.take_append_drop, List.take_append_drop]
  rw [hr, hl, htake, hdrop] at hperm
  exact (List.perm_append_right_iff _).mp ((List.perm_append_left_iff _).mp hperm)

theorem perm_frame_transfer {r l : List Bid} (hperm : r.Perm l) (b e : Nat) (he : e < l.length)
    (hframe : ∀ x, x < b ∨ e < x → r[x]? = l[x]?) (P : Bid → Prop)
    (hP : ∀ x, b ≤ x → x ≤ e → P (nth l x)) : ∀ x, b ≤ x → x ≤ e → P (nth r x) := by
  intro x hbx hxe
  have hlen : r.length = l.length := hperm.length_eq
  have hmem : nth r x ∈ (r.drop b).take (e + 1 - b) := by
    apply List.mem_iff_getElem?.mpr
    refine ⟨x - b, ?_⟩
    rw [List.getElem?_take, if_pos (by omega), List.getElem?_drop,
      show b + (x - b) = x by omega]
    exact getElem?_eq_nth (by omega)
  obtain ⟨k, hk⟩ := List.mem_iff_getElem?.mp ((segment_perm hperm b e hframe).subset hmem)
  rw [List.getElem?_take] at hk
  split_ifs at hk with hkn
  rw [List.getElem?_drop, getElem?_eq_nth (show b + k < l.length by omega)] at hk
  rw [← Option.some.inj hk]
  exact hP (b + k) (by omega) (by omega)

theorem quickSortLoop_spec : ∀ (fuel : Nat) (bids : List Bid) (b e : Nat), b ≤ e →
    e < bids.length → e - b < fuel →
    ∃ r, quickSortLoop fuel bids (b : Int) (e : Int) = .ok r ∧ r.Perm bids ∧
      (∀ x, x < b ∨ e < x → r[x]? = bids[x]?) ∧
      (∀ x y, b ≤ x → x < y → y ≤ e → TitleLe (nth r x) (nth r y)) := by
  intro fuel
  induction fuel with
  | zero => intro bids b e _ _ hf; omega
  | succ fuel ih =>
    intro bids b e hbe he hf
    by_cases hlt : b < e
    · obtain ⟨p, bids1, hpart, hbp, hpe, hperm1, hframe1, hlow, hhigh⟩ :=
        partition_spec bids b e hlt he
      have hlen1 : bids1.length = bids.length := hperm1.length_eq
      obtain ⟨bids2, hrun2, hperm2, hframe2, hsorted2⟩ :=
        ih bids1 b p hbp (by omega) (by omega)
      have hlen2 : bids2.length = bids1.length := hperm2.length_eq
      obtain ⟨bids3, hrun3, hperm3, hframe3, hsorted3⟩ :=
        ih bids2 (p + 1) e (by omega) (by omega) (by omega)
      have hcast : (p : Int) + 1 = ((p + 1 : Nat) : Int) := by omega
      refine ⟨bids3, ?_, (hperm3.trans hperm2).trans hperm1, ?_, ?_⟩
      · simp only [quickSortLoop, if_pos (show (b : Int) < (e : Int) by omega), hpart, hrun2,
          hcast, hrun3]
      · intro x hx
        rw [hframe3 x (by omega), hframe2 x (by omega), hframe1 x hx]
      · -- the records up to `p` are not above the pivot, those after `p` not below it
        have hlow2 := perm_frame_transfer hperm2 b p (by omega) hframe2
          (fun y => strLess (nth bids ((b + e) / 2)).title y.title = false) hlow
        have hhigh2 : ∀ x, p + 1 ≤ x → x ≤ e →
            strLess (nth bids2 x).title (nth bids ((b + e) / 2)).title = false := by
          intro x hpx hxe
          rw [nth_congr (hframe2 x (Or.inr (by omega)))]
          exact hhigh x (by omega) hxe
        have hhigh3 := perm_frame_transfer hperm3 (p + 1) e (by omega) hframe3
          (fun y => strLess y.title (nth bids ((b + e) / 2)).title = false) hhigh2
        intro x y hbx hxy hye
        by_cases hyp : y ≤ p
        · rw [nth_congr (hframe3 x (Or.inl (by omega))), nth_congr (hframe3 y (Or.inl (by omega)))]
          exact hsorted2 x y hbx hxy hyp
        · by_cases hxp : x ≤ p
          · have hx3 : strLess (nth bids ((b + e) / 2)).title (nth bids3 x).title = false := by
              rw [nth_congr (hframe3 x (Or.inl (by omega)))]
              exact hlow2 x hbx hxp
            exact strLess_le_trans hx3 (hhigh3 y (by omega) hye)
          · exact hsorted3 x y (by omega) hxy hye
    · have hbe2 : b = e := by omega
      subst hbe2
      refine ⟨bids, ?_, List.Perm.refl _, fun _ _ => rfl, ?_⟩
      · simp only [quickSortLoop, if_neg (show ¬ ((b : Int) < (b : Int)) by omega)]
      · intro x y hbx hxy hye
        omega

theorem quickSort_spec (bids : List Bid) (b e : Nat) (hbe : b ≤ e) (he : e < bids.length) :
    ∃ r, quickSort bids (b : Int) (e : Int) = .ok r ∧ r.Perm bids ∧
      (∀ x, x < b ∨ e < x → r[x]? = bids[x]?) ∧
      (∀ x y, b ≤ x → x < y → y ≤ e → TitleLe (nth r x) (nth r y)) :=
  quickSortLoop_spec (bids.length + 1) bids b e hbe he (by omega)

end VectorSorting

namespace VectorSorting

/-- C17: for every vector, the empty one and those with one record included,
`selectionSort` returns and the titles are then in non-decreasing lexicographic order: for
all indices `i < j` the title at `j` is not less than the title at `i`. -/
theorem selectionSort_sorted (bids : List Bid) :
    ∃ r, selectionSort bids = .ok r ∧ r.length = bids.length ∧
      (∀ (i j : Nat) (hi : i < r.length) (hj : j < r.length), i < j →
        strLess r[j].title r[i].title = false) ∧
      selectionSort [] = .ok [] ∧ ∀ b : Bid, selectionSort [b] = .ok [b] := by
  obtain ⟨r, hr, hperm, hsorted⟩ := selectionSort_spec bids
  exact ⟨r, hr, hperm.length_eq, fun i j hi hj hij =>
    List.pairwise_iff_getElem.mp hsorted i j hi hj hij, rfl, fun _ => rfl⟩

/-- C18: for every vector and every range of valid indices `0 <= begin <= end <= n - 1`,
`quickSort(bids, begin, end)` returns and the titles at the indices `begin..end` are then
in non-decreasing lexicographic order; with `begin = 0` and `end = n - 1` the whole vector
is in order. -/
theorem quickSort_sorted (bids : List Bid) (begin endIdx : Int) (h0 : 0 ≤ begin)
    (hbe : begin ≤ endIdx) (he : endIdx < bids.length) :
    ∃ r, quickSort bids begin endIdx = .ok r ∧ r.length = bids.length ∧
      (∀ (x y : Nat) (hx : x < r.length) (hy : y < r.length), begin ≤ x → x < y →
        (y : Int) ≤ endIdx → strLess r[y].title r[x].title = false) ∧
      (begin = 0 → endIdx = (bids.length : Int) - 1 → r.Pairwise TitleLe) := by
  obtain ⟨b, rfl⟩ := Int.eq_ofNat_of_zero_le h0
  obtain ⟨e, rfl⟩ := Int.eq_ofNat_of_zero_le (Int.le_trans h0 hbe)
  obtain ⟨r, hr, hperm, _, hsorted⟩ := quickSort_spec bids b e (by omega) (by omega)
  have hidx : ∀ (x y : Nat) (hx : x < r.length) (hy : y < r.length), (b : Int) ≤ x → x < y →
      (y : Int) ≤ (e : Int) → strLess r[y].title r[x].title = false := by
    intro x y hx hy hbx hxy hye
    rw [getElem_eq_nth hx, getElem_eq_nth hy]
    exact hsorted x y (by omega) hxy (by omega)
  refine ⟨r, hr, hperm.length_eq, hidx, ?_⟩
  intro hb0 hen
  rw [List.pairwise_iff_getElem]
  intro i j hi hj hij
  have hlen := hperm.length_eq
  exact hidx i j hi hj (by omega) hij (by omega)

/-- The vector with the titles C, A, B and the range 0..2: the call returns the vector
with the titles A, B, C. -/
theorem quickSort_sorted_witness :
    (∃ r, quickSort [⟨"1", "C", "f", 1⟩, ⟨"2", "A", "g", 2⟩, ⟨"3", "B", "h", 3⟩] 0 2 = .ok r ∧
      r.length = [(⟨"1", "C", "f", 1⟩ : Bid), ⟨"2", "A", "g", 2⟩, ⟨"3", "B", "h", 3⟩].length ∧
      (∀ (x y : Nat) (hx : x < r.length) (hy : y < r.length), (0 : Int) ≤ x → x < y →
        (y : Int) ≤ 2 → strLess r[y].title r[x].title = false) ∧
      ((0 : Int) = 0 → (2 : Int) =
        ([(⟨"1", "C", "f", 1⟩ : Bid), ⟨"2", "A", "g", 2⟩, ⟨"3", "B", "h", 3⟩].length : Int) - 1 →
        r.Pairwise TitleLe)) ∧
    quickSort [⟨"1", "C", "f", 1⟩, ⟨"2", "A", "g", 2⟩, ⟨"3", "B", "h", 3⟩] 0 2
      = .ok [⟨"2", "A", "g", 2⟩, ⟨"3", "B", "h", 3⟩, ⟨"1", "C", "f", 1⟩] :=
  ⟨quickSort_sorted [⟨"1", "C", "f", 1⟩, ⟨"2", "A", "g", 2⟩, ⟨"3", "B", "h", 3⟩] 0 2
    (by decide) (by decide) (by decide), by decide⟩

/-- C19: the two sorts only reorder the records: for every vector the result of
`selectionSort`, and for every vector that is not empty the result of
`quickSort(bids, 0, n - 1)`, is a permutation of the vector given, with the same records
(id, title, fund and amount) as often, and so of the same length. -/
theorem sorts_permute :
    (∀ bids : List Bid, ∃ r, selectionSort bids = .ok r ∧ r.Perm bids ∧
      r.length = bids.length) ∧
    (∀ bids : List Bid, bids ≠ [] →
      ∃ r, quickSort bids 0 ((bids.length : Int) - 1) = .ok r ∧ r.Perm bids ∧
        r.length = bids.length) := by
  constructor
  · intro bids
    obtain ⟨r, hr, hperm, _⟩ := selectionSort_spec bids
    exact ⟨r, hr, hperm, hperm.length_eq⟩
  · intro bids hne
    have hpos : 0 < bids.length := List.length_pos.mpr hne
    obtain ⟨r, hr, hperm, _⟩ := quickSort_spec bids 0 (bids.length - 1) (by omega) (by omega)
    have hcast : (((bids.length - 1 : Nat) : Int)) = (bids.length : Int) - 1 := by omega
    rw [hcast] at hr
    exact ⟨r, hr, hperm, hperm.length_eq⟩

/-- Three records, two of them with the same title. -/
theorem sorts_permute_witness :
    ∃ r, quickSort [⟨"1", "B", "f", 1⟩, ⟨"2", "A", "g", 2⟩, ⟨"3", "B", "h", 3⟩]
        0 (([(⟨"1", "B", "f", 1⟩ : Bid), ⟨"2", "A", "g", 2⟩, ⟨"3", "B", "h", 3⟩].length : Int) - 1)
        = .ok r ∧
      r.Perm [⟨"1", "B", "f", 1⟩, ⟨"2", "A", "g", 2⟩, ⟨"3", "B", "h", 3⟩] ∧
      r.length = [(⟨"1", "B", "f", 1⟩ : Bid), ⟨"2", "A", "g", 2⟩, ⟨"3", "B", "h", 3⟩].length :=
  sorts_permute.2 [⟨"1", "B", "f", 1⟩, ⟨"2", "A", "g", 2⟩, ⟨"3", "B", "h", 3⟩] (by decide)

/-- C20: `selectionSort` returns a vector whose titles are non-decreasing (records with
equal titles may differ in the other fields) as it was given, record for record; hence
sorting the result of `selectionSort` again gives the same vector. -/
theorem selectionSort_sorted_input :
    (∀ bids : List Bid, bids.Pairwise (fun a b => strLess b.title a.title = false) →
      selectionSort bids = .ok bids) ∧
    (∀ bids : List Bid, ∃ r, selectionSort bids = .ok r ∧ selectionSort r = .ok r) := by
  constructor
  · intro bids h
    exact selectionSort_of_sorted h
  · intro bids
    obtain ⟨r, hr, _, hsorted⟩ := selectionSort_spec bids
    exact ⟨r, hr, selectionSort_of_sorted hsorted⟩

/-- A vector in order with two records of the same title and different ids, funds and
amounts. -/
theorem selectionSort_sorted_input_witness :
    selectionSort [⟨"7", "A", "f", 1⟩, ⟨"3", "B", "g", 2⟩, ⟨"5", "B", "h", 3⟩, ⟨"1", "C", "i", 4⟩]
      = .ok [⟨"7", "A", "f", 1⟩, ⟨"3", "B", "g", 2⟩, ⟨"5", "B", "h", 3⟩, ⟨"1", "C", "i", 4⟩] :=
  selectionSort_sorted_input.1 _ (by decide)

end VectorSorting

namespace VectorSorting

/-- C22: with one past the end as `end` the first partition step leaves the vector: for
every vector of `n >= 1` records, in the call `quickSort(bids, 0, n)` the pivot is read
inside the vector and the scan of `low` ends inside it, then the first access of the scan
of `high` is `bids[n]`, outside the vector; `partition` and `quickSort` do not return. -/
theorem quickSort_past_end (bids : List Bid) (hne : bids ≠ []) :
    ∃ (pivot : Bid) (low1 : Int),
      elemAt bids (Int.tdiv (0 + (bids.length : Int)) 2) = .ok pivot ∧
      scanLow bids pivot.title (bids.length + 1) (0 - 1) = .ok low1 ∧
      elemAt bids ((bids.length : Int) + 1 - 1) = .error .outOfBounds ∧
      scanHigh bids pivot.title (bids.length + 1) ((bids.length : Int) + 1)
        = .error .outOfBounds ∧
      partition bids 0 (bids.length : Int) = .error .outOfBounds ∧
      quickSort bids 0 (bids.length : Int) = .error .outOfBounds := by
  have hpos : 0 < bids.length := List.length_pos.mpr hne
  have hmid : Int.tdiv (0 + (bids.length : Int)) 2 = ((bids.length / 2 : Nat) : Int) := by
    rw [Int.tdiv_eq_ediv (by omega) (by omega)]
    omega
  have hmlt : bids.length / 2 < bids.length := by omega
  have hpivot : elemAt bids (Int.tdiv (0 + (bids.length : Int)) 2)
      = .ok (nth bids (bids.length / 2)) := by
    rw [hmid, elemAt_cast hmlt]
  obtain ⟨j', hlow, _⟩ := scanLow_spec bids (nth bids (bids.length / 2)).title
    (bids.length + 1) 0 (bids.length / 2) (Nat.zero_le _) hmlt (strLess_irrefl _) (by omega)
  have hlow' : scanLow bids (nth bids (bids.length / 2)).title (bids.length + 1) (0 - 1)
      = .ok (j' : Int) := hlow
  have hread : elemAt bids ((bids.length : Int) + 1 - 1) = .error .outOfBounds := by
    have hc : (bids.length : Int) + 1 - 1 = (bids.length : Int) := by omega
    rw [hc]
    unfold elemAt
    rw [if_neg (by omega)]
    simp
  have hhigh : scanHigh bids (nth bids (bids.length / 2)).title (bids.length + 1)
      ((bids.length : Int) + 1) = .error .outOfBounds := by
    simp only [scanHigh, hread]
  have hpart : partition bids 0 (bids.length : Int) = .error .outOfBounds := by
    unfold partition
    rw [hpivot]
    simp only [partitionLoop, hlow', hhigh]
  refine ⟨_, _, hpivot, hlow', hread, hhigh, hpart, ?_⟩
  unfold quickSort
  simp only [quickSortLoop, if_pos (show (0 : Int) < (bids.length : Int) by omega), hpart]

/-- The vector with the titles C, A, B and the call `quickSort(bids, 0, 3)`. -/
theorem quickSort_past_end_witness :
    quickSort [⟨"1", "C", "f", 1⟩, ⟨"2", "A", "g", 2⟩, ⟨"3", "B", "h", 3⟩] 0 3
      = .error .outOfBounds := by
  obtain ⟨_, _, _, _, _, _, _, h⟩ := quickSort_past_end
    [⟨"1", "C", "f", 1⟩, ⟨"2", "A", "g", 2⟩, ⟨"3", "B", "h", 3⟩] (by decide)
  exact h

/-- C25: for every vector and every range `0 <= begin < end <= n - 1`, `partition` returns
(each of its loops ends within the bound on its iterations) a split point `p` with
`begin <= p < end`, so the ranges `[begin, p]` and `[p + 1, end]` of the two recursive calls
are strictly shorter than `[begin, end]`, and `quickSort` returns. -/
theorem partition_split (bids : List Bid) (begin endIdx : Int) (h0 : 0 ≤ begin)
    (hlt : begin < endIdx) (he : endIdx < bids.length) :
    ∃ (p : Int) (r : List Bid), partition bids begin endIdx = .ok (p, r) ∧
      begin ≤ p ∧ p < endIdx ∧
      p - begin + 1 < endIdx - begin + 1 ∧ endIdx - (p + 1) + 1 < endIdx - begin + 1 ∧
      ∃ sorted, quickSort bids begin endIdx = .ok sorted := by
  obtain ⟨b, rfl⟩ := Int.eq_ofNat_of_zero_le h0
  obtain ⟨e, rfl⟩ := Int.eq_ofNat_of_zero_le (Int.le_trans h0 (Int.le_of_lt hlt))
  obtain ⟨p, r, hpart, hbp, hpe, _⟩ := partition_spec bids b e (by omega) (by omega)
  obtain ⟨sorted, hsorted, _⟩ := quickSort_spec bids b e (by omega) (by omega)
  exact ⟨p, r, hpart, by omega, by omega, by omega, by omega, sorted, hsorted⟩

/-- The vector with the titles C, A, B and the range 0..2: the split point is 0. -/
theorem partition_split_witness :
    ∃ (p : Int) (r : List Bid),
      partition [⟨"1", "C", "f", 1⟩, ⟨"2", "A", "g", 2⟩, ⟨"3", "B", "h", 3⟩] 0 2 = .ok (p, r) ∧
      0 ≤ p ∧ p < 2 ∧ p - 0 + 1 < 2 - 0 + 1 ∧ 2 - (p + 1) + 1 < 2 - 0 + 1 ∧
      ∃ sorted, quickSort [⟨"1", "C", "f", 1⟩, ⟨"2", "A", "g", 2⟩, ⟨"3", "B", "h", 3⟩] 0 2
        = .ok sorted :=
  partition_split [⟨"1", "C", "f", 1⟩, ⟨"2", "A", "g", 2⟩, ⟨"3", "B", "h", 3⟩] 0 2
    (by decide) (by decide) (by decide)

/-- C26: for every vector and every range `0 <= begin < end <= n - 1`, with `pivot` the
record at the index `(begin + end) / 2` before the call, `partition` returns a split point
`p` and a vector of the same length in which no title at the indices `begin..p` is above
the title of `pivot` and no title at the indices `p + 1..end` is below it. -/
theorem partition_postcondition (bids : List Bid) (begin endIdx : Int) (h0 : 0 ≤ begin)
    (hlt : begin < endIdx) (he : endIdx < bids.length) :
    ∃ (pivot : Bid) (p : Int) (r : List Bid),
      elemAt bids (Int.tdiv (begin + endIdx) 2) = .ok pivot ∧
      partition bids begin endIdx = .ok (p, r) ∧ r.length = bids.length ∧
      (∀ (x : Int) (bx : Bid), begin ≤ x → x ≤ p → elemAt r x = .ok bx →
        strLess pivot.title bx.title = false) ∧
      (∀ (x : Int) (bx : Bid), p < x → x ≤ endIdx → elemAt r x = .ok bx →
        strLess bx.title pivot.title = false) := by
  obtain ⟨b, rfl⟩ := Int.eq_ofNat_of_zero_le h0
  obtain ⟨e, rfl⟩ := Int.eq_ofNat_of_zero_le (Int.le_trans h0 (Int.le_of_lt hlt))
  obtain ⟨p, r, hpart, hbp, hpe, hperm, _, hlow, hhigh⟩ :=
    partition_spec bids b e (by omega) (by omega)
  have hlen : r.length = bids.length := hperm.length_eq
  have hmid : Int.tdiv ((b : Int) + (e : Int)) 2 = (((b + e) / 2 : Nat) : Int) := by
    rw [Int.tdiv_eq_ediv (by omega) (by omega)]
    omega
  refine ⟨nth bids ((b + e) / 2), p, r, ?_, hpart, hlen, ?_, ?_⟩
  · rw [hmid, elemAt_cast (by omega)]
  · intro x bx hbx hxp hread
    obtain ⟨k, rfl⟩ := Int.eq_ofNat_of_zero_le (show (0 : Int) ≤ x by omega)
    rw [elemAt_cast (show k < r.length by omega)] at hread
    rw [← Except.ok.inj hread]
    exact hlow k (by omega) (by omega)
  · intro x bx hpx hxe hread
    obtain ⟨k, rfl⟩ := Int.eq_ofNat_of_zero_le (show (0 : Int) ≤ x by omega)
    rw [elemAt_cast (show k < r.length by omega)] at hread
    rw [← Except.ok.inj hread]
    exact hhigh k (by omega) (by omega)

/-- The vector with the titles C, A, B, D and the range 0..3: the pivot is the record
with the title A. -/
theorem partition_postcondition_witness :
    ∃ (pivot : Bid) (p : Int) (r : List Bid),
      elemAt [⟨"1", "C", "f", 1⟩, ⟨"2", "A", "g", 2⟩, ⟨"3", "B", "h", 3⟩, ⟨"4", "D", "i", 4⟩]
        (Int.tdiv (0 + 3) 2) = .ok pivot ∧
      partition [⟨"1", "C", "f", 1⟩, ⟨"2", "A", "g", 2⟩, ⟨"3", "B", "h", 3⟩, ⟨"4", "D", "i", 4⟩]
        0 3 = .ok (p, r) ∧
      r.length = [(⟨"1", "C", "f", 1⟩ : Bid), ⟨"2", "A", "g", 2⟩, ⟨"3", "B", "h", 3⟩,
        ⟨"4", "D", "i", 4⟩].length ∧
      (∀ (x : Int) (bx : Bid), 0 ≤ x → x ≤ p → elemAt r x = .ok bx →
        strLess pivot.title bx.title = false) ∧
      (∀ (x : Int) (bx : Bid), p < x → x ≤ 3 → elemAt r x = .ok bx →
        strLess bx.title pivot.title = false) :=
  partition_postcondition
    [⟨"1", "C", "f", 1⟩, ⟨"2", "A", "g", 2⟩, ⟨"3", "B", "h", 3⟩, ⟨"4", "D", "i", 4⟩] 0 3
    (by decide) (by decide) (by decide)

end VectorSorting

namespace BinarySearchTree

/-- C24: `Remove` leaves links to destroyed nodes.  With the ids "5" and "3" inserted,
`Remove("5")` deletes the node of "5", whose destructor deletes its left subtree, and
returns that subtree as the new root: the root is not live.  With the ids "5", "3", "8",
"9" inserted, `Remove("5")` links the right child "9" of the successor "8" in its place and
deletes the successor, whose destructor deletes "9": the tree holds a node that is not
live.  The same happens when the successor lies deeper (ids "5", "3", "8", "7", "75"). -/
theorem Remove_leaves_destroyed_nodes :
    run [.insert ⟨"5", "a", "f", 1⟩, .insert ⟨"3", "b", "g", 2⟩, .remove "5"]
      = .ok ⟨.node false ⟨"3", "b", "g", 2⟩ .null .null⟩ ∧
    (run [.insert ⟨"5", "a", "f", 1⟩, .insert ⟨"3", "b", "g", 2⟩, .remove "5"]).map
      (fun t => allLive t.root) = .ok false ∧
    (run [.insert ⟨"5", "a", "f", 1⟩, .insert ⟨"3", "b", "g", 2⟩,
      .insert ⟨"8", "c", "h", 3⟩, .insert ⟨"9", "d", "i", 4⟩, .remove "5"]).map
      (fun t => allLive t.root) = .ok false ∧
    (run [.insert ⟨"5", "a", "f", 1⟩, .insert ⟨"3", "b", "g", 2⟩,
      .insert ⟨"8", "c", "h", 3⟩, .insert ⟨"7", "d", "i", 4⟩, .insert ⟨"75", "e", "j", 5⟩,
      .remove "5"]).map (fun t => allLive t.root) = .ok false ∧
    (run [.insert ⟨"5", "a", "f", 1⟩, .insert ⟨"3", "b", "g", 2⟩,
      .insert ⟨"8", "c", "h", 3⟩, .insert ⟨"9", "d", "i", 4⟩]).map
      (fun t => allLive t.root) = .ok true := by
  decide

end BinarySearchTree

namespace HashTable

/-- C29: `Remove` of the head of a bucket loses the entries behind the second one.  With 5
buckets and the ids "3", "8", "13" inserted (all in the bucket 3), `Search("13")` returns the
record of "13"; after `Remove("3")` the head slot holds the record of "8" with a null link,
`Search("8")` still returns its record and `Search("13")` returns the empty record. -/
theorem Remove_head_drops_chain :
    (((create 5).insertAll [⟨"3", "a", "f", 1⟩, ⟨"8", "b", "g", 2⟩, ⟨"13", "c", "h", 3⟩]).bind
        fun t => t.Search "13") = .ok ⟨"13", "c", "h", 3⟩ ∧
    ((((create 5).insertAll [⟨"3", "a", "f", 1⟩, ⟨"8", "b", "g", 2⟩, ⟨"13", "c", "h", 3⟩]).bind
        fun t => t.Remove "3").bind fun t => t.Search "13") = .ok default ∧
    ((((create 5).insertAll [⟨"3", "a", "f", 1⟩, ⟨"8", "b", "g", 2⟩, ⟨"13", "c", "h", 3⟩]).bind
        fun t => t.Remove "3").bind fun t => t.Search "8") = .ok ⟨"8", "b", "g", 2⟩ ∧
    ((((create 5).insertAll [⟨"3", "a", "f", 1⟩, ⟨"8", "b", "g", 2⟩, ⟨"13", "c", "h", 3⟩]).bind
        fun t => t.Remove "3").map fun t => t.nodes[3]?)
      = .ok (some ⟨⟨"8", "b", "g", 2⟩, 3, []⟩) := by
  decide

end HashTable

theorem takeWhile_eq_nil_of_forall {p : Char → Bool} {l : List Char}
    (h : ∀ c ∈ l, p c = false) : l.takeWhile p = [] := by
  cases l with
  | nil => rfl
  | cons c r => simp [List.takeWhile_cons, h c (List.mem_cons_self _ _)]

theorem stoi_no_digit {str : String} (h : ∀ c ∈ str.toList, isDigitCode c = false) :
    stoi str = .error .invalidArgument := by
  have hcs : ∀ c ∈ str.toList.dropWhile isSpaceCode, isDigitCode c = false := fun c hc =>
    h c ((List.dropWhile_suffix _).subset hc)
  unfold stoi
  simp only
  rw [if_pos]
  apply takeWhile_eq_nil_of_forall
  intro c hc
  cases hl : str.toList.dropWhile isSpaceCode with
  | nil => rw [hl] at hc; simp at hc
  | cons a r =>
    rw [hl] at hc hcs
    simp only at hc
    split_ifs at hc
    · exact hcs c (List.mem_cons_of_mem _ hc)
    · exact hcs c hc

namespace HashTable

/-- C23: when `std::stoi` fails on the id, as it does with `std::invalid_argument` for
every string without a decimal digit ("abc" and the empty string are two of them), each of
`Insert`, `Search` and `Remove` fails with the same error, on every table: the call ends in
`hash(stoi(...))`, before a bucket is read or written, so no table and no record is
returned. -/
theorem nonnumeric_id_faults :
    (∀ (t : HashTable) (bid : Bid) (e : Fault), stoi bid.bidId = .error e →
      t.Insert bid = .error e) ∧
    (∀ (t : HashTable) (bidId : String) (e : Fault), stoi bidId = .error e →
      t.Search bidId = .error e ∧ t.Remove bidId = .error e) ∧
    (∀ str : String, (∀ c ∈ str.toList, isDigitCode c = false) →
      stoi str = .error .invalidArgument) ∧
    stoi "abc" = .error .invalidArgument ∧ stoi "" = .error .invalidArgument := by
  refine ⟨?_, ?_, fun str h => stoi_no_digit h, by decide, by decide⟩
  · intro t bid e h
    simp only [Insert, homeBucket, h]
  · intro t bidId e h
    constructor
    · simp only [Search, homeBucket, h]
    · simp only [Remove, homeBucket, h]

/-- The table with the id "3" and the calls with the ids "abc" and "". -/
theorem nonnumeric_id_faults_witness :
    HashTable.Insert ⟨5, [Node.open, Node.open, Node.open, ⟨⟨"3", "a", "f", 1⟩, 3, []⟩,
        Node.open]⟩ ⟨"abc", "t", "f", 1⟩ = .error .invalidArgument ∧
    HashTable.Search ⟨5, [Node.open, Node.open, Node.open, ⟨⟨"3", "a", "f", 1⟩, 3, []⟩,
        Node.open]⟩ "" = .error .invalidArgument ∧
    HashTable.Remove ⟨5, [Node.open, Node.open, Node.open, ⟨⟨"3", "a", "f", 1⟩, 3, []⟩,
        Node.open]⟩ "abc" = .error .invalidArgument :=
  ⟨nonnumeric_id_faults.1 _ ⟨"abc", "t", "f", 1⟩ _ (nonnumeric_id_faults.2.2.1 "abc" (by decide)),
   (nonnumeric_id_faults.2.1 _ "" _ (nonnumeric_id_faults.2.2.1 "" (by decide))).1,
   (nonnumeric_id_faults.2.1 _ "abc" _ (nonnumeric_id_faults.2.2.1 "abc" (by decide))).2⟩

end HashTable

namespace BinarySearchTree

/-- C28: two-children deletion links the right child of the successor into the tree
and destroys it with the successor.  At the node "5" with the children "3" and "8", where
the successor "8" is the right child itself and has the right child "9", `RemoveNode`
links "9" as the right child of the node and then `delete succ` destroys "9" with "8";
likewise when the successor "6" lies under "8" and has the right child "7".  The right
subtree of the result then holds a destroyed node, and its traversal reads it.  For a
live node with that id, a left child and a right subtree whose nodes are all live: the
node returned keeps its left subtree, holds the record of the leftmost node of its former
right subtree, and its right subtree has the records and links of the former right
subtree with the leftmost node replaced by the right child of that node; it is that
subtree, all live, when the successor has no right child, and holds a destroyed node when
the successor has one.  When the successor is the right child itself, the right link of
the node is set to the right child of the successor. -/
theorem RemoveNode_two_children_or_fault :
    (RemoveNode (.node true ⟨"5", "a", "f", 1⟩ (.node true ⟨"3", "b", "g", 2⟩ .null .null)
        (.node true ⟨"8", "c", "h", 3⟩ .null (.node true ⟨"9", "d", "i", 4⟩ .null .null))) "5"
      = .ok (.node true ⟨"8", "c", "h", 3⟩ (.node true ⟨"3", "b", "g", 2⟩ .null .null)
        (.node false ⟨"9", "d", "i", 4⟩ .null .null)) ∧
     Traverse (.node true ⟨"8", "c", "h", 3⟩ (.node true ⟨"3", "b", "g", 2⟩ .null .null)
        (.node false ⟨"9", "d", "i", 4⟩ .null .null)) = .error .invalidPointer) ∧
    (RemoveNode (.node true ⟨"5", "a", "f", 1⟩ (.node true ⟨"3", "b", "g", 2⟩ .null .null)
        (.node true ⟨"8", "c", "h", 3⟩
          (.node true ⟨"6", "d", "i", 4⟩ .null (.node true ⟨"7", "e", "j", 5⟩ .null .null))
          .null)) "5"
      = .ok (.node true ⟨"6", "d", "i", 4⟩ (.node true ⟨"3", "b", "g", 2⟩ .null .null)
        (.node true ⟨"8", "c", "h", 3⟩ (.node false ⟨"7", "e", "j", 5⟩ .null .null) .null)) ∧
     Traverse (.node true ⟨"6", "d", "i", 4⟩ (.node true ⟨"3", "b", "g", 2⟩ .null .null)
        (.node true ⟨"8", "c", "h", 3⟩ (.node false ⟨"7", "e", "j", 5⟩ .null .null) .null))
      = .error .invalidPointer) ∧
    (∀ (d : Bid) (L R : Node) (bidId : String), d.bidId = bidId → L ≠ .null → R ≠ .null →
      allLive R = true →
      ∃ R1, RemoveNode (.node true d L R) bidId = .ok (.node true (leftmostData R) L R1) ∧
        links R1 = links (withoutLeftmost R) ∧
        records L ++ leftmostData R :: records R1 = records L ++ records R ∧
        (leftmostRight R = .null → R1 = withoutLeftmost R ∧ allLive R1 = true) ∧
        (leftmostRight R ≠ .null → allLive R1 = false) ∧
        (∀ rlv rd rr, R = .node rlv rd .null rr →
          leftmostData R = rd ∧ withoutLeftmost R = rr ∧ R1 = destroyed rr)) := by
  refine ⟨by decide, by decide, ?_⟩
  intro d L R bidId hid hL hR hlive
  obtain ⟨m, hm⟩ := RemoveNode_two_of_allLive d L hid hL hR hlive
  have hm2 := RemoveNode_two_ok hid hL hR hm
  subst hm2
  refine ⟨_, hm, links_replaceLeftmost_destroyed _ _, ?_, ?_, ?_, ?_⟩
  · rw [records_replaceLeftmost_destroyed]
    cases R with
    | null => exact absurd rfl hR
    | node rlv rd rl rr =>
      have h := records_withoutLeftmost rl rlv rd rr
      unfold withoutLeftmost at h
      rw [← h]
  · intro h
    have heq : replaceLeftmost (destroyed (leftmostRight R)) R = withoutLeftmost R := by
      unfold withoutLeftmost
      rw [h]
      rfl
    rw [heq]
    exact ⟨rfl, allLive_withoutLeftmost hlive⟩
  · intro h
    exact allLive_replaceLeftmost_destroyed h R hR
  · intro rlv rd rr h
    subst h
    simp [leftmostData, withoutLeftmost, replaceLeftmost, leftmostRight]

/-- The node "5" with the children "3" and "8": in the first tree the successor "8" is the
right child itself and has no child; in the second one the successor "6" is the leftmost
node under "8" and has the right child "7". -/
theorem RemoveNode_two_children_or_fault_witness :
    RemoveNode (.node true ⟨"5", "a", "f", 1⟩ (.node true ⟨"3", "b", "g", 2⟩ .null .null)
        (.node true ⟨"8", "c", "h", 3⟩ .null .null)) "5"
      = .ok (.node true ⟨"8", "c", "h", 3⟩ (.node true ⟨"3", "b", "g", 2⟩ .null .null) .null) ∧
    ∃ R1, RemoveNode (.node true ⟨"5", "a", "f", 1⟩ (.node true ⟨"3", "b", "g", 2⟩ .null .null)
        (.node true ⟨"8", "c", "h", 3⟩
          (.node true ⟨"6", "d", "i", 4⟩ .null (.node true ⟨"7", "e", "j", 5⟩ .null .null))
          .null)) "5"
      = .ok (.node true ⟨"6", "d", "i", 4⟩ (.node true ⟨"3", "b", "g", 2⟩ .null .null) R1) ∧
      links R1 = .node true ⟨"8", "c", "h", 3⟩ (.node true ⟨"7", "e", "j", 5⟩ .null .null)
        .null ∧
      allLive R1 = false := by
  refine ⟨by decide, ?_⟩
  obtain ⟨R1, h1, h2, _, _, h5, _⟩ := RemoveNode_two_children_or_fault.2.2 ⟨"5", "a", "f", 1⟩
    (.node true ⟨"3", "b", "g", 2⟩ .null .null)
    (.node true ⟨"8", "c", "h", 3⟩
      (.node true ⟨"6", "d", "i", 4⟩ .null (.node true ⟨"7", "e", "j", 5⟩ .null .null)) .null)
    "5" rfl (by decide) (by decide) (by decide)
  exact ⟨R1, h1, h2, h5 (by decide)⟩

end BinarySearchTree

namespace HashTable

theorem unlinkFirst_split {front back : List Entry} {e : Entry} {bidId : String}
    (hfront : ∀ x ∈ front, x.bid.bidId ≠ bidId) (hkey : e.key ≠ UINT_MAX)
    (hid : e.bid.bidId = bidId) :
    unlinkFirst (front ++ e :: back) bidId = front ++ back := by
  induction front with
  | nil => simp [unlinkFirst, hkey, hid]
  | cons x front ih =>
    have hx : x.bid.bidId ≠ bidId := hfront x (List.mem_cons_self _ _)
    show unlinkFirst (x :: (front ++ e :: back)) bidId = x :: (front ++ back)
    rw [unlinkFirst, if_neg (fun h => hx h.2), ih fun y hy => hfront y (List.mem_cons_of_mem _ hy)]

theorem filter_ne_split {A B : List Bid} {r : Bid}
    (hnd : ((A ++ r :: B).map Bid.bidId).Nodup) :
    (A ++ r :: B).filter (fun x => !decide (x.bidId = r.bidId)) = A ++ B := by
  rw [List.map_append, List.map_cons] at hnd
  have h1 := List.nodup_append.mp hnd
  have hA : ∀ x ∈ A, x.bidId ≠ r.bidId := fun x hx h =>
    h1.2.2 (List.mem_map_of_mem _ hx) (by rw [h]; exact List.mem_cons_self _ _)
  have hB : ∀ x ∈ B, x.bidId ≠ r.bidId := fun x hx h =>
    (List.nodup_cons.mp h1.2.1).1 (by rw [← h]; exact List.mem_map_of_mem _ hx)
  rw [List.filter_append, List.filter_cons_of_neg (by simp),
    List.filter_eq_self.mpr (fun x hx => by simpa using hA x hx),
    List.filter_eq_self.mpr (fun x hx => by simpa using hB x hx)]

/-- C30: in a table built by the inserts of records with pairwise distinct numeric ids,
`Remove` of the id of a record that is not the head of its bucket returns and unlinks that
entry only: the head slot of the bucket keeps its record and key, its chain `front ++ e ::
back`, with `e` the entry removed, becomes `front ++ back`, every other bucket is as it
was, and the table is the one built by the inserts of the other records in their order. -/
theorem Remove_chained_entry (N : Nat) (hN : 0 < N) (hmax : N ≤ UINT_MAX) (rs : List Bid)
    (r : Bid) (hnum : ∀ x ∈ rs, isNumeric x.bidId = true) (hdist : (rs.map Bid.bidId).Nodup)
    (hr : r ∈ rs)
    (hchained : (rs.filter fun x => decide (bucketOf N x = bucketOf N r)).head? ≠ some r) :
    ∃ t t', insertAll (create N) rs = .ok t ∧ t.Remove r.bidId = .ok t' ∧
      t'.tableSize = t.tableSize ∧
      (∀ j, j ≠ bucketOf N r → t'.nodes[j]? = t.nodes[j]?) ∧
      (∃ node front back, t.nodes[bucketOf N r]? = some node ∧
        node.next = front ++ ⟨r, bucketOf N r⟩ :: back ∧
        t'.nodes[bucketOf N r]? = some ⟨node.bid, node.key, front ++ back⟩) ∧
      insertAll (create N) (rs.filter fun x => !decide (x.bidId = r.bidId)) = .ok t' := by
  obtain ⟨k, hk, hklt⟩ := homeBucket_numeric hN (hnum r hr) (tableOf N rs)
  have hbk : bucketOf N r = k := bucketOf_spec _ hk
  have hkne : k ≠ UINT_MAX := by omega
  rw [hbk] at hchained ⊢
  have hrfs : r ∈ rs.filter fun x => decide (bucketOf N x = k) := by
    simp [List.mem_filter, hr, hbk]
  have hfsnd : ((rs.filter fun x => decide (bucketOf N x = k)).map Bid.bidId).Nodup :=
    hdist.sublist ((List.filter_sublist _).map _)
  -- the bucket holds a first record `f`, and `r` further on
  cases hfs : rs.filter fun x => decide (bucketOf N x = k) with
  | nil => rw [hfs] at hrfs; simp at hrfs
  | cons f rest =>
    rw [hfs] at hrfs hfsnd hchained
    have hfr : f ≠ r := fun h => hchained (by simp [h])
    have hrrest : r ∈ rest := by
      rcases List.mem_cons.mp hrfs with h | h
      · exact absurd h.symm hfr
      · exact h
    obtain ⟨front, back, hsplit⟩ := List.append_of_mem hrrest
    subst hsplit
    have hnd2 : (((f :: front) ++ r :: back).map Bid.bidId).Nodup := by simpa using hfsnd
    have hfilt := filter_ne_split hnd2
    simp only [List.cons_append] at hfilt
    have hfid : f.bidId ≠ r.bidId := by
      intro h
      have := (List.nodup_cons.mp (by simpa using hfsnd : (f.bidId ::
        ((front ++ r :: back).map Bid.bidId)).Nodup)).1
      exact this (by rw [h]; simp)
    have hfrontid : ∀ x ∈ front, x.bidId ≠ r.bidId := by
      intro x hx h
      have h1 := List.nodup_cons.mp (by simpa using hfsnd : (f.bidId ::
        ((front ++ r :: back).map Bid.bidId)).Nodup)
      rw [List.map_append, List.map_cons] at h1
      exact (List.nodup_append.mp h1.2).2.2 (List.mem_map_of_mem _ hx)
        (by rw [h]; exact List.mem_cons_self _ _)
    have hnode : (tableOf N rs)[k]? = some ⟨f, k, (front ++ r :: back).map fun x => ⟨x, k⟩⟩ := by
      rw [tableOf_getElem? N rs hklt, hfs]
      rfl
    have hunlink : unlinkFirst ((front ++ r :: back).map fun x => (⟨x, k⟩ : Entry)) r.bidId
        = (front ++ back).map fun x => ⟨x, k⟩ := by
      rw [List.map_append, List.map_cons, List.map_append]
      apply unlinkFirst_split _ hkne rfl
      intro x hx
      obtain ⟨y, hy, rfl⟩ := List.mem_map.mp hx
      exact hfrontid y hy
    have hrem : Remove ⟨N, tableOf N rs⟩ r.bidId = .ok ⟨N, (tableOf N rs).set k
        ⟨f, k, (front ++ back).map fun x => ⟨x, k⟩⟩⟩ := by
      unfold Remove
      simp only [hk, hnode, hkne, if_false, hfid, hunlink]
    have htable : (tableOf N rs).set k ⟨f, k, (front ++ back).map fun x => ⟨x, k⟩⟩
        = tableOf N (rs.filter fun x => !decide (x.bidId = r.bidId)) := by
      apply List.ext_getElem?
      intro j
      by_cases hj : j < N
      · rw [tableOf_getElem? N _ hj, List.getElem?_set]
        by_cases hkj : k = j
        · subst hkj
          rw [if_pos rfl, if_pos (by rw [tableOf_length]; exact hj), List.filter_filter]
          have hcomm : (rs.filter fun a => decide (bucketOf N a = k) &&
              !decide (a.bidId = r.bidId))
              = (rs.filter fun x => decide (bucketOf N x = k)).filter
                  fun x => !decide (x.bidId = r.bidId) := by
            rw [List.filter_filter]
            apply List.filter_congr
            intro x _
            rw [Bool.and_comm]
          rw [hcomm, hfs, hfilt]
          rfl
        · rw [if_neg hkj, tableOf_getElem? N _ hj, List.filter_filter]
          congr 2
          apply List.filter_congr
          intro x _
          by_cases hxb : bucketOf N x = j
          · have hxid : x.bidId ≠ r.bidId := by
              intro h
              have := bucketOf_of_id (N := N) h
              rw [hbk, hxb] at this
              exact hkj this.symm
            simp [hxb, hxid]
          · simp [hxb]
      · rw [List.getElem?_eq_none (by simp [tableOf_length]; omega),
          List.getElem?_eq_none (by simp [tableOf_length]; omega)]
    have hnum' : ∀ x ∈ rs.filter (fun x => !decide (x.bidId = r.bidId)),
        isNumeric x.bidId = true := fun x hx => hnum x (List.mem_of_mem_filter hx)
    refine ⟨⟨N, tableOf N rs⟩, _, insertAll_create hN hmax rs hnum, hrem, rfl, ?_, ?_, ?_⟩
    · intro j hj
      show ((tableOf N rs).set k _)[j]? = _
      rw [List.getElem?_set_ne (Ne.symm hj)]
    · refine ⟨_, front.map (fun x => ⟨x, k⟩), back.map (fun x => ⟨x, k⟩), hnode, by simp, ?_⟩
      show ((tableOf N rs).set k _)[k]? = _
      rw [List.getElem?_set_self (by rw [tableOf_length]; exact hklt)]
      simp
    · rw [insertAll_create hN hmax _ hnum', ← htable]

/-- Five buckets and the ids "3", "8", "13", "4": "8" is the second of the three entries
of the bucket 3. -/
theorem Remove_chained_entry_witness :
    ∃ t t', insertAll (create 5)
        [⟨"3", "a", "f", 1⟩, ⟨"8", "b", "g", 2⟩, ⟨"13", "c", "h", 3⟩, ⟨"4", "d", "i", 4⟩] = .ok t ∧
      t.Remove "8" = .ok t' ∧
      t'.nodes = [Node.open, Node.open, Node.open,
        ⟨⟨"3", "a", "f", 1⟩, 3, [⟨⟨"13", "c", "h", 3⟩, 3⟩]⟩, ⟨⟨"4", "d", "i", 4⟩, 4, []⟩] := by
  obtain ⟨t, t', h1, h2, _, _, _, h6⟩ := Remove_chained_entry 5 (by decide) (by decide)
    [⟨"3", "a", "f", 1⟩, ⟨"8", "b", "g", 2⟩, ⟨"13", "c", "h", 3⟩, ⟨"4", "d", "i", 4⟩]
    ⟨"8", "b", "g", 2⟩ (by decide) (by decide) (by decide) (by decide)
  refine ⟨t, t', h1, h2, ?_⟩
  have h7 : (Except.ok t' : Except Fault HashTable) = .ok ⟨5, [Node.open, Node.open, Node.open,
      ⟨⟨"3", "a", "f", 1⟩, 3, [⟨⟨"13", "c", "h", 3⟩, 3⟩]⟩, ⟨⟨"4", "d", "i", 4⟩, 4, []⟩]⟩ :=
    h6.symm.trans (by decide)
  rw [Except.ok.inj h7]

end HashTable

namespace VectorSorting

theorem quickSort_whole_spec (bids : List Bid) (hne : bids ≠ []) :
    ∃ r, quickSort bids 0 ((bids.length : Int) - 1) = .ok r ∧ r.Perm bids ∧
      r.Pairwise TitleLe := by
  have hpos : 0 < bids.length := List.length_pos.mpr hne
  obtain ⟨r, hr, hperm, _, hsorted⟩ :=
    quickSort_spec bids 0 (bids.length - 1) (by omega) (by omega)
  have hcast : (((bids.length - 1 : Nat) : Int)) = (bids.length : Int) - 1 := by omega
  rw [hcast] at hr
  refine ⟨r, hr, hperm, ?_⟩
  rw [List.pairwise_iff_getElem]
  intro i j hi hj hij
  have hlen := hperm.length_eq
  rw [getElem_eq_nth hi, getElem_eq_nth hj]
  exact hsorted i j (Nat.zero_le _) hij (by omega)

theorem titles_eq_of_perm_of_sorted {r bids : List Bid} (hperm : r.Perm bids)
    (hr : r.Pairwise TitleLe) (hb : bids.Pairwise TitleLe) :
    r.map Bid.title = bids.map Bid.title := by
  haveI : IsAntisymm String (fun a b => strLess b a = false) :=
    ⟨fun _ _ h1 h2 => strLess_total h2 h1⟩
  have h1 : List.Sorted (fun a b => strLess b a = false) (r.map Bid.title) :=
    List.pairwise_map.mpr hr
  have h2 : List.Sorted (fun a b => strLess b a = false) (bids.map Bid.title) :=
    List.pairwise_map.mpr hb
  exact List.eq_of_perm_of_sorted (hperm.map _) h1 h2

theorem eq_of_perm_of_strict {r bids : List Bid} (hperm : r.Perm bids)
    (ht : r.map Bid.title = bids.map Bid.title)
    (hb : bids.Pairwise (fun a b => strLess a.title b.title = true)) : r = bids := by
  haveI : IsAntisymm Bid (fun a b => strLess a.title b.title = true) :=
    ⟨fun _ _ h1 h2 => by rw [strLess_asymm h1] at h2; exact absurd h2 (by simp)⟩
  have hb' : (bids.map Bid.title).Pairwise (fun a b => strLess a b = true) :=
    List.pairwise_map.mpr hb
  rw [← ht] at hb'
  have h1 : List.Sorted (fun a b : Bid => strLess a.title b.title = true) r :=
    List.pairwise_map.mp hb'
  have h2 : List.Sorted (fun a b : Bid => strLess a.title b.title = true) bids := hb
  exact List.eq_of_perm_of_sorted hperm h1 h2

/-- C21, as the code contradicts it: the vector of two records with the same title "A"
and different ids, funds and amounts has non-decreasing titles, and `quickSort(bids, 0, 1)`
returns the two records exchanged, not the vector it was given. -/
theorem quickSort_exchanges_equal_titles :
    [(⟨"1", "A", "f", 1⟩ : Bid), ⟨"2", "A", "g", 2⟩].Pairwise
        (fun a b => strLess b.title a.title = false) ∧
    quickSort [⟨"1", "A", "f", 1⟩, ⟨"2", "A", "g", 2⟩] 0 1
      = .ok [⟨"2", "A", "g", 2⟩, ⟨"1", "A", "f", 1⟩] ∧
    quickSort [⟨"1", "A", "f", 1⟩, ⟨"2", "A", "g", 2⟩] 0 1
      ≠ .ok [⟨"1", "A", "f", 1⟩, ⟨"2", "A", "g", 2⟩] := by
  decide

/-- C21, amended: for every non-empty vector whose titles are non-decreasing,
`quickSort(bids, 0, n - 1)` returns a permutation of the vector with the same title at every
index (records with equal titles may be exchanged); when the titles are strictly
increasing it returns the vector it was given, record for record. -/
theorem quickSort_sorted_input (bids : List Bid) (hne : bids ≠ [])
    (hsorted : bids.Pairwise (fun a b => strLess b.title a.title = false)) :
    ∃ r, quickSort bids 0 ((bids.length : Int) - 1) = .ok r ∧ r.Perm bids ∧
      r.map Bid.title = bids.map Bid.title ∧
      (bids.Pairwise (fun a b => strLess a.title b.title = true) → r = bids) := by
  obtain ⟨r, hr, hperm, hrs⟩ := quickSort_whole_spec bids hne
  have ht := titles_eq_of_perm_of_sorted hperm hrs hsorted
  exact ⟨r, hr, hperm, ht, fun hstrict => eq_of_perm_of_strict hperm ht hstrict⟩

/-- The vector with the titles A, B, B, C: the titles are returned in place. -/
theorem quickSort_sorted_input_witness :
    ∃ r, quickSort [⟨"1", "A", "f", 1⟩, ⟨"2", "B", "g", 2⟩, ⟨"3", "B", "h", 3⟩, ⟨"4", "C", "i", 4⟩]
        0 (([(⟨"1", "A", "f", 1⟩ : Bid), ⟨"2", "B", "g", 2⟩, ⟨"3", "B", "h", 3⟩,
          ⟨"4", "C", "i", 4⟩].length : Int) - 1) = .ok r ∧
      r.Perm [⟨"1", "A", "f", 1⟩, ⟨"2", "B", "g", 2⟩, ⟨"3", "B", "h", 3⟩, ⟨"4", "C", "i", 4⟩] ∧
      r.map Bid.title = [(⟨"1", "A", "f", 1⟩ : Bid), ⟨"2", "B", "g", 2⟩, ⟨"3", "B", "h", 3⟩,
        ⟨"4", "C", "i", 4⟩].map Bid.title ∧
      ([(⟨"1", "A", "f", 1⟩ : Bid), ⟨"2", "B", "g", 2⟩, ⟨"3", "B", "h", 3⟩,
          ⟨"4", "C", "i", 4⟩].Pairwise (fun a b => strLess a.title b.title = true) →
        r = [⟨"1", "A", "f", 1⟩, ⟨"2", "B", "g", 2⟩, ⟨"3", "B", "h", 3⟩, ⟨"4", "C", "i", 4⟩]) :=
  quickSort_sorted_input
    [⟨"1", "A", "f", 1⟩, ⟨"2", "B", "g", 2⟩, ⟨"3", "B", "h", 3⟩, ⟨"4", "C", "i", 4⟩]
    (by decide) (by decide)

end VectorSorting

namespace VectorSorting

theorem scanLowT_erase (bids : List Bid) (pv : String) : ∀ (fuel : Nat) (low : Int),
    (scanLowT bids pv fuel low).map Prod.fst = scanLow bids pv fuel low := by
  intro fuel
  induction fuel with
  | zero => intro low; rfl
  | succ fuel ih =>
    intro low
    simp only [scanLowT, scanLow]
    cases elemAt bids (low + 1) with
    | error e => rfl
    | ok b =>
      simp only
      split_ifs
      · rw [← ih (low + 1)]
        cases scanLowT bids pv fuel (low + 1) with
        | error e => rfl
        | ok x => rfl
      · rfl

theorem scanHighT_erase (bids : List Bid) (pv : String) : ∀ (fuel : Nat) (high : Int),
    (scanHighT bids pv fuel high).map Prod.fst = scanHigh bids pv fuel high := by
  intro fuel
  induction fuel with
  | zero => intro high; rfl
  | succ fuel ih =>
    intro high
    simp only [scanHighT, scanHigh]
    cases elemAt bids (high - 1) with
    | error e => rfl
    | ok b =>
      simp only
      split_ifs
      · rw [← ih (high - 1)]
        cases scanHighT bids pv fuel (high - 1) with
        | error e => rfl
        | ok x => rfl
      · rfl

theorem partitionLoopT_erase (pv : String) : ∀ (fuel : Nat) (bids : List Bid) (low high : Int),
    (partitionLoopT pv fuel bids low high).map (fun x => (x.1, x.2.1))
      = partitionLoop pv fuel bids low high := by
  intro fuel
  induction fuel with
  | zero => intro bids low high; rfl
  | succ fuel ih =>
    intro bids low high
    simp only [partitionLoopT, partitionLoop]
    rw [← scanLowT_erase, ← scanHighT_erase]
    cases scanLowT bids pv (bids.length + 1) low with
    | error e => rfl
    | ok x1 =>
      cases scanHighT bids pv (bids.length + 1) high with
      | error e => rfl
      | ok x2 =>
        simp only [Except.map]
        split_ifs
        · rfl
        · cases elemAt bids x1.1 with
          | error e => cases elemAt bids x2.1 <;> rfl
          | ok temp =>
            cases elemAt bids x2.1 with
            | error e => rfl
            | ok bh =>
              simp only
              rw [← ih]
              cases partitionLoopT pv fuel ((bids.set x1.1.toNat bh).set x2.1.toNat temp)
                  x1.1 x2.1 with
              | error e => rfl
              | ok y => rfl

theorem partitionT_erase (bids : List Bid) (begin endIdx : Int) :
    (partitionT bids begin endIdx).map (fun x => (x.1, x.2.1)) = partition bids begin endIdx := by
  simp only [partitionT, partition]
  cases elemAt bids (Int.tdiv (begin + endIdx) 2) with
  | error e => rfl
  | ok pivot =>
    simp only
    rw [← partitionLoopT_erase]
    cases partitionLoopT pivot.title (bids.length + 1) bids (begin - 1) (endIdx + 1) with
    | error e => rfl
    | ok y => rfl

theorem quickSortLoopT_erase : ∀ (fuel : Nat) (bids : List Bid) (begin endIdx : Int),
    (quickSortLoopT fuel bids begin endIdx).map Prod.fst
      = quickSortLoop fuel bids begin endIdx := by
  intro fuel
  induction fuel with
  | zero => intro bids begin endIdx; rfl
  | succ fuel ih =>
    intro bids begin endIdx
    simp only [quickSortLoopT, quickSortLoop]
    split_ifs
    · rw [← partitionT_erase]
      cases partitionT bids begin endIdx with
      | error e => rfl
      | ok x =>
        simp only [Except.map]
        rw [← ih]
        cases quickSortLoopT fuel x.2.1 begin x.1 with
        | error e => rfl
        | ok y =>
          simp only [Except.map]
          rw [← ih]
          cases quickSortLoopT fuel y.1 (x.1 + 1) endIdx with
          | error e => rfl
          | ok z => rfl
    · rfl

end VectorSorting

namespace VectorSorting

theorem exists_of_map_fst {α β : Type} {x : Except Fault (α × β)} {a : α}
    (h : x.map Prod.fst = .ok a) : ∃ t, x = .ok (a, t) := by
  cases x with
  | error e => exact absurd h (by simp [Except.map])
  | ok v =>
    obtain ⟨v1, v2⟩ := v
    have : v1 = a := Except.ok.inj h
    subst this
    exact ⟨v2, rfl⟩

theorem scanLowT_bounds (bids : List Bid) (pv : String) :
    ∀ (fuel : Nat) (low l1 : Int) (tr : List Int), scanLowT bids pv fuel low = .ok (l1, tr) →
      low < l1 ∧ ∀ x ∈ tr, low < x ∧ x ≤ l1 := by
  intro fuel
  induction fuel with
  | zero => intro low l1 tr h; exact absurd h (by simp [scanLowT])
  | succ fuel ih =>
    intro low l1 tr h
    simp only [scanLowT] at h
    cases hE : elemAt bids (low + 1) with
    | error e => rw [hE] at h; exact absurd h (by simp)
    | ok b =>
      rw [hE] at h
      simp only at h
      split_ifs at h
      · cases hR : scanLowT bids pv fuel (low + 1) with
        | error e => rw [hR] at h; exact absurd h (by simp)
        | ok y =>
          obtain ⟨y1, y2⟩ := y
          rw [hR] at h
          simp only [Except.ok.injEq, Prod.mk.injEq] at h
          obtain ⟨h1, h2⟩ := h
          subst h1 h2
          obtain ⟨hlt, hall⟩ := ih (low + 1) y1 y2 hR
          refine ⟨by omega, ?_⟩
          intro x hx
          rcases List.mem_cons.mp hx with rfl | hx
          · omega
          · have := hall x hx
            omega
      · simp only [Except.ok.injEq, Prod.mk.injEq] at h
        obtain ⟨h1, h2⟩ := h
        subst h1 h2
        refine ⟨by omega, ?_⟩
        intro x hx
        simp only [List.mem_singleton] at hx
        omega

theorem scanHighT_bounds (bids : List Bid) (pv : String) :
    ∀ (fuel : Nat) (high h1 : Int) (tr : List Int), scanHighT bids pv fuel high = .ok (h1, tr) →
      h1 < high ∧ ∀ x ∈ tr, h1 ≤ x ∧ x < high := by
  intro fuel
  induction fuel with
  | zero => intro high h1 tr h; exact absurd h (by simp [scanHighT])
  | succ fuel ih =>
    intro high h1 tr h
    simp only [scanHighT] at h
    cases hE : elemAt bids (high - 1) with
    | error e => rw [hE] at h; exact absurd h (by simp)
    | ok b =>
      rw [hE] at h
      simp only at h
      split_ifs at h
      · cases hR : scanHighT bids pv fuel (high - 1) with
        | error e => rw [hR] at h; exact absurd h (by simp)
        | ok y =>
          obtain ⟨y1, y2⟩ := y
          rw [hR] at h
          simp only [Except.ok.injEq, Prod.mk.injEq] at h
          obtain ⟨e1, e2⟩ := h
          subst e1 e2
          obtain ⟨hlt, hall⟩ := ih (high - 1) y1 y2 hR
          refine ⟨by omega, ?_⟩
          intro x hx
          rcases List.mem_cons.mp hx with rfl | hx
          · omega
          · have := hall x hx
            omega
      · simp only [Except.ok.injEq, Prod.mk.injEq] at h
        obtain ⟨e1, e2⟩ := h
        subst e1 e2
        refine ⟨by omega, ?_⟩
        intro x hx
        simp only [List.mem_singleton] at hx
        omega

theorem partitionLoopT_bounds (pv : String) (b e : Nat) :
    ∀ (fuel : Nat) (bids : List Bid) (lo hi : Nat),
      e < bids.length → b ≤ lo → hi ≤ e → hi + 1 - lo < fuel →
      (∃ m1, lo ≤ m1 ∧ m1 ≤ e ∧ strLess (nth bids m1).title pv = false) →
      (∃ m2, b ≤ m2 ∧ m2 ≤ hi ∧ strLess pv (nth bids m2).title = false) →
      ∃ (p : Int) (r : List Bid) (tr : List Int),
        partitionLoopT pv fuel bids ((lo : Int) - 1) ((hi : Int) + 1) = .ok (p, r, tr) ∧
        ∀ x ∈ tr, (b : Int) ≤ x ∧ x ≤ (e : Int) := by
  intro fuel
  induction fuel with
  | zero => intro bids lo hi _ _ _ hf; omega
  | succ fuel ih =>
    intro bids lo hi he hblo hhie hf hd1 hd2
    obtain ⟨m1, hm1a, hm1b, hm1c⟩ := hd1
    obtain ⟨m2, hm2a, hm2b, hm2c⟩ := hd2
    obtain ⟨l1, hlow, hl1a, hl1b, hl1stop, _⟩ :=
      scanLow_spec bids pv (bids.length + 1) lo m1 hm1a (by omega) hm1c (by omega)
    obtain ⟨h1, hhigh, hh1a, hh1b, hh1stop, _⟩ :=
      scanHigh_spec bids pv (bids.length + 1) hi m2 hm2b (by omega) hm2c (by omega)
    rw [← scanLowT_erase] at hlow
    rw [← scanHighT_erase] at hhigh
    obtain ⟨tr1, hlowT⟩ := exists_of_map_fst hlow
    obtain ⟨tr2, hhighT⟩ := exists_of_map_fst hhigh
    have hb1 := (scanLowT_bounds bids pv _ _ _ _ hlowT).2
    have hb2 := (scanHighT_bounds bids pv _ _ _ _ hhighT).2
    have htr1 : ∀ x ∈ tr1, (b : Int) ≤ x ∧ x ≤ (e : Int) := fun x hx => by
      have := hb1 x hx
      omega
    have htr2 : ∀ x ∈ tr2, (b : Int) ≤ x ∧ x ≤ (e : Int) := fun x hx => by
      have := hb2 x hx
      omega
    simp only [partitionLoopT, hlowT, hhighT]
    by_cases hret : h1 ≤ l1
    · rw [if_pos (by omega)]
      refine ⟨_, _, _, rfl, ?_⟩
      intro x hx
      rcases List.mem_append.mp hx with h | h
      · exact htr1 x h
      · exact htr2 x h
    · have hlt : l1 < h1 := by omega
      have hl1len : l1 < bids.length := by omega
      have hh1len : h1 < bids.length := by omega
      rw [if_neg (by omega)]
      simp only [elemAt_cast hl1len, elemAt_cast hh1len, Int.toNat_ofNat]
      have hswap : (bids.set l1 (nth bids h1)).set h1 (nth bids l1) = swapAt bids l1 h1 := rfl
      rw [hswap]
      have hcast1 : (l1 : Int) = ((l1 + 1 : Nat) : Int) - 1 := by omega
      have hcast2 : (h1 : Int) = ((h1 - 1 : Nat) : Int) + 1 := by omega
      have hnth := nth_swapAt hl1len hh1len
      obtain ⟨p, r, tr3, hrun, htr3⟩ :=
        ih (swapAt bids l1 h1) (l1 + 1) (h1 - 1) (by rw [length_swapAt]; exact he)
          (by omega) (by omega) (by omega)
          ⟨h1, by omega, by omega, by rw [hnth h1, if_pos rfl]; exact hl1stop⟩
          ⟨l1, by omega, by omega, by
            rw [hnth l1, if_neg (by omega), if_pos rfl]; exact hh1stop⟩
      rw [← hcast1, ← hcast2] at hrun
      rw [hrun]
      refine ⟨_, _, _, rfl, ?_⟩
      intro x hx
      simp only [List.mem_append, List.mem_cons, List.mem_singleton, List.not_mem_nil,
        or_false] at hx
      rcases hx with ((h | h) | h) | h
      · exact htr1 x h
      · exact htr2 x h
      · rcases h with h | h | h | h <;> omega
      · exact htr3 x h

theorem partitionT_bounds (bids : List Bid) (b e : Nat) (hbe : b < e) (he : e < bids.length) :
    ∃ (p : Int) (r : List Bid) (tr : List Int),
      partitionT bids (b : Int) (e : Int) = .ok (p, r, tr) ∧
      ∀ x ∈ tr, (b : Int) ≤ x ∧ x ≤ (e : Int) := by
  have hmid : Int.tdiv ((b : Int) + (e : Int)) 2 = (((b + e) / 2 : Nat) : Int) := by
    rw [Int.tdiv_eq_ediv (by omega) (by omega)]
    omega
  have hmlt : (b + e) / 2 < bids.length := by omega
  obtain ⟨p, r, tr, hrun, htr⟩ := partitionLoopT_bounds (nth bids ((b + e) / 2)).title b e
    (bids.length + 1) bids b e he (Nat.le_refl _) (Nat.le_refl _) (by omega)
    ⟨(b + e) / 2, by omega, by omega, strLess_irrefl _⟩
    ⟨(b + e) / 2, by omega, by omega, strLess_irrefl _⟩
  refine ⟨p, r, Int.tdiv ((b : Int) + (e : Int)) 2 :: tr, ?_, ?_⟩
  · unfold partitionT
    rw [hmid]
    simp only [elemAt_cast hmlt, hrun]
  · intro x hx
    rcases List.mem_cons.mp hx with rfl | hx
    · omega
    · exact htr x hx

theorem quickSortLoopT_bounds : ∀ (fuel : Nat) (bids : List Bid) (b e : Nat), b ≤ e →
    e < bids.length → e - b < fuel →
    ∃ (r : List Bid) (tr : List Int), quickSortLoopT fuel bids (b : Int) (e : Int) = .ok (r, tr) ∧
      r.length = bids.length ∧ ∀ x ∈ tr, (b : Int) ≤ x ∧ x ≤ (e : Int) := by
  intro fuel
  induction fuel with
  | zero => intro bids b e _ _ hf; omega
  | succ fuel ih =>
    intro bids b e hbe he hf
    by_cases hlt : b < e
    · obtain ⟨p, bids1, hpart, hbp, hpe, hperm1, _⟩ := partition_spec bids b e hlt he
      obtain ⟨p', r', tr1, hpartT, htr1⟩ := partitionT_bounds bids b e hlt he
      have hsame : (p', r') = ((p : Int), bids1) := by
        have h := partitionT_erase bids (b : Int) (e : Int)
        rw [hpartT, hpart] at h
        exact Except.ok.inj h
      obtain ⟨hp', hr'⟩ := Prod.mk.inj hsame
      rw [hp', hr'] at hpartT
      have hlen1 : bids1.length = bids.length := hperm1.length_eq
      obtain ⟨bids2, tr2, hrun2, hlen2, htr2⟩ := ih bids1 b p hbp (by omega) (by omega)
      obtain ⟨bids3, tr3, hrun3, hlen3, htr3⟩ :=
        ih bids2 (p + 1) e (by omega) (by omega) (by omega)
      have hcast : (p : Int) + 1 = ((p + 1 : Nat) : Int) := by omega
      refine ⟨bids3, tr1 ++ tr2 ++ tr3, ?_, by omega, ?_⟩
      · simp only [quickSortLoopT, if_pos (show (b : Int) < (e : Int) by omega), hpartT, hrun2,
          hcast, hrun3]
      · intro x hx
        rcases List.mem_append.mp hx with h | h
        · rcases List.mem_append.mp h with h | h
          · exact htr1 x h
          · have := htr2 x h
            omega
        · have := htr3 x h
          omega
    · have hbe2 : b = e := by omega
      subst hbe2
      refine ⟨bids, [], ?_, rfl, fun x hx => absurd hx (List.not_mem_nil _)⟩
      simp only [quickSortLoopT, if_neg (show ¬ ((b : Int) < (b : Int)) by omega)]

/-- C27: with a range of valid indices `0 <= begin <= end <= n - 1`, every element access
of `quickSort(bids, begin, end)`, read or write, of both cursors of every `partition` step, is at
an index of `[begin, end]`, and the records at the indices outside of `[begin, end]` are as
they were.  The function with the list of accesses returns the vector `quickSort` returns,
on every input. -/
theorem quickSort_accesses (bids : List Bid) (begin endIdx : Int) (h0 : 0 ≤ begin)
    (hbe : begin ≤ endIdx) (he : endIdx < bids.length) :
    ∃ (r : List Bid) (tr : List Int), quickSortT bids begin endIdx = .ok (r, tr) ∧
      quickSort bids begin endIdx = .ok r ∧
      (∀ x ∈ tr, begin ≤ x ∧ x ≤ endIdx) ∧
      r.length = bids.length ∧
      (∀ x : Nat, (x : Int) < begin ∨ endIdx < (x : Int) → r[x]? = bids[x]?) ∧
      ∀ (v : List Bid) (i j : Int), (quickSortT v i j).map Prod.fst = quickSort v i j := by
  obtain ⟨b, rfl⟩ := Int.eq_ofNat_of_zero_le h0
  obtain ⟨e, rfl⟩ := Int.eq_ofNat_of_zero_le (Int.le_trans h0 hbe)
  obtain ⟨r, tr, hrunT, hlen, htr⟩ :=
    quickSortLoopT_bounds (bids.length + 1) bids b e (by omega) (by omega) (by omega)
  obtain ⟨r2, hrun, _, hframe, _⟩ := quickSort_spec bids b e (by omega) (by omega)
  have herase := quickSortLoopT_erase (bids.length + 1) bids (b : Int) (e : Int)
  rw [hrunT] at herase
  have hr : quickSort bids (b : Int) (e : Int) = .ok r := herase.symm
  have hr2 : r2 = r := Except.ok.inj (hrun.symm.trans hr)
  subst hr2
  refine ⟨r2, tr, hrunT, hr, htr, hlen, ?_, fun v i j => quickSortLoopT_erase _ v i j⟩
  intro x hx
  exact hframe x (by omega)

/-- The vector with the titles D, C, A, B and the range 1..3: the accesses are at the
indices 1, 2 and 3, and the record at the index 0 stays. -/
theorem quickSort_accesses_witness :
    ∃ (r : List Bid) (tr : List Int),
      quickSortT [⟨"0", "D", "e", 0⟩, ⟨"1", "C", "f", 1⟩, ⟨"2", "A", "g", 2⟩, ⟨"3", "B", "h", 3⟩]
        1 3 = .ok (r, tr) ∧
      (∀ x ∈ tr, (1 : Int) ≤ x ∧ x ≤ 3) ∧
      r = [⟨"0", "D", "e", 0⟩, ⟨"2", "A", "g", 2⟩, ⟨"3", "B", "h", 3⟩, ⟨"1", "C", "f", 1⟩] := by
  obtain ⟨r, tr, h1, h2, h3, _⟩ := quickSort_accesses
    [⟨"0", "D", "e", 0⟩, ⟨"1", "C", "f", 1⟩, ⟨"2", "A", "g", 2⟩, ⟨"3", "B", "h", 3⟩] 1 3
    (by decide) (by decide) (by decide)
  refine ⟨r, tr, h1, h3, ?_⟩
  exact Except.ok.inj (h2.symm.trans (by decide))

end VectorSorting

namespace VectorSorting

/-- C31: `selectionSort` is not stable: for all records `x`, `y`, `z`, given in this order,
where `x` and `y` have the same title and the title of `z` is below it, the call returns
`z`, `y`, `x`: the exchange of the first pass carries `x` behind `y`, and the second pass
exchanges nothing, the two titles being equal. -/
theorem selectionSort_reverses_equal_titles (x y z : Bid) (hxy : x.title = y.title)
    (hz : strLess z.title x.title = true) :
    selectionSort [x, y, z] = .ok [z, y, x] := by
  have h1 : strLess y.title x.title = false := by rw [hxy]; exact strLess_irrefl _
  have h2 : strLess x.title y.title = false := by rw [hxy]; exact strLess_irrefl _
  simp [selectionSort, sortLoop, minLoop, h1, h2, hz]

/-- The records with the titles B, B, A and the ids x, y, z come out as z, y, x. -/
theorem selectionSort_reverses_equal_titles_witness :
    selectionSort [⟨"x", "B", "f", 1⟩, ⟨"y", "B", "g", 2⟩, ⟨"z", "A", "h", 3⟩]
      = .ok [⟨"z", "A", "h", 3⟩, ⟨"y", "B", "g", 2⟩, ⟨"x", "B", "f", 1⟩] :=
  selectionSort_reverses_equal_titles ⟨"x", "B", "f", 1⟩ ⟨"y", "B", "g", 2⟩ ⟨"z", "A", "h", 3⟩
    rfl (by decide)

end VectorSorting
